import Mathlib

/-!
# addr_trie: binary prefix tries for IP addresses and a label trie for domains

A shallow embedding of the three Go source files
(`ipv4.go`, `matcher/ipv6.go`, `matcher/domain.go`).

* A Go pointer to a node is an inductive value that is either `null` or a node;
  the tries own their nodes exclusively, so in-place mutation becomes a function
  from the old tree to the new one.
* A Go `map[string]X` is a function from `String` (`none` / `null` = key absent);
  the map field of `DomainMatcher`, which is nil in a zero-value matcher, is an
  `Option` of such a function.
* A `*V` is an `Option V`.
* A call that mutates returns the state it leaves behind together with what it
  returned: `none` for a nil error, `some (Failure.error _)` for a returned error
  and `some (Failure.crash _)` for a run-time panic.
* The string parsers of Go's `net` package are parameters (`net.Lib`); the pure
  helpers of the standard library that the code calls on their results (`To4`,
  `To16`, `Mask.Size`, `binary.BigEndian`, `strings.Split`) are modelled after
  their Go definitions.  A nil slice is the empty list.
-/

/-- How a call can fail: a returned error value or a run-time panic. -/
inductive Failure where
  | error (msg : String)
  | crash (msg : String)
  deriving DecidableEq

/-! ## The parts of the Go standard library used by the code -/

/-- Go `net.IPNet`: a network address and its mask, both byte slices. -/
structure net.IPNet where
  IP : List Nat
  Mask : List Nat
  deriving DecidableEq

/-- The two string parsers of Go's `net` package, taken as parameters.
`ParseCIDR s = none` is a returned error; `ParseIP s = []` is a nil result. -/
structure net.Lib where
  ParseCIDR : String → Option (List Nat × net.IPNet)
  ParseIP : String → List Nat

/-- Go `net.IP.To4`: the 4-byte form of an address, or nil. -/
def net.To4 (ip : List Nat) : List Nat :=
  if ip.length = 4 then ip
  else if ip.length = 16 ∧ (ip.take 10).all (fun b => b == 0) = true
      ∧ ip.getD 10 0 = 0xff ∧ ip.getD 11 0 = 0xff then
    (ip.drop 12).take 4
  else []

/-- Go `net.IP.To16`: the 16-byte form of an address, or nil. -/
def net.To16 (ip : List Nat) : List Nat :=
  if ip.length = 4 then [0, 0, 0, 0, 0, 0, 0, 0, 0, 0, 0xff, 0xff] ++ ip
  else if ip.length = 16 then ip
  else []

/-- The inner loop of Go `simpleMaskLength`: count the leading one-bits of a
byte, shifting it left; returns the shifted byte and the count. -/
def net.leadingOnes : Nat → Nat → Nat → Nat × Nat
  | 0, v, n => (v, n)
  | fuel + 1, v, n =>
    if v &&& 0x80 ≠ 0 then net.leadingOnes fuel ((v <<< 1) % 256) (n + 1) else (v, n)

/-- Go `simpleMaskLength`: the number of leading one-bits of a mask made of
ones followed by zeros; `none` stands for the result -1 of any other mask. -/
def net.simpleMaskLength : List Nat → Nat → Option Nat
  | [], n => some n
  | v :: rest, n =>
    if v = 0xff then net.simpleMaskLength rest (n + 8)
    else
      let r := net.leadingOnes 8 v n
      if r.1 ≠ 0 then none
      else if rest.all (fun b => b == 0) = true then some r.2
      else none

/-- Go `net.IPMask.Size`: `(ones, bits)`, and `(0, 0)` for a non-canonical mask. -/
def net.MaskSize (m : List Nat) : Nat × Nat :=
  match net.simpleMaskLength m 0 with
  | none => (0, 0)
  | some ones => (ones, m.length * 8)

/-- Go `binary.BigEndian.Uint32`: reads the first four bytes; panics on a
shorter slice. -/
def binary.BigEndian.Uint32 : List Nat → Except Failure Nat
  | b0 :: b1 :: b2 :: b3 :: _ =>
    .ok ((b3 % 256) ||| ((b2 % 256) <<< 8) ||| ((b1 % 256) <<< 16) ||| ((b0 % 256) <<< 24))
  | _ => .error (.crash "index out of range [3]")

/-- Go `binary.BigEndian.Uint64`: reads the first eight bytes; panics on a
shorter slice. -/
def binary.BigEndian.Uint64 : List Nat → Except Failure Nat
  | b0 :: b1 :: b2 :: b3 :: b4 :: b5 :: b6 :: b7 :: _ =>
    .ok ((b7 % 256) ||| ((b6 % 256) <<< 8) ||| ((b5 % 256) <<< 16) ||| ((b4 % 256) <<< 24)
      ||| ((b3 % 256) <<< 32) ||| ((b2 % 256) <<< 40) ||| ((b1 % 256) <<< 48)
      ||| ((b0 % 256) <<< 56))
  | _ => .error (.crash "index out of range [7]")

/-! ## ipv4.go -/

namespace addrtrie

/-- Source `parseIPorCIDR`: the 32-bit address and the prefix length. -/
def parseIPorCIDR (lib : net.Lib) (s : String) : Except Failure (Nat × Nat) :=
  match lib.ParseCIDR s with
  | some (_, ipNet) =>
    match binary.BigEndian.Uint32 (net.To4 ipNet.IP) with
    | .error e => .error e
    | .ok ip =>
      let ones := (net.MaskSize ipNet.Mask).1
      let bits := (net.MaskSize ipNet.Mask).2
      if bits ≠ 32 then .error (.error "non-IPv4 mask")
      else if ones = 0 ∧ bits = 0 then .error (.error "non-canonical mask")
      else .ok (ip, ones)
  | none =>
    let parsed := net.To4 (lib.ParseIP s)
    if parsed = [] then .error (.error "invalid IPv4 address")
    else
      match binary.BigEndian.Uint32 parsed with
      | .error e => .error e
      | .ok ip => .ok (ip, 32)

/-- Source `getBit`: bit `i` of a 32-bit value, most significant first.  A
negative shift count is a run-time panic in Go. -/
def getBit (v : Nat) (i : Nat) : Except Failure Nat :=
  if i ≤ 31 then .ok ((v >>> (31 - i)) &&& 1)
  else .error (.crash "negative shift amount")

/-- Source `*bitNode[V]`: nil, or a node with two child pointers and a value. -/
inductive bitNode (V : Type) where
  | null : bitNode V
  | node (child0 child1 : bitNode V) (value : Option V) : bitNode V
  deriving DecidableEq

/-- Source `BitTrie[V]`. -/
structure BitTrie (V : Type) where
  root : bitNode V
  deriving DecidableEq

/-- Source `NewBitTrie`. -/
def NewBitTrie {V : Type} : BitTrie V := ⟨.node .null .null none⟩

/-- The child pointer after `if cur.children[b] == nil { cur.children[b] = new }`. -/
def bitNode.orNew {V : Type} : bitNode V → bitNode V
  | .null => .node .null .null none
  | c => c

/-- The loop of source `BitTrie.Insert` from iteration `i` with `k` iterations
left, followed by `cur.value = &value`; returns the subtree rooted at `cur`. -/
def BitTrie.insertLoop {V : Type} (ip : Nat) (value : V) :
    Nat → Nat → bitNode V → bitNode V × Option Failure
  | _, 0, .null => (.null, some (.crash "nil pointer dereference"))
  | _, 0, .node c0 c1 _ => (.node c0 c1 (some value), none)
  | i, k + 1, cur =>
    match getBit ip i with
    | .error e => (cur, some e)
    | .ok b =>
      match cur with
      | .null => (.null, some (.crash "nil pointer dereference"))
      | .node c0 c1 val =>
        if b = 0 then
          let r := BitTrie.insertLoop ip value (i + 1) k c0.orNew
          (.node r.1 c1 val, r.2)
        else
          let r := BitTrie.insertLoop ip value (i + 1) k c1.orNew
          (.node c0 r.1 val, r.2)

/-- Source `BitTrie.Insert`. -/
def BitTrie.Insert {V : Type} (lib : net.Lib) (t : BitTrie V) (pattern : String) (value : V) :
    BitTrie V × Option Failure :=
  match parseIPorCIDR lib pattern with
  | .error e => (t, some e)
  | .ok (ip, bitLen) =>
    let r := BitTrie.insertLoop ip value 0 bitLen t.root
    (⟨r.1⟩, r.2)

/-- The statement `if cur.value != nil { best = cur.value }`. -/
def pickBest {V : Type} (value best : Option V) : Option V :=
  match value with
  | some v => some v
  | none => best

/-- The loop of source `BitTrie.Find` from iteration `i` with `k` iterations
left, followed by the final check of `cur.value`. -/
def BitTrie.findLoop {V : Type} (ipUint : Nat) :
    Nat → Nat → bitNode V → Option V → Except Failure (Option V)
  | _, _, .null, _ => .error (.crash "nil pointer dereference")
  | _, 0, .node _ _ val, best => .ok (pickBest val best)
  | i, k + 1, .node c0 c1 val, best =>
    match getBit ipUint i with
    | .error e => .error e
    | .ok b =>
      match (if b = 0 then c0 else c1) with
      | .null => .ok (pickBest val (pickBest val best))
      | child => BitTrie.findLoop ipUint (i + 1) k child (pickBest val best)

/-- Source `BitTrie.Find`. -/
def BitTrie.Find {V : Type} (lib : net.Lib) (t : BitTrie V) (ipStr : String) :
    Except Failure (Option V) :=
  let ip := net.To4 (lib.ParseIP ipStr)
  if ip = [] then .ok none
  else
    match binary.BigEndian.Uint32 ip with
    | .error e => .error e
    | .ok ipUint => BitTrie.findLoop ipUint 0 32 t.root none

end addrtrie

/-! ## matcher/ipv6.go -/

namespace matcher

/-- Source `ipv6Addr`: the high and the low 64 bits. -/
structure ipv6Addr where
  hi : Nat
  lo : Nat
  deriving DecidableEq

/-- Source `newIPv6Addr`.  Slicing a nil `To16` result is a run-time panic. -/
def newIPv6Addr (ip : List Nat) : Except Failure ipv6Addr :=
  let ip16 := net.To16 ip
  if ip16.length < 16 then .error (.crash "slice bounds out of range")
  else
    match binary.BigEndian.Uint64 (ip16.take 8) with
    | .error e => .error e
    | .ok hi =>
      match binary.BigEndian.Uint64 ((ip16.drop 8).take 8) with
      | .error e => .error e
      | .ok lo => .ok ⟨hi, lo⟩

/-- Source `ipv6Addr.getBit`: bit `i` of the 128-bit value, most significant
first; an index outside 0..127 is a returned error. -/
def ipv6Addr.getBit (a : ipv6Addr) (i : Nat) : Except Failure Nat :=
  if i ≥ 128 then .error (.error "bit index out of range")
  else if i < 64 then .ok ((a.hi >>> (63 - i)) &&& 1)
  else .ok ((a.lo >>> (63 - (i - 64))) &&& 1)

/-- Source `parseIPorCIDRIPv6`: the 128-bit address and the prefix length. -/
def parseIPorCIDRIPv6 (lib : net.Lib) (s : String) : Except Failure (ipv6Addr × Nat) :=
  match lib.ParseCIDR s with
  | some (ip0, ipNet) =>
    let ip := net.To16 ip0
    if ip = [] ∨ net.To4 ip ≠ [] then .error (.error "non-IPv6 CIDR")
    else
      let ones := (net.MaskSize ipNet.Mask).1
      let bits := (net.MaskSize ipNet.Mask).2
      if bits ≠ 128 then .error (.error "non-IPv6 mask")
      else if ones = 0 ∧ bits = 0 then .error (.error "non-canonical mask")
      else
        match newIPv6Addr ip with
        | .error e => .error e
        | .ok addr => .ok (addr, ones)
  | none =>
    let ip := net.To16 (lib.ParseIP s)
    if ip = [] ∨ net.To4 ip ≠ [] then .error (.error "invalid IPv6 address")
    else
      match newIPv6Addr ip with
      | .error e => .error e
      | .ok addr => .ok (addr, 128)

/-- Source `*bitNode6[V]`: nil, or a node with two child pointers and a value. -/
inductive bitNode6 (V : Type) where
  | null : bitNode6 V
  | node (child0 child1 : bitNode6 V) (value : Option V) : bitNode6 V
  deriving DecidableEq

/-- Source `BitTrie6[V]`. -/
structure BitTrie6 (V : Type) where
  root : bitNode6 V
  deriving DecidableEq

/-- Source `NewBitTrie6`. -/
def NewBitTrie6 {V : Type} : BitTrie6 V := ⟨.node .null .null none⟩

/-- The child pointer after `if cur.children[b] == nil { cur.children[b] = new }`. -/
def bitNode6.orNew {V : Type} : bitNode6 V → bitNode6 V
  | .null => .node .null .null none
  | c => c

/-- The loop of source `BitTrie6.Insert` from iteration `i` with `k` iterations
left, followed by `cur.value = value`; returns the subtree rooted at `cur`,
also when the loop returns an error half-way. -/
def BitTrie6.insertLoop {V : Type} (addr : ipv6Addr) (value : Option V) :
    Nat → Nat → bitNode6 V → bitNode6 V × Option Failure
  | _, 0, .null => (.null, some (.crash "nil pointer dereference"))
  | _, 0, .node c0 c1 _ => (.node c0 c1 value, none)
  | i, k + 1, cur =>
    match addr.getBit i with
    | .error e => (cur, some e)
    | .ok b =>
      match cur with
      | .null => (.null, some (.crash "nil pointer dereference"))
      | .node c0 c1 val =>
        if b = 0 then
          let r := BitTrie6.insertLoop addr value (i + 1) k c0.orNew
          (.node r.1 c1 val, r.2)
        else
          let r := BitTrie6.insertLoop addr value (i + 1) k c1.orNew
          (.node c0 r.1 val, r.2)

/-- Source `BitTrie6.Insert`; the value is a pointer and may be nil. -/
def BitTrie6.Insert {V : Type} (lib : net.Lib) (t : BitTrie6 V) (pattern : String)
    (value : Option V) : BitTrie6 V × Option Failure :=
  match parseIPorCIDRIPv6 lib pattern with
  | .error e => (t, some e)
  | .ok (addr, bitLen) =>
    if bitLen > 128 then (t, some (.error "invalid prefix length"))
    else
      let r := BitTrie6.insertLoop addr value 0 bitLen t.root
      (⟨r.1⟩, r.2)

/-- The statement `if cur.value != nil { best = cur.value }`. -/
def pickBest {V : Type} (value best : Option V) : Option V :=
  match value with
  | some v => some v
  | none => best

/-- The loop of source `BitTrie6.Find` from iteration `i` with `k` iterations
left, followed by the final check of `cur.value`. -/
def BitTrie6.findLoop {V : Type} (addr : ipv6Addr) :
    Nat → Nat → bitNode6 V → Option V → Except Failure (Option V)
  | _, _, .null, _ => .error (.crash "nil pointer dereference")
  | _, 0, .node _ _ val, best => .ok (pickBest val best)
  | i, k + 1, .node c0 c1 val, best =>
    match addr.getBit i with
    | .error e => .error e
    | .ok b =>
      match (if b = 0 then c0 else c1) with
      | .null => .ok (pickBest val (pickBest val best))
      | child => BitTrie6.findLoop addr (i + 1) k child (pickBest val best)

/-- Source `BitTrie6.Find`: `.ok r` is the return `(r, nil)`. -/
def BitTrie6.Find {V : Type} (lib : net.Lib) (t : BitTrie6 V) (ipStr : String) :
    Except Failure (Option V) :=
  let ip := net.To16 (lib.ParseIP ipStr)
  if ip = [] ∨ net.To4 ip ≠ [] then .error (.error "invalid ip")
  else
    match newIPv6Addr ip with
    | .error e => .error e
    | .ok addr => BitTrie6.findLoop addr 0 128 t.root none

end matcher

/-! ## The parts of Go's `strings` package used by matcher/domain.go -/

/-- Go `strings.Split` on the characters of a string, for a one-character
separator: the pieces between separators, at least one piece. -/
def strings.splitChars (sep : Char) : List Char → List (List Char)
  | [] => [[]]
  | c :: cs =>
    if c = sep then [] :: strings.splitChars sep cs
    else
      match strings.splitChars sep cs with
      | [] => [[c]]
      | l :: ls => (c :: l) :: ls

/-- Go `strings.Split(s, sep)` for a one-character separator. -/
def strings.Split (s : String) (sep : Char) : List String :=
  (strings.splitChars sep s.data).map String.mk

/-- Go `strings.Contains(s, sep)` for a one-character substring. -/
def strings.Contains (s : String) (sep : Char) : Bool :=
  s.data.contains sep

/-- Go `strings.HasPrefix`. -/
def strings.HasPrefix (s p : String) : Bool :=
  p.data.isPrefixOf s.data

/-- Go slice expression `s[n:]` on a string whose first `n` characters are
one-byte characters. -/
def strings.sliceFrom (s : String) (n : Nat) : String :=
  ⟨s.data.drop n⟩

/-! ## matcher/domain.go -/

namespace matcher

/-- Source `*lableNode[V]`: nil, or a node with a map from label to child
pointer (`null` = key absent) and a value. -/
inductive lableNode (V : Type) where
  | null : lableNode V
  | node (children : String → lableNode V) (value : Option V) : lableNode V

/-- Source `DomainMatcher[V]`.  `exactDomains = none` is the nil map of a
zero-value matcher: it can be read, and writing to it is a run-time panic. -/
structure DomainMatcher (V : Type) where
  exactDomains : Option (String → Option V)
  root : lableNode V

/-- Source `NewDomainMatcher`. -/
def NewDomainMatcher {V : Type} : DomainMatcher V :=
  ⟨some (fun _ => none), .node (fun _ => .null) none⟩

/-- The map read `m.exactDomains[domain]`; a nil map has no key. -/
def DomainMatcher.exactGet {V : Type} (m : DomainMatcher V) (domain : String) : Option V :=
  match m.exactDomains with
  | some table => table domain
  | none => none

/-- The map write `m.exactDomains[key] = &value`; on a nil map it panics and
leaves the matcher as it was. -/
def DomainMatcher.exactSet {V : Type} (m : DomainMatcher V) (key : String) (value : V) :
    DomainMatcher V × Option Failure :=
  match m.exactDomains with
  | some table => (⟨some (fun k => if k = key then some value else table k), m.root⟩, none)
  | none => (m, some (.crash "assignment to entry in nil map"))

/-- The swap `parts[i], parts[j] = parts[j], parts[i]`. -/
def swapParts (parts : List String) (i j : Nat) : List String :=
  (parts.set i (parts.getD j "")).set j (parts.getD i "")

/-- The loop of source `SplitAndReverse`: swap positions `i` and `j` while
`i < j`, moving both inwards; the first argument bounds the iterations. -/
def reverseParts : Nat → List String → Nat → Nat → List String
  | 0, parts, _, _ => parts
  | fuel + 1, parts, i, j =>
    if i < j then reverseParts fuel (swapParts parts i j) (i + 1) (j - 1) else parts

/-- Source `SplitAndReverse`. -/
def SplitAndReverse (domain : String) : List String :=
  let parts := strings.Split domain '.'
  reverseParts parts.length parts 0 (parts.length - 1)

/-- The child pointer after `if node.children[lable] == nil { ... = new }`. -/
def lableNode.orNew {V : Type} : lableNode V → lableNode V
  | .null => .node (fun _ => .null) none
  | c => c

/-- The loop of source `insertTrie` over the remaining labels, followed by
`node.value = &value`; returns the subtree rooted at `node`. -/
def lableNode.insertLoop {V : Type} (value : V) :
    List String → lableNode V → lableNode V × Option Failure
  | _, .null => (.null, some (.crash "nil pointer dereference"))
  | [], .node ch _ => (.node ch (some value), none)
  | lable :: rest, .node ch val =>
    let r := lableNode.insertLoop value rest (ch lable).orNew
    (.node (fun k => if k = lable then r.1 else ch k) val, r.2)

/-- Source `DomainMatcher.insertTrie`. -/
def DomainMatcher.insertTrie {V : Type} (m : DomainMatcher V) (domain : String) (value : V) :
    DomainMatcher V × Option Failure :=
  let r := lableNode.insertLoop value (SplitAndReverse domain) m.root
  (⟨m.exactDomains, r.1⟩, r.2)

/-- Source `DomainMatcher.Add`. -/
def DomainMatcher.Add {V : Type} (m : DomainMatcher V) (pattern : String) (value : V) :
    DomainMatcher V × Option Failure :=
  if ¬ strings.Contains pattern '.' then
    (m, some (.error ("invalid pattern: " ++ pattern)))
  else if strings.HasPrefix pattern "*." then
    m.insertTrie (strings.sliceFrom pattern 2) value
  else if strings.HasPrefix pattern "*" then
    let domain := strings.sliceFrom pattern 1
    match m.exactSet domain value with
    | (m1, none) => m1.insertTrie domain value
    | (m1, some e) => (m1, some e)
  else
    m.exactSet pattern value

/-- The loop of source `DomainMatcher.Find` over the remaining labels. -/
def lableNode.findLoop {V : Type} :
    List String → lableNode V → Option V → Except Failure (Option V)
  | [], _, value => .ok value
  | _ :: _, .null, _ => .error (.crash "nil pointer dereference")
  | lable :: rest, .node ch _, value =>
    match ch lable with
    | .null => .ok value
    | .node ch2 val2 => lableNode.findLoop rest (.node ch2 val2) (pickBest val2 value)

/-- Source `DomainMatcher.Find`. -/
def DomainMatcher.Find {V : Type} (m : DomainMatcher V) (domain : String) :
    Except Failure (Option V) :=
  match m.exactGet domain with
  | some v => .ok (some v)
  | none => lableNode.findLoop (SplitAndReverse domain) m.root none

end matcher

/-! ## A finite excerpt of Go's `net` parsers, for concrete runs -/

/-- A parser table: `ParseCIDR` and `ParseIP` answer as listed, and fail on
every other string. -/
def net.tableLib (cidrs : List (String × List Nat × net.IPNet))
    (ips : List (String × List Nat)) : net.Lib :=
  ⟨fun s => cidrs.lookup s, fun s => (ips.lookup s).getD []⟩

/-- What Go's `net.ParseCIDR` and `net.ParseIP` return on a few literals:
IPv4 networks carry a 4-byte network address and mask, IPv6 networks 16-byte
ones, and `ParseIP` always returns the 16-byte form. -/
def net.sampleLib : net.Lib :=
  net.tableLib
    [("10.0.0.0/8",
        ([0, 0, 0, 0, 0, 0, 0, 0, 0, 0, 255, 255, 10, 0, 0, 0],
          ⟨[10, 0, 0, 0], [255, 0, 0, 0]⟩)),
     ("10.1.0.0/16",
        ([0, 0, 0, 0, 0, 0, 0, 0, 0, 0, 255, 255, 10, 1, 0, 0],
          ⟨[10, 1, 0, 0], [255, 255, 0, 0]⟩)),
     ("2001:db8::/32",
        ([0x20, 0x01, 0x0d, 0xb8, 0, 0, 0, 0, 0, 0, 0, 0, 0, 0, 0, 0],
          ⟨[0x20, 0x01, 0x0d, 0xb8, 0, 0, 0, 0, 0, 0, 0, 0, 0, 0, 0, 0],
           [255, 255, 255, 255, 0, 0, 0, 0, 0, 0, 0, 0, 0, 0, 0, 0]⟩))]
    [("10.1.2.3", [0, 0, 0, 0, 0, 0, 0, 0, 0, 0, 255, 255, 10, 1, 2, 3]),
     ("10.2.3.4", [0, 0, 0, 0, 0, 0, 0, 0, 0, 0, 255, 255, 10, 2, 3, 4]),
     ("11.0.0.0", [0, 0, 0, 0, 0, 0, 0, 0, 0, 0, 255, 255, 11, 0, 0, 0]),
     ("2001:db8:1::1",
        [0x20, 0x01, 0x0d, 0xb8, 0, 1, 0, 0, 0, 0, 0, 0, 0, 0, 0, 1])]

/-! ## Reading a trie as a map from paths to values -/

/-- The value stored by the most recent entry whose key is `q`, for a list of
entries given oldest first. -/
def lastAt {E K V : Type} [DecidableEq K] (key : E → List K) (val : E → V) :
    List E → List K → Option V
  | [], _ => none
  | e :: rest, q =>
    match lastAt key val rest q with
    | some v => some v
    | none => if key e = q then some (val e) else none

/-- The value that `f` gives to the longest initial segment of the path that
has one. -/
def bestAlong {K V : Type} (f : List K → Option V) : List K → Option V
  | [] => f []
  | b :: rest =>
    match bestAlong (fun q => f (b :: q)) rest with
    | some v => some v
    | none => f []

/-- The entry `e` is the longest match of the path among the entries, and the
most recent one among the entries with its key: it splits the list so that no
entry matching the path is longer, and none after it is as long. -/
def IsLongestMatch {E K : Type} (key : E → List K) (es : List E) (path : List K) (e : E) :
    Prop :=
  ∃ before after, es = before ++ e :: after ∧ key e <+: path
    ∧ (∀ e1 ∈ before, key e1 <+: path → (key e1).length ≤ (key e).length)
    ∧ (∀ e1 ∈ after, key e1 <+: path → (key e1).length < (key e).length)

/-! ## Specification vocabulary for the 32-bit trie -/

namespace addrtrie

/-- The value on the node reached from a node by a path of bits
(`true` = child 1), if the node exists and carries one. -/
def bitNode.lookup {V : Type} : bitNode V → List Bool → Option V
  | .null, _ => none
  | .node _ _ val, [] => val
  | .node c0 c1 _, b :: rest => if b then c1.lookup rest else c0.lookup rest

/-- Bits `i, i+1, ..., i+k-1` of a 32-bit value, most significant first. -/
def bitPath (v : Nat) : Nat → Nat → List Bool
  | _, 0 => []
  | i, k + 1 => (((v >>> (31 - i)) &&& 1) != 0) :: bitPath v (i + 1) k

/-- One inserted prefix: what the pattern parsed to, and the value. -/
structure Route (V : Type) where
  ip : Nat
  bitLen : Nat
  value : V

/-- The address `x` lies in the prefix: the first `bitLen` most significant
of the 32 bits of `x` equal those of `ip`. -/
def Route.covers {V : Type} (e : Route V) (x : Nat) : Prop :=
  e.ip / 2 ^ (32 - e.bitLen) = x / 2 ^ (32 - e.bitLen)

/-- A sequence of `Insert` calls that all return nil, and the trie they leave;
`none` when some call fails. -/
def BitTrie.insertAll {V : Type} (lib : net.Lib) :
    BitTrie V → List (String × V) → Option (BitTrie V)
  | t, [] => some t
  | t, c :: rest =>
    match BitTrie.Insert lib t c.1 c.2 with
    | (t1, none) => BitTrie.insertAll lib t1 rest
    | (_, some _) => none

/-- What the patterns of a sequence of calls parse to, oldest first. -/
def BitTrie.parsedCalls {V : Type} (lib : net.Lib) (calls : List (String × V)) :
    List (Route V) :=
  calls.filterMap fun c =>
    match parseIPorCIDR lib c.1 with
    | .ok (ip, bitLen) => some ⟨ip, bitLen, c.2⟩
    | .error _ => none

end addrtrie

namespace addrtrie

/-- The calls of the first testable property: two nested IPv4 prefixes. -/
def sampleCalls : List (String × String) := [("10.0.0.0/8", "A"), ("10.1.0.0/16", "B")]

/-- The trie left by `sampleCalls` on a new trie. -/
def sampleTrie : BitTrie String :=
  (BitTrie.Insert net.sampleLib
    (BitTrie.Insert net.sampleLib NewBitTrie "10.0.0.0/8" "A").1 "10.1.0.0/16" "B").1

end addrtrie

/-! ## Specification vocabulary for the 128-bit trie -/

namespace matcher

/-- The value on the node reached from a node by a path of bits
(`true` = child 1), if the node exists and carries one. -/
def bitNode6.lookup {V : Type} : bitNode6 V → List Bool → Option V
  | .null, _ => none
  | .node _ _ val, [] => val
  | .node c0 c1 _, b :: rest => if b then c1.lookup rest else c0.lookup rest

/-- The bit that `getBit` returns for an index below 128. -/
def ipv6Addr.bitAt (a : ipv6Addr) (i : Nat) : Nat :=
  if i < 64 then (a.hi >>> (63 - i)) &&& 1 else (a.lo >>> (63 - (i - 64))) &&& 1

/-- Bits `i, i+1, ..., i+k-1` of a 128-bit address, most significant first. -/
def bitPath6 (a : ipv6Addr) : Nat → Nat → List Bool
  | _, 0 => []
  | i, k + 1 => (a.bitAt i != 0) :: bitPath6 a (i + 1) k

/-- The 128-bit number of an address: `hi` above `lo`. -/
def ipv6Addr.toNat (a : ipv6Addr) : Nat := a.hi * 2 ^ 64 + a.lo

/-- One inserted prefix: what the pattern parsed to, and the value. -/
structure Route6 (V : Type) where
  addr : ipv6Addr
  bitLen : Nat
  value : V

/-- The address `x` lies in the prefix: the first `bitLen` most significant
of the 128 bits of `x` equal those of `addr`. -/
def Route6.covers {V : Type} (e : Route6 V) (x : ipv6Addr) : Prop :=
  e.addr.toNat / 2 ^ (128 - e.bitLen) = x.toNat / 2 ^ (128 - e.bitLen)

/-- A sequence of `Insert` calls with non-nil values that all return nil, and
the trie they leave; `none` when some call fails. -/
def BitTrie6.insertAll {V : Type} (lib : net.Lib) :
    BitTrie6 V → List (String × V) → Option (BitTrie6 V)
  | t, [] => some t
  | t, c :: rest =>
    match BitTrie6.Insert lib t c.1 (some c.2) with
    | (t1, none) => BitTrie6.insertAll lib t1 rest
    | (_, some _) => none

/-- What the patterns of a sequence of calls parse to, oldest first. -/
def BitTrie6.parsedCalls {V : Type} (lib : net.Lib) (calls : List (String × V)) :
    List (Route6 V) :=
  calls.filterMap fun c =>
    match parseIPorCIDRIPv6 lib c.1 with
    | .ok (addr, bitLen) => some ⟨addr, bitLen, c.2⟩
    | .error _ => none

/-- The call of the IPv6 testable property. -/
def sampleCalls6 : List (String × String) := [("2001:db8::/32", "X")]

/-- The trie left by `sampleCalls6` on a new trie. -/
def sampleTrie6 : BitTrie6 String :=
  (BitTrie6.Insert net.sampleLib NewBitTrie6 "2001:db8::/32" (some "X")).1

end matcher

/-! ## Specification vocabulary for the domain matcher -/

namespace matcher

/-- The value on the node reached from a node by a path of labels, if the
node exists and carries one. -/
def lableNode.lookup {V : Type} : lableNode V → List String → Option V
  | .null, _ => none
  | .node _ val, [] => val
  | .node ch _, lable :: rest => (ch lable).lookup rest

/-- The matcher left by a sequence of `Add` calls, whatever they return. -/
def DomainMatcher.addAll {V : Type} : DomainMatcher V → List (String × V) → DomainMatcher V
  | m, [] => m
  | m, c :: rest => DomainMatcher.addAll (m.Add c.1 c.2).1 rest

/-- The base of a wildcard pattern in the words of the specification: a
pattern with a dot that starts with `*.` has the remainder after `*.` as its
base, one that starts with `*` but not `*.` has the remainder after `*`;
exact patterns and patterns without a dot have none. -/
def wildcardBase (pattern : String) : Option String :=
  if strings.Contains pattern '.' = false then none
  else if strings.HasPrefix pattern "*." = true then some (strings.sliceFrom pattern 2)
  else if strings.HasPrefix pattern "*" = true then some (strings.sliceFrom pattern 1)
  else none

/-- The wildcard patterns among a sequence of calls, as base and value,
oldest first. -/
def wildcardCalls {V : Type} (calls : List (String × V)) : List (String × V) :=
  calls.filterMap fun c => (wildcardBase c.1).map fun b => (b, c.2)

/-- The label sequence of a domain, leftmost label first. -/
def labels (domain : String) : List String := strings.Split domain '.'

/-- A matcher with a suffix wildcard and, added later, an exact entry for its
apex with another value. -/
def sampleMatcher : DomainMatcher String :=
  ((NewDomainMatcher.Add "*.example.com" "W").1.Add "example.com" "E").1

end matcher

/-! ## Further vocabulary: node structure, address families, call sequences -/

/-- An IPv4-mapped address `::ffff:a.b.c.d`: 16 bytes that start with ten
zero bytes and two `0xff` bytes. -/
def net.isIPv4Mapped (ip : List Nat) : Prop :=
  ip.length = 16 ∧ ip.take 12 = [0, 0, 0, 0, 0, 0, 0, 0, 0, 0, 0xff, 0xff]

/-- An IPv4-compatible address `::a.b.c.d`: 16 bytes that start with twelve
zero bytes. -/
def net.isIPv4Compatible (ip : List Nat) : Prop :=
  ip.length = 16 ∧ ip.take 12 = [0, 0, 0, 0, 0, 0, 0, 0, 0, 0, 0, 0]

/-- A genuine IPv6 address: 16 bytes that are not an IPv4-mapped address. -/
def net.isGenuineIPv6 (ip : List Nat) : Prop :=
  ip.length = 16 ∧ ¬ net.isIPv4Mapped ip

/-- The number that a byte slice denotes in network byte order: the first
byte is the most significant. -/
def net.bigEndianValue (bytes : List Nat) : Nat :=
  bytes.foldl (fun acc b => acc * 256 + b % 256) 0

/-- What Go's `net.ParseCIDR` and `net.ParseIP` return on some more literals,
among them a zero-length IPv4 network, an IPv6 network written with host bits,
an IPv4-mapped and an IPv4-compatible address. -/
def net.sampleLib2 : net.Lib :=
  net.tableLib
    [("0.0.0.0/0",
        ([0, 0, 0, 0, 0, 0, 0, 0, 0, 0, 255, 255, 0, 0, 0, 0],
          ⟨[0, 0, 0, 0], [0, 0, 0, 0]⟩)),
     ("10.0.0.0/8",
        ([0, 0, 0, 0, 0, 0, 0, 0, 0, 0, 255, 255, 10, 0, 0, 0],
          ⟨[10, 0, 0, 0], [255, 0, 0, 0]⟩)),
     ("10.1.0.0/16",
        ([0, 0, 0, 0, 0, 0, 0, 0, 0, 0, 255, 255, 10, 1, 0, 0],
          ⟨[10, 1, 0, 0], [255, 255, 0, 0]⟩)),
     ("::ffff:10.1.2.3/128",
        ([0, 0, 0, 0, 0, 0, 0, 0, 0, 0, 255, 255, 10, 1, 2, 3],
          ⟨[0, 0, 0, 0, 0, 0, 0, 0, 0, 0, 255, 255, 10, 1, 2, 3],
           [255, 255, 255, 255, 255, 255, 255, 255, 255, 255, 255, 255, 255, 255, 255, 255]⟩)),
     ("2001:db8::/32",
        ([0x20, 0x01, 0x0d, 0xb8, 0, 0, 0, 0, 0, 0, 0, 0, 0, 0, 0, 0],
          ⟨[0x20, 0x01, 0x0d, 0xb8, 0, 0, 0, 0, 0, 0, 0, 0, 0, 0, 0, 0],
           [255, 255, 255, 255, 0, 0, 0, 0, 0, 0, 0, 0, 0, 0, 0, 0]⟩)),
     ("2001:db8::1/32",
        ([0x20, 0x01, 0x0d, 0xb8, 0, 0, 0, 0, 0, 0, 0, 0, 0, 0, 0, 1],
          ⟨[0x20, 0x01, 0x0d, 0xb8, 0, 0, 0, 0, 0, 0, 0, 0, 0, 0, 0, 0],
           [255, 255, 255, 255, 0, 0, 0, 0, 0, 0, 0, 0, 0, 0, 0, 0]⟩))]
    [("10.1.2.3", [0, 0, 0, 0, 0, 0, 0, 0, 0, 0, 255, 255, 10, 1, 2, 3]),
     ("11.0.0.0", [0, 0, 0, 0, 0, 0, 0, 0, 0, 0, 255, 255, 11, 0, 0, 0]),
     ("::ffff:10.1.2.3", [0, 0, 0, 0, 0, 0, 0, 0, 0, 0, 255, 255, 10, 1, 2, 3]),
     ("::1.2.3.4", [0, 0, 0, 0, 0, 0, 0, 0, 0, 0, 0, 0, 1, 2, 3, 4]),
     ("2001:db8:1::1",
        [0x20, 0x01, 0x0d, 0xb8, 0, 1, 0, 0, 0, 0, 0, 0, 0, 0, 0, 1])]

namespace addrtrie

/-- Whether a node exists at the end of a path of bits from a node. -/
def bitNode.present {V : Type} : bitNode V → List Bool → Bool
  | .null, _ => false
  | .node _ _ _, [] => true
  | .node c0 c1 _, b :: rest => if b then c1.present rest else c0.present rest

/-- The tree after storing a value on the node at the end of a path, with the
missing nodes of the path created. -/
def bitNode.insertPath {V : Type} (value : Option V) : List Bool → bitNode V → bitNode V
  | _, .null => .null
  | [], .node c0 c1 _ => .node c0 c1 value
  | b :: rest, .node c0 c1 val =>
    if b then .node c0 (bitNode.insertPath value rest c1.orNew) val
    else .node (bitNode.insertPath value rest c0.orNew) c1 val

end addrtrie

namespace matcher

/-- The tree after storing a value (or nil) on the node at the end of a path,
with the missing nodes of the path created. -/
def bitNode6.insertPath {V : Type} (value : Option V) : List Bool → bitNode6 V → bitNode6 V
  | _, .null => .null
  | [], .node c0 c1 _ => .node c0 c1 value
  | b :: rest, .node c0 c1 val =>
    if b then .node c0 (bitNode6.insertPath value rest c1.orNew) val
    else .node (bitNode6.insertPath value rest c0.orNew) c1 val

/-- The trie left by a sequence of `Insert` calls with any values, nil
included, whatever the calls return. -/
def BitTrie6.insertSeq {V : Type} (lib : net.Lib) :
    BitTrie6 V → List (String × Option V) → BitTrie6 V
  | t, [] => t
  | t, c :: rest => BitTrie6.insertSeq lib (BitTrie6.Insert lib t c.1 c.2).1 rest

end matcher

/-! ## Longest match over a map from paths to values -/

section LongestMatch

variable {E K V : Type}

theorem lastAt_eq_none_iff [DecidableEq K] (key : E → List K) (val : E → V) (es : List E) (q : List K) :
    lastAt key val es q = none ↔ ∀ e ∈ es, key e ≠ q := by
  induction es with
  | nil => simp [lastAt]
  | cons e rest ih =>
    simp only [lastAt, List.mem_cons, forall_eq_or_imp]
    cases h : lastAt key val rest q with
    | some v =>
      have := (not_congr ih).mp (by simp [h])
      constructor
      · intro h1; cases h1
      · intro h1; exact absurd h1.2 this
    | none =>
      have := ih.mp h
      by_cases hk : key e = q
      · simp [hk]
      · simp only [hk, if_false, true_iff]
        exact ⟨fun h1 => hk h1, this⟩

theorem lastAt_eq_some_iff [DecidableEq K] (key : E → List K) (val : E → V) (es : List E) (q : List K) (v : V) :
    lastAt key val es q = some v ↔
      ∃ before e after, es = before ++ e :: after ∧ key e = q ∧ val e = v
        ∧ ∀ e1 ∈ after, key e1 ≠ q := by
  induction es with
  | nil => simp [lastAt]
  | cons e rest ih =>
    simp only [lastAt]
    cases h : lastAt key val rest q with
    | some w =>
      simp only [Option.some.injEq]
      constructor
      · rintro rfl
        obtain ⟨b, e1, a, rfl, hk, hv, ha⟩ := (ih).mp (by rw [h])
        exact ⟨e :: b, e1, a, rfl, hk, hv, ha⟩
      · rintro ⟨b, e1, a, hes, hk, hv, ha⟩
        cases b with
        | nil =>
          simp only [List.nil_append, List.cons.injEq] at hes
          obtain ⟨rfl, rfl⟩ := hes
          have := (lastAt_eq_none_iff key val rest q).mpr ha
          rw [h] at this; cases this
        | cons b0 b =>
          simp only [List.cons_append, List.cons.injEq] at hes
          obtain ⟨rfl, rfl⟩ := hes
          have := ih.mpr ⟨b, e1, a, rfl, hk, hv, ha⟩
          rw [h] at this; exact Option.some.inj this
    | none =>
      have hnone := (lastAt_eq_none_iff key val rest q).mp h
      constructor
      · intro hv
        by_cases hk : key e = q
        · simp only [hk, if_true, Option.some.injEq] at hv
          exact ⟨[], e, rest, rfl, hk, hv, hnone⟩
        · simp [hk] at hv
      · rintro ⟨b, e1, a, hes, hk, hv, ha⟩
        cases b with
        | nil =>
          simp only [List.nil_append, List.cons.injEq] at hes
          obtain ⟨rfl, rfl⟩ := hes
          simp [hk, hv]
        | cons b0 b =>
          simp only [List.cons_append, List.cons.injEq] at hes
          obtain ⟨rfl, rfl⟩ := hes
          exact absurd hk (hnone e1 (by simp))

theorem bestAlong_eq_none_iff (f : List K → Option V) (path : List K) :
    bestAlong f path = none ↔ ∀ q, q <+: path → f q = none := by
  induction path generalizing f with
  | nil => simp [bestAlong]
  | cons b rest ih =>
    simp only [bestAlong]
    cases h : bestAlong (fun q => f (b :: q)) rest with
    | some v =>
      constructor
      · intro h1; cases h1
      · intro h1
        have := (ih _).mpr (fun q hq => h1 (b :: q) (List.cons_prefix_cons.mpr ⟨rfl, hq⟩))
        rw [h] at this; cases this
    | none =>
      have h0 := (ih _).mp h
      constructor
      · intro h1 q hq
        rcases List.prefix_cons_iff.mp hq with rfl | ⟨t, rfl, ht⟩
        · exact h1
        · exact h0 t ht
      · intro h1; exact h1 [] (List.nil_prefix)

theorem bestAlong_eq_some_iff (f : List K → Option V) (path : List K) (v : V) :
    bestAlong f path = some v ↔
      ∃ q, q <+: path ∧ f q = some v
        ∧ ∀ q1, q1 <+: path → q.length < q1.length → f q1 = none := by
  induction path generalizing f v with
  | nil =>
    simp only [bestAlong, List.prefix_nil]
    constructor
    · intro h; exact ⟨[], rfl, h, fun q1 h1 hl => by subst h1; simp at hl⟩
    · rintro ⟨q, rfl, h, _⟩; exact h
  | cons b rest ih =>
    simp only [bestAlong]
    cases h : bestAlong (fun q => f (b :: q)) rest with
    | some w =>
      obtain ⟨q, hq, hfq, hmax⟩ := (ih _ _).mp h
      simp only [Option.some.injEq]
      constructor
      · rintro rfl
        refine ⟨b :: q, List.cons_prefix_cons.mpr ⟨rfl, hq⟩, hfq, ?_⟩
        intro q1 hq1 hl
        rcases List.prefix_cons_iff.mp hq1 with rfl | ⟨t, rfl, ht⟩
        · simp at hl
        · exact hmax t ht (by simpa using hl)
      · rintro ⟨q1, hq1, hfq1, hmax1⟩
        rcases List.prefix_cons_iff.mp hq1 with rfl | ⟨t, rfl, ht⟩
        · have := hmax1 (b :: q) (List.cons_prefix_cons.mpr ⟨rfl, hq⟩) (by simp)
          rw [hfq] at this; cases this
        · have := (ih _ _).mpr ⟨t, ht, hfq1, fun q2 hq2 hl =>
            hmax1 (b :: q2) (List.cons_prefix_cons.mpr ⟨rfl, hq2⟩) (by simpa using hl)⟩
          rw [h] at this; exact Option.some.inj this
    | none =>
      have h0 := (bestAlong_eq_none_iff _ _).mp h
      constructor
      · intro h1
        refine ⟨[], List.nil_prefix, h1, ?_⟩
        intro q1 hq1 hl
        rcases List.prefix_cons_iff.mp hq1 with rfl | ⟨t, rfl, ht⟩
        · simp at hl
        · exact h0 t ht
      · rintro ⟨q1, hq1, hfq1, _⟩
        rcases List.prefix_cons_iff.mp hq1 with rfl | ⟨t, rfl, ht⟩
        · exact hfq1
        · have := h0 t ht
          rw [hfq1] at this; cases this

/-- Over the map of the most recent entries, the best value along a path is
the value of the longest match. -/
theorem bestAlong_lastAt_eq_some_iff [DecidableEq K] (key : E → List K) (val : E → V) (es : List E)
    (path : List K) (v : V) :
    bestAlong (lastAt key val es) path = some v ↔
      ∃ e, IsLongestMatch key es path e ∧ val e = v := by
  rw [bestAlong_eq_some_iff]
  constructor
  · rintro ⟨q, hq, hfq, hmax⟩
    obtain ⟨before, e, after, rfl, hk, hv, ha⟩ := (lastAt_eq_some_iff key val es q v).mp hfq
    subst hk
    refine ⟨e, ⟨before, after, rfl, hq, ?_, ?_⟩, hv⟩
    · intro e1 he1 hp
      by_contra hlt
      have := (lastAt_eq_none_iff key val _ _).mp (hmax (key e1) hp (by omega)) e1 (by simp [he1])
      exact this rfl
    · intro e1 he1 hp
      by_contra hlt
      have hle : (key e1).length ≤ (key e).length := by
        by_contra hlt2
        have := (lastAt_eq_none_iff key val _ _).mp (hmax (key e1) hp (by omega)) e1
          (by simp [he1])
        exact this rfl
      have heq : key e1 = key e := by
        have h1 := List.prefix_iff_eq_take.mp hp
        have h2 := List.prefix_iff_eq_take.mp hq
        rw [h1, h2]
        congr 1
        omega
      exact ha e1 he1 heq
  · rintro ⟨e, ⟨before, after, rfl, hp, hb, ha⟩, hv⟩
    refine ⟨key e, hp, ?_, ?_⟩
    · refine (lastAt_eq_some_iff key val _ _ v).mpr ⟨before, e, after, rfl, rfl, hv, ?_⟩
      intro e1 he1 heq
      have := ha e1 he1 (heq ▸ hp)
      rw [heq] at this
      omega
    · intro q1 hq1 hl
      refine (lastAt_eq_none_iff key val _ _).mpr ?_
      intro e1 he1 heq
      subst heq
      simp only [List.mem_append, List.mem_cons] at he1
      rcases he1 with h1 | rfl | h1
      · have := hb e1 h1 hq1; omega
      · omega
      · have := ha e1 h1 hq1; omega

theorem bestAlong_lastAt_eq_none_iff [DecidableEq K] (key : E → List K) (val : E → V) (es : List E)
    (path : List K) :
    bestAlong (lastAt key val es) path = none ↔ ∀ e ∈ es, ¬ key e <+: path := by
  rw [bestAlong_eq_none_iff]
  constructor
  · intro h e he hp
    exact (lastAt_eq_none_iff key val es _).mp (h _ hp) e he rfl
  · intro h q hq
    refine (lastAt_eq_none_iff key val es _).mpr ?_
    intro e he heq
    exact h e he (heq ▸ hq)

theorem bestAlong_none (path : List K) :
    bestAlong (fun _ => (none : Option V)) path = none := by
  induction path with
  | nil => rfl
  | cons b rest ih => simp [bestAlong, ih]

end LongestMatch

/-! ## Leading bits of a fixed-width value -/

theorem testBit_of_lt_width {w a i : Nat} (ha : a < 2 ^ w) (hi : w ≤ i) : a.testBit i = false :=
  Nat.testBit_lt_two_pow (lt_of_lt_of_le ha (Nat.pow_le_pow_right (by decide) hi))

theorem land_one_bne_zero (a s : Nat) : (((a >>> s) &&& 1) != 0) = a.testBit s := by
  simp [Nat.testBit, Nat.land_comm]

/-- Two `w`-bit values have the same quotient by `2 ^ (w - n)` exactly when
their `n` most significant bits agree. -/
theorem div_two_pow_eq_iff_testBit (w n a b : Nat) (hn : n ≤ w) (ha : a < 2 ^ w)
    (hb : b < 2 ^ w) :
    a / 2 ^ (w - n) = b / 2 ^ (w - n)
      ↔ ∀ j, j < n → a.testBit (w - 1 - j) = b.testBit (w - 1 - j) := by
  constructor
  · intro h j hj
    have h1 : (a / 2 ^ (w - n)).testBit (n - 1 - j) = (b / 2 ^ (w - n)).testBit (n - 1 - j) := by
      rw [h]
    rw [← Nat.shiftRight_eq_div_pow, ← Nat.shiftRight_eq_div_pow, Nat.testBit_shiftRight,
      Nat.testBit_shiftRight] at h1
    have : w - n + (n - 1 - j) = w - 1 - j := by omega
    rwa [this] at h1
  · intro h
    apply Nat.eq_of_testBit_eq
    intro i
    rw [← Nat.shiftRight_eq_div_pow, ← Nat.shiftRight_eq_div_pow, Nat.testBit_shiftRight,
      Nat.testBit_shiftRight]
    by_cases hi : w - n + i < w
    · have := h (w - 1 - (w - n + i)) (by omega)
      have h2 : w - 1 - (w - 1 - (w - n + i)) = w - n + i := by omega
      rwa [h2] at this
    · rw [testBit_of_lt_width ha (by omega), testBit_of_lt_width hb (by omega)]

theorem land_one_cases (n : Nat) : n &&& 1 = 0 ∨ n &&& 1 = 1 := by
  rw [Nat.and_one_is_mod]; omega

theorem lor_shiftLeft_eq_add (x c i : Nat) (hx : x < 2 ^ i) :
    x ||| (c <<< i) = x + c * 2 ^ i := by
  rw [Nat.shiftLeft_eq, Nat.lor_comm, Nat.mul_comm c, ← Nat.mul_add_lt_is_or hx, Nat.add_comm]

/-- The shifts and ors of `binary.BigEndian.Uint64` compute the base-256
number of the eight bytes. -/
theorem uint64_bytes_eq (c0 c1 c2 c3 c4 c5 c6 c7 : Nat) (_h0 : c0 < 256) (h1 : c1 < 256)
    (h2 : c2 < 256) (h3 : c3 < 256) (h4 : c4 < 256) (h5 : c5 < 256) (h6 : c6 < 256)
    (h7 : c7 < 256) :
    (c7 ||| (c6 <<< 8) ||| (c5 <<< 16) ||| (c4 <<< 24) ||| (c3 <<< 32) ||| (c2 <<< 40)
      ||| (c1 <<< 48) ||| (c0 <<< 56))
      = ((((((c0 * 256 + c1) * 256 + c2) * 256 + c3) * 256 + c4) * 256 + c5) * 256 + c6) * 256
          + c7 := by
  rw [lor_shiftLeft_eq_add c7 c6 8 (by omega)]
  rw [lor_shiftLeft_eq_add _ c5 16 (by omega)]
  rw [lor_shiftLeft_eq_add _ c4 24 (by omega)]
  rw [lor_shiftLeft_eq_add _ c3 32 (by omega)]
  rw [lor_shiftLeft_eq_add _ c2 40 (by omega)]
  rw [lor_shiftLeft_eq_add _ c1 48 (by omega)]
  rw [lor_shiftLeft_eq_add _ c0 56 (by omega)]
  omega

/-! ## The 32-bit trie -/

namespace addrtrie

theorem getBit_ok (v i : Nat) (h : i ≤ 31) : getBit v i = .ok ((v >>> (31 - i)) &&& 1) := by
  simp [getBit, h]

theorem bitNode.lookup_orNew {V : Type} (c : bitNode V) (q : List Bool) :
    c.orNew.lookup q = c.lookup q := by
  cases c with
  | null => cases q with
    | nil => rfl
    | cons b rest => cases b <;> rfl
  | node c0 c1 val => rfl

theorem bitNode.orNew_ne_null {V : Type} (c : bitNode V) : c.orNew ≠ .null := by
  cases c <;> simp [bitNode.orNew]

/-- The insert loop on a live node succeeds and stores the value at exactly
the path of the consumed bits. -/
theorem BitTrie.insertLoop_spec {V : Type} (ip : Nat) (value : V) (k : Nat) :
    ∀ (i : Nat) (cur : bitNode V), cur ≠ .null → i + k ≤ 32 →
      (BitTrie.insertLoop ip value i k cur).2 = none
      ∧ (BitTrie.insertLoop ip value i k cur).1 ≠ .null
      ∧ ∀ q, (BitTrie.insertLoop ip value i k cur).1.lookup q
          = if q = bitPath ip i k then some value else cur.lookup q := by
  induction k with
  | zero =>
    intro i cur hcur _
    cases cur with
    | null => exact absurd rfl hcur
    | node c0 c1 val =>
      refine ⟨rfl, by simp [BitTrie.insertLoop], ?_⟩
      intro q
      cases q with
      | nil => simp [BitTrie.insertLoop, bitPath, bitNode.lookup]
      | cons b rest => simp [BitTrie.insertLoop, bitPath, bitNode.lookup]
  | succ k ih =>
    intro i cur hcur hik
    cases cur with
    | null => exact absurd rfl hcur
    | node c0 c1 val =>
      have hg := getBit_ok ip i (by omega)
      rcases land_one_cases (ip >>> (31 - i)) with hb | hb
      · obtain ⟨h1, h2, h3⟩ := ih (i + 1) c0.orNew (bitNode.orNew_ne_null c0) (by omega)
        simp only [BitTrie.insertLoop, hg, hb, if_true]
        refine ⟨h1, by simp, ?_⟩
        intro q
        cases q with
        | nil => simp [bitNode.lookup, bitPath]
        | cons b rest =>
          cases b with
          | false =>
            simp [bitNode.lookup, bitPath, hb, h3, bitNode.lookup_orNew]
          | true =>
            simp [bitNode.lookup, bitPath, hb]
      · obtain ⟨h1, h2, h3⟩ := ih (i + 1) c1.orNew (bitNode.orNew_ne_null c1) (by omega)
        simp only [BitTrie.insertLoop, hg, hb, one_ne_zero, if_false]
        refine ⟨h1, by simp, ?_⟩
        intro q
        cases q with
        | nil => simp [bitNode.lookup, bitPath]
        | cons b rest =>
          cases b with
          | false =>
            simp [bitNode.lookup, bitPath, hb]
          | true =>
            simp [bitNode.lookup, bitPath, hb, h3, bitNode.lookup_orNew]

theorem pickBest_pickBest {V : Type} (a b : Option V) :
    pickBest a (pickBest a b) = pickBest a b := by
  cases a <;> rfl

/-- The find loop on a live node returns the value of the deepest node with a
value on the path of the remaining bits, or else the running best. -/
theorem BitTrie.findLoop_spec {V : Type} (x : Nat) (k : Nat) :
    ∀ (i : Nat) (cur : bitNode V) (best : Option V), cur ≠ .null → i + k ≤ 32 →
      BitTrie.findLoop x i k cur best
        = .ok (pickBest (bestAlong cur.lookup (bitPath x i k)) best) := by
  induction k with
  | zero =>
    intro i cur best hcur _
    cases cur with
    | null => exact absurd rfl hcur
    | node c0 c1 val => simp [BitTrie.findLoop, bitPath, bestAlong, bitNode.lookup]
  | succ k ih =>
    intro i cur best hcur hik
    cases cur with
    | null => exact absurd rfl hcur
    | node c0 c1 val =>
      have hg := getBit_ok x i (by omega)
      rcases land_one_cases (x >>> (31 - i)) with hb | hb
      · cases hc : c0 with
        | null =>
          simp [BitTrie.findLoop, hg, hb, bitPath, bestAlong, bitNode.lookup,
            bestAlong_none, pickBest_pickBest]
        | node d0 d1 dv =>
          have := ih (i + 1) (.node d0 d1 dv) (pickBest val best) (by simp) (by omega)
          simp only [BitTrie.findLoop, hg, hb, if_true, this, bitPath, bestAlong]
          simp only [bitNode.lookup, bne_self_eq_false, Bool.false_eq_true, if_false]
          cases bestAlong (bitNode.node d0 d1 dv).lookup (bitPath x (i + 1) k) <;> rfl
      · cases hc : c1 with
        | null =>
          simp [BitTrie.findLoop, hg, hb, bitPath, bestAlong, bitNode.lookup,
            bestAlong_none, pickBest_pickBest]
        | node d0 d1 dv =>
          have := ih (i + 1) (.node d0 d1 dv) (pickBest val best) (by simp) (by omega)
          simp only [BitTrie.findLoop, hg, hb, one_ne_zero, if_false, this, bitPath, bestAlong]
          simp only [bitNode.lookup, bne_iff_ne, ne_eq, one_ne_zero, not_false_eq_true,
            decide_True, if_true]
          cases bestAlong (bitNode.node d0 d1 dv).lookup (bitPath x (i + 1) k) <;> rfl

end addrtrie

namespace addrtrie

theorem bitPath_length (v : Nat) (k : Nat) : ∀ i, (bitPath v i k).length = k := by
  induction k with
  | zero => intro i; rfl
  | succ k ih => intro i; simp [bitPath, ih]

theorem bitPath_prefix_iff_bits (a b : Nat) (k : Nat) :
    ∀ m i, k ≤ m →
      (bitPath a i k <+: bitPath b i m
        ↔ ∀ j, i ≤ j → j < i + k → a.testBit (31 - j) = b.testBit (31 - j)) := by
  induction k with
  | zero =>
    intro m i _
    simp only [bitPath, List.nil_prefix, true_iff]
    intro j h1 h2; omega
  | succ k ih =>
    intro m i hm
    cases m with
    | zero => omega
    | succ m =>
      simp only [bitPath, List.cons_prefix_cons, land_one_bne_zero, ih m (i + 1) (by omega)]
      constructor
      · rintro ⟨h0, h1⟩ j hj1 hj2
        by_cases hji : j = i
        · subst hji; exact h0
        · exact h1 j (by omega) (by omega)
      · intro h
        exact ⟨h i (le_refl _) (by omega), fun j hj1 hj2 => h j (by omega) (by omega)⟩

/-- The path of a prefix is an initial segment of the path of an address
exactly when the prefix covers the address. -/
theorem bitPath_prefix_iff_covers {V : Type} (e : Route V) (x : Nat) (hn : e.bitLen ≤ 32)
    (he : e.ip < 2 ^ 32) (hx : x < 2 ^ 32) :
    bitPath e.ip 0 e.bitLen <+: bitPath x 0 32 ↔ e.covers x := by
  rw [bitPath_prefix_iff_bits e.ip x e.bitLen 32 0 hn, Route.covers,
    div_two_pow_eq_iff_testBit 32 e.bitLen e.ip x hn he hx]
  constructor
  · intro h j hj; exact h j (Nat.zero_le _) (by omega)
  · intro h j _ hj; exact h j (by omega)

end addrtrie

/-! ## Bounds on what the parsers return -/

theorem binary.BigEndian.Uint32_lt (l : List Nat) (v : Nat)
    (h : binary.BigEndian.Uint32 l = .ok v) : v < 2 ^ 32 := by
  match l, h with
  | b0 :: b1 :: b2 :: b3 :: _, h =>
    simp only [binary.BigEndian.Uint32, Except.ok.injEq] at h
    subst h
    have h0 : b0 % 256 < 256 := Nat.mod_lt _ (by decide)
    have h1 : b1 % 256 < 256 := Nat.mod_lt _ (by decide)
    have h2 : b2 % 256 < 256 := Nat.mod_lt _ (by decide)
    have h3 : b3 % 256 < 256 := Nat.mod_lt _ (by decide)
    refine Nat.or_lt_two_pow (Nat.or_lt_two_pow (Nat.or_lt_two_pow ?_ ?_) ?_) ?_
    · omega
    · rw [Nat.shiftLeft_eq]; omega
    · rw [Nat.shiftLeft_eq]; omega
    · rw [Nat.shiftLeft_eq]; omega

theorem net.leadingOnes_le (fuel : Nat) : ∀ v n, (net.leadingOnes fuel v n).2 ≤ n + fuel := by
  induction fuel with
  | zero => intro v n; simp [net.leadingOnes]
  | succ fuel ih =>
    intro v n
    simp only [net.leadingOnes]
    split
    · have := ih ((v <<< 1) % 256) (n + 1); omega
    · simp

theorem net.simpleMaskLength_le (m : List Nat) :
    ∀ n r, net.simpleMaskLength m n = some r → r ≤ n + 8 * m.length := by
  induction m with
  | nil => intro n r h; simp [net.simpleMaskLength] at h; omega
  | cons v rest ih =>
    intro n r h
    simp only [net.simpleMaskLength] at h
    split at h
    · have := ih _ _ h; simp only [List.length_cons]; omega
    · split at h
      · cases h
      · split at h
        · simp only [Option.some.injEq] at h
          have := net.leadingOnes_le 8 v n
          simp only [List.length_cons]; omega
        · cases h

theorem net.MaskSize_le (m : List Nat) : (net.MaskSize m).1 ≤ (net.MaskSize m).2 := by
  unfold net.MaskSize
  cases h : net.simpleMaskLength m 0 with
  | none => simp
  | some r => have := net.simpleMaskLength_le m 0 r h; simp; omega

namespace addrtrie

/-- A successful parse yields a 32-bit address and a length of at most 32. -/
theorem parseIPorCIDR_bounds (lib : net.Lib) (s : String) (ip n : Nat)
    (h : parseIPorCIDR lib s = .ok (ip, n)) : ip < 2 ^ 32 ∧ n ≤ 32 := by
  unfold parseIPorCIDR at h
  split at h
  · rename_i ip0 ipNet _
    split at h
    · cases h
    · rename_i v hv
      have hle := net.MaskSize_le ipNet.Mask
      simp only at h
      split at h
      · cases h
      · split at h
        · cases h
        · simp only [Except.ok.injEq, Prod.mk.injEq] at h
          obtain ⟨rfl, rfl⟩ := h
          refine ⟨binary.BigEndian.Uint32_lt _ _ hv, ?_⟩
          omega
  · simp only at h
    split at h
    · cases h
    · split at h
      · cases h
      · rename_i v hv
        simp only [Except.ok.injEq, Prod.mk.injEq] at h
        obtain ⟨rfl, rfl⟩ := h
        exact ⟨binary.BigEndian.Uint32_lt _ _ hv, le_refl _⟩

/-- After a sequence of successful inserts the trie maps the path of the
leading bits of each parsed prefix to the value of its most recent insert, and
every other path to what it held before. -/
theorem BitTrie.insertAll_lookup {V : Type} (lib : net.Lib) (calls : List (String × V)) :
    ∀ (t t1 : BitTrie V), t.root ≠ .null → BitTrie.insertAll lib t calls = some t1 →
      t1.root ≠ .null
      ∧ (∀ e ∈ BitTrie.parsedCalls lib calls, e.ip < 2 ^ 32 ∧ e.bitLen ≤ 32)
      ∧ ∀ q, t1.root.lookup q
          = match lastAt (fun e : Route V => bitPath e.ip 0 e.bitLen) Route.value
              (BitTrie.parsedCalls lib calls) q with
            | some v => some v
            | none => t.root.lookup q := by
  induction calls with
  | nil =>
    intro t t1 ht h
    simp only [BitTrie.insertAll, Option.some.injEq] at h
    subst h
    exact ⟨ht, by simp [BitTrie.parsedCalls], fun q => by simp [BitTrie.parsedCalls, lastAt]⟩
  | cons c rest ih =>
    intro t t1 ht h
    simp only [BitTrie.insertAll, BitTrie.Insert] at h
    cases hp : parseIPorCIDR lib c.1 with
    | error e => simp [hp] at h
    | ok r =>
      obtain ⟨ip, n⟩ := r
      obtain ⟨hip, hn⟩ := parseIPorCIDR_bounds lib c.1 ip n hp
      obtain ⟨h1, h2, h3⟩ := BitTrie.insertLoop_spec ip c.2 n 0 t.root ht (by omega)
      simp only [hp, h1] at h
      obtain ⟨g1, g2, g3⟩ := ih _ t1 h2 h
      have hpc : BitTrie.parsedCalls lib (c :: rest)
          = ⟨ip, n, c.2⟩ :: BitTrie.parsedCalls lib rest := by
        simp [BitTrie.parsedCalls, List.filterMap_cons, hp]
      refine ⟨g1, ?_, ?_⟩
      · intro e he
        rw [hpc, List.mem_cons] at he
        rcases he with rfl | he
        · exact ⟨hip, hn⟩
        · exact g2 e he
      · intro q
        rw [g3 q, hpc]
        simp only [lastAt]
        cases lastAt (fun e : Route V => bitPath e.ip 0 e.bitLen) Route.value
            (BitTrie.parsedCalls lib rest) q with
        | some v => rfl
        | none =>
          simp only [h3 q]
          by_cases hq : q = bitPath ip 0 n
          · simp [hq]
          · have : ¬ bitPath ip 0 n = q := fun h => hq h.symm
            simp [hq, this]

end addrtrie

namespace addrtrie

theorem pickBest_none {V : Type} (a : Option V) : pickBest a none = a := by
  cases a <;> rfl

theorem isLongestMatch_iff_covers {V : Type} (es : List (Route V)) (x : Nat) (hx : x < 2 ^ 32)
    (hes : ∀ e ∈ es, e.ip < 2 ^ 32 ∧ e.bitLen ≤ 32) (e : Route V) :
    IsLongestMatch (fun e : Route V => bitPath e.ip 0 e.bitLen) es (bitPath x 0 32) e
      ↔ ∃ before after, es = before ++ e :: after ∧ e.covers x
          ∧ (∀ e1 ∈ before, e1.covers x → e1.bitLen ≤ e.bitLen)
          ∧ (∀ e1 ∈ after, e1.covers x → e1.bitLen < e.bitLen) := by
  have key : ∀ e1 ∈ es, (bitPath e1.ip 0 e1.bitLen <+: bitPath x 0 32 ↔ e1.covers x) :=
    fun e1 h1 => bitPath_prefix_iff_covers e1 x (hes e1 h1).2 (hes e1 h1).1 hx
  unfold IsLongestMatch
  constructor
  · rintro ⟨before, after, rfl, hp, hb, ha⟩
    refine ⟨before, after, rfl, (key e (by simp)).mp hp, ?_, ?_⟩
    · intro e1 h1 hc
      have := hb e1 h1 ((key e1 (by simp [h1])).mpr hc)
      simpa [bitPath_length] using this
    · intro e1 h1 hc
      have := ha e1 h1 ((key e1 (by simp [h1])).mpr hc)
      simpa [bitPath_length] using this
  · rintro ⟨before, after, rfl, hp, hb, ha⟩
    refine ⟨before, after, rfl, (key e (by simp)).mpr hp, ?_, ?_⟩
    · intro e1 h1 hc
      have := hb e1 h1 ((key e1 (by simp [h1])).mp hc)
      simpa [bitPath_length] using this
    · intro e1 h1 hc
      have := ha e1 h1 ((key e1 (by simp [h1])).mp hc)
      simpa [bitPath_length] using this

/-- C1. Longest-prefix match for the 32-bit trie: after a sequence of `Insert`
calls on a new trie that all return nil, `Find` on a string that parses to the
IPv4 address `xv` returns the value of the inserted prefix that covers `xv`
with the greatest length, the most recent one of that length (every covering
entry is at most as long, every later covering entry is shorter), and returns
no match exactly when no inserted prefix covers `xv`. -/
theorem BitTrie.find_longest_match {V : Type} (lib : net.Lib) (calls : List (String × V))
    (t : BitTrie V) (hrun : BitTrie.insertAll lib NewBitTrie calls = some t)
    (x : String) (xv : Nat)
    (hx : binary.BigEndian.Uint32 (net.To4 (lib.ParseIP x)) = .ok xv) :
    ∃ r, BitTrie.Find lib t x = .ok r
      ∧ (∀ v, r = some v ↔
          ∃ before e after, BitTrie.parsedCalls lib calls = before ++ e :: after
            ∧ e.value = v ∧ e.covers xv
            ∧ (∀ e1 ∈ before, e1.covers xv → e1.bitLen ≤ e.bitLen)
            ∧ (∀ e1 ∈ after, e1.covers xv → e1.bitLen < e.bitLen))
      ∧ (r = none ↔ ∀ e ∈ BitTrie.parsedCalls lib calls, ¬ e.covers xv) := by
  obtain ⟨hroot, hes, hlook⟩ :=
    BitTrie.insertAll_lookup lib calls NewBitTrie t (by simp [NewBitTrie]) hrun
  have hxv : xv < 2 ^ 32 := binary.BigEndian.Uint32_lt _ _ hx
  have hne : net.To4 (lib.ParseIP x) ≠ [] := by
    intro h0; rw [h0] at hx; simp [binary.BigEndian.Uint32] at hx
  have hfun : t.root.lookup
      = lastAt (fun e : Route V => bitPath e.ip 0 e.bitLen) Route.value
          (BitTrie.parsedCalls lib calls) := by
    funext q
    rw [hlook q]
    have : (NewBitTrie : BitTrie V).root.lookup q = none := by
      cases q with
      | nil => rfl
      | cons b rest => cases b <;> rfl
    rw [this]
    cases lastAt (fun e : Route V => bitPath e.ip 0 e.bitLen) Route.value
      (BitTrie.parsedCalls lib calls) q <;> rfl
  refine ⟨bestAlong t.root.lookup (bitPath xv 0 32), ?_, ?_, ?_⟩
  · simp only [BitTrie.Find, hne, if_false, hx]
    rw [BitTrie.findLoop_spec xv 32 0 t.root none hroot (by omega), pickBest_none]
  · intro v
    rw [hfun, bestAlong_lastAt_eq_some_iff]
    constructor
    · rintro ⟨e, he, hv⟩
      obtain ⟨before, after, h1, h2, h3, h4⟩ :=
        (isLongestMatch_iff_covers _ xv hxv hes e).mp he
      exact ⟨before, e, after, h1, hv, h2, h3, h4⟩
    · rintro ⟨before, e, after, h1, hv, h2, h3, h4⟩
      exact ⟨e, (isLongestMatch_iff_covers _ xv hxv hes e).mpr ⟨before, after, h1, h2, h3, h4⟩,
        hv⟩
  · rw [hfun, bestAlong_lastAt_eq_none_iff]
    constructor
    · intro h e he hc
      exact h e he ((bitPath_prefix_iff_covers e xv (hes e he).2 (hes e he).1 hxv).mpr hc)
    · intro h e he hp
      exact h e he ((bitPath_prefix_iff_covers e xv (hes e he).2 (hes e he).1 hxv).mp hp)

/-- Witness of C1 on the first testable property of the specification. -/
theorem BitTrie.find_longest_match_witness :
    BitTrie.insertAll net.sampleLib NewBitTrie sampleCalls = some sampleTrie
      ∧ binary.BigEndian.Uint32 (net.To4 (net.sampleLib.ParseIP "10.1.2.3")) = .ok 167838211
      ∧ ∃ r, BitTrie.Find net.sampleLib sampleTrie "10.1.2.3" = .ok r
        ∧ (∀ v, r = some v ↔
            ∃ before e after, BitTrie.parsedCalls net.sampleLib sampleCalls = before ++ e :: after
              ∧ e.value = v ∧ e.covers 167838211
              ∧ (∀ e1 ∈ before, e1.covers 167838211 → e1.bitLen ≤ e.bitLen)
              ∧ (∀ e1 ∈ after, e1.covers 167838211 → e1.bitLen < e.bitLen))
        ∧ (r = none ↔ ∀ e ∈ BitTrie.parsedCalls net.sampleLib sampleCalls,
            ¬ e.covers 167838211) :=
  ⟨rfl, rfl, BitTrie.find_longest_match net.sampleLib sampleCalls sampleTrie rfl "10.1.2.3"
    167838211 rfl⟩

end addrtrie

namespace addrtrie

/-- On a CIDR string that the library parses to a network whose address has no
4-byte form, `parseIPorCIDR` panics in `binary.BigEndian.Uint32` before it
reaches its check of the mask width. -/
theorem parseIPorCIDR_ipv6_network (lib : net.Lib) (s : String) (ip0 : List Nat)
    (ipNet : net.IPNet) (hp : lib.ParseCIDR s = some (ip0, ipNet))
    (h4 : net.To4 ipNet.IP = []) :
    parseIPorCIDR lib s = .error (.crash "index out of range [3]") := by
  simp [parseIPorCIDR, hp, h4, binary.BigEndian.Uint32]

/-- C10, the code at the failing input: `2001:db8::/32` parses as an IPv6
network (16-byte address that is not IPv4-mapped, 128-bit mask), and `Insert`
on the 32-bit trie does not return an error for it but panics with an index
out of range; the claim asks for a returned error. -/
theorem BitTrie.insert_ipv6_cidr_crashes :
    net.sampleLib.ParseCIDR "2001:db8::/32"
        = some ([0x20, 0x01, 0x0d, 0xb8, 0, 0, 0, 0, 0, 0, 0, 0, 0, 0, 0, 0],
            ⟨[0x20, 0x01, 0x0d, 0xb8, 0, 0, 0, 0, 0, 0, 0, 0, 0, 0, 0, 0],
             [255, 255, 255, 255, 0, 0, 0, 0, 0, 0, 0, 0, 0, 0, 0, 0]⟩)
      ∧ net.MaskSize [255, 255, 255, 255, 0, 0, 0, 0, 0, 0, 0, 0, 0, 0, 0, 0] = (32, 128)
      ∧ (BitTrie.Insert net.sampleLib (NewBitTrie : BitTrie String) "2001:db8::/32" "A").2
          = some (.crash "index out of range [3]")
      ∧ ¬ ∃ msg, (BitTrie.Insert net.sampleLib (NewBitTrie : BitTrie String)
            "2001:db8::/32" "A").2 = some (.error msg) := by
  have h := parseIPorCIDR_ipv6_network net.sampleLib "2001:db8::/32" _ _ rfl rfl
  refine ⟨rfl, rfl, ?_, ?_⟩
  · simp only [BitTrie.Insert, h]
  · simp only [BitTrie.Insert, h]
    rintro ⟨msg, hm⟩
    cases hm

end addrtrie

/-! ## The 128-bit trie -/

namespace matcher

theorem ipv6Addr.getBit6_ok (a : ipv6Addr) (i : Nat) (h : i < 128) :
    a.getBit i = .ok (a.bitAt i) := by
  unfold ipv6Addr.getBit ipv6Addr.bitAt
  have : ¬ i ≥ 128 := by omega
  simp only [this, if_false]
  split <;> rfl

theorem ipv6Addr.bitAt_cases (a : ipv6Addr) (i : Nat) : a.bitAt i = 0 ∨ a.bitAt i = 1 := by
  unfold ipv6Addr.bitAt
  split <;> exact land_one_cases _

theorem bitNode6.lookup6_orNew {V : Type} (c : bitNode6 V) (q : List Bool) :
    c.orNew.lookup q = c.lookup q := by
  cases c with
  | null => cases q with
    | nil => rfl
    | cons b rest => cases b <;> rfl
  | node c0 c1 val => rfl

theorem bitNode6.orNew6_ne_null {V : Type} (c : bitNode6 V) : c.orNew ≠ .null := by
  cases c <;> simp [bitNode6.orNew]

/-- The insert loop on a live node succeeds and stores the value (nil
included) at exactly the path of the consumed bits. -/
theorem BitTrie6.insertLoop6_spec {V : Type} (a : ipv6Addr) (value : Option V) (k : Nat) :
    ∀ (i : Nat) (cur : bitNode6 V), cur ≠ .null → i + k ≤ 128 →
      (BitTrie6.insertLoop a value i k cur).2 = none
      ∧ (BitTrie6.insertLoop a value i k cur).1 ≠ .null
      ∧ ∀ q, (BitTrie6.insertLoop a value i k cur).1.lookup q
          = if q = bitPath6 a i k then value else cur.lookup q := by
  induction k with
  | zero =>
    intro i cur hcur _
    cases cur with
    | null => exact absurd rfl hcur
    | node c0 c1 val =>
      refine ⟨rfl, by simp [BitTrie6.insertLoop], ?_⟩
      intro q
      cases q with
      | nil => simp [BitTrie6.insertLoop, bitPath6, bitNode6.lookup]
      | cons b rest => simp [BitTrie6.insertLoop, bitPath6, bitNode6.lookup]
  | succ k ih =>
    intro i cur hcur hik
    cases cur with
    | null => exact absurd rfl hcur
    | node c0 c1 val =>
      have hg := ipv6Addr.getBit6_ok a i (by omega)
      rcases ipv6Addr.bitAt_cases a i with hb | hb
      · obtain ⟨h1, h2, h3⟩ := ih (i + 1) c0.orNew (bitNode6.orNew6_ne_null c0) (by omega)
        simp only [BitTrie6.insertLoop, hg, hb, if_true]
        refine ⟨h1, by simp, ?_⟩
        intro q
        cases q with
        | nil => simp [bitNode6.lookup, bitPath6]
        | cons b rest =>
          cases b with
          | false =>
            simp [bitNode6.lookup, bitPath6, hb, h3, bitNode6.lookup6_orNew]
          | true =>
            simp [bitNode6.lookup, bitPath6, hb]
      · obtain ⟨h1, h2, h3⟩ := ih (i + 1) c1.orNew (bitNode6.orNew6_ne_null c1) (by omega)
        simp only [BitTrie6.insertLoop, hg, hb, one_ne_zero, if_false]
        refine ⟨h1, by simp, ?_⟩
        intro q
        cases q with
        | nil => simp [bitNode6.lookup, bitPath6]
        | cons b rest =>
          cases b with
          | false =>
            simp [bitNode6.lookup, bitPath6, hb]
          | true =>
            simp [bitNode6.lookup, bitPath6, hb, h3, bitNode6.lookup6_orNew]

theorem pickBest6_pickBest {V : Type} (a b : Option V) :
    pickBest a (pickBest a b) = pickBest a b := by
  cases a <;> rfl

theorem pickBest6_none {V : Type} (a : Option V) : pickBest a none = a := by
  cases a <;> rfl

/-- The find loop on a live node returns the value of the deepest node with a
value on the path of the remaining bits, or else the running best. -/
theorem BitTrie6.findLoop6_spec {V : Type} (x : ipv6Addr) (k : Nat) :
    ∀ (i : Nat) (cur : bitNode6 V) (best : Option V), cur ≠ .null → i + k ≤ 128 →
      BitTrie6.findLoop x i k cur best
        = .ok (pickBest (bestAlong cur.lookup (bitPath6 x i k)) best) := by
  induction k with
  | zero =>
    intro i cur best hcur _
    cases cur with
    | null => exact absurd rfl hcur
    | node c0 c1 val => simp [BitTrie6.findLoop, bitPath6, bestAlong, bitNode6.lookup]
  | succ k ih =>
    intro i cur best hcur hik
    cases cur with
    | null => exact absurd rfl hcur
    | node c0 c1 val =>
      have hg := ipv6Addr.getBit6_ok x i (by omega)
      rcases ipv6Addr.bitAt_cases x i with hb | hb
      · cases hc : c0 with
        | null =>
          simp [BitTrie6.findLoop, hg, hb, bitPath6, bestAlong, bitNode6.lookup,
            bestAlong_none, pickBest6_pickBest]
        | node d0 d1 dv =>
          have := ih (i + 1) (.node d0 d1 dv) (pickBest val best) (by simp) (by omega)
          simp only [BitTrie6.findLoop, hg, hb, if_true, this, bitPath6, bestAlong]
          simp only [bitNode6.lookup, bne_self_eq_false, Bool.false_eq_true, if_false]
          cases bestAlong (bitNode6.node d0 d1 dv).lookup (bitPath6 x (i + 1) k) <;> rfl
      · cases hc : c1 with
        | null =>
          simp [BitTrie6.findLoop, hg, hb, bitPath6, bestAlong, bitNode6.lookup,
            bestAlong_none, pickBest6_pickBest]
        | node d0 d1 dv =>
          have := ih (i + 1) (.node d0 d1 dv) (pickBest val best) (by simp) (by omega)
          simp only [BitTrie6.findLoop, hg, hb, one_ne_zero, if_false, this, bitPath6, bestAlong]
          simp only [bitNode6.lookup, bne_iff_ne, ne_eq, one_ne_zero, not_false_eq_true,
            decide_True, if_true]
          cases bestAlong (bitNode6.node d0 d1 dv).lookup (bitPath6 x (i + 1) k) <;> rfl

theorem bitPath6_length (a : ipv6Addr) (k : Nat) : ∀ i, (bitPath6 a i k).length = k := by
  induction k with
  | zero => intro i; rfl
  | succ k ih => intro i; simp [bitPath6, ih]

theorem ipv6Addr.bitAt_bne_zero (a : ipv6Addr) (i : Nat) (hi : i < 128) (hlo : a.lo < 2 ^ 64) :
    (a.bitAt i != 0) = a.toNat.testBit (127 - i) := by
  unfold ipv6Addr.bitAt ipv6Addr.toNat
  rw [Nat.mul_comm, Nat.testBit_mul_pow_two_add _ hlo]
  split
  · have h1 : ¬ 127 - i < 64 := by omega
    have h2 : 127 - i - 64 = 63 - i := by omega
    rw [land_one_bne_zero, if_neg h1, h2]
  · have h1 : 127 - i < 64 := by omega
    have h2 : 63 - (i - 64) = 127 - i := by omega
    rw [land_one_bne_zero, if_pos h1, h2]

theorem ipv6Addr.toNat_lt (a : ipv6Addr) (hhi : a.hi < 2 ^ 64) (hlo : a.lo < 2 ^ 64) :
    a.toNat < 2 ^ 128 := by
  unfold ipv6Addr.toNat
  have : (2 : Nat) ^ 128 = 2 ^ 64 * 2 ^ 64 := by norm_num
  rw [this]
  nlinarith

theorem bitPath6_prefix_iff_bits (a b : ipv6Addr) (ha : a.lo < 2 ^ 64) (hb : b.lo < 2 ^ 64)
    (k : Nat) :
    ∀ m i, k ≤ m → i + m ≤ 128 →
      (bitPath6 a i k <+: bitPath6 b i m
        ↔ ∀ j, i ≤ j → j < i + k → a.toNat.testBit (127 - j) = b.toNat.testBit (127 - j)) := by
  induction k with
  | zero =>
    intro m i _ _
    simp only [bitPath6, List.nil_prefix, true_iff]
    intro j h1 h2; omega
  | succ k ih =>
    intro m i hm him
    cases m with
    | zero => omega
    | succ m =>
      simp only [bitPath6, List.cons_prefix_cons, ih m (i + 1) (by omega) (by omega),
        ipv6Addr.bitAt_bne_zero a i (by omega) ha, ipv6Addr.bitAt_bne_zero b i (by omega) hb]
      constructor
      · rintro ⟨h0, h1⟩ j hj1 hj2
        by_cases hji : j = i
        · subst hji; exact h0
        · exact h1 j (by omega) (by omega)
      · intro h
        exact ⟨h i (le_refl _) (by omega), fun j hj1 hj2 => h j (by omega) (by omega)⟩

/-- The path of a prefix is an initial segment of the path of an address
exactly when the prefix covers the address. -/
theorem bitPath6_prefix_iff_covers {V : Type} (e : Route6 V) (x : ipv6Addr)
    (hn : e.bitLen ≤ 128) (he : e.addr.hi < 2 ^ 64 ∧ e.addr.lo < 2 ^ 64)
    (hx : x.hi < 2 ^ 64 ∧ x.lo < 2 ^ 64) :
    bitPath6 e.addr 0 e.bitLen <+: bitPath6 x 0 128 ↔ e.covers x := by
  rw [bitPath6_prefix_iff_bits e.addr x he.2 hx.2 e.bitLen 128 0 hn (by omega), Route6.covers,
    div_two_pow_eq_iff_testBit 128 e.bitLen _ _ hn (ipv6Addr.toNat_lt _ he.1 he.2)
      (ipv6Addr.toNat_lt _ hx.1 hx.2)]
  constructor
  · intro h j hj; exact h j (Nat.zero_le _) (by omega)
  · intro h j _ hj; exact h j (by omega)

end matcher

theorem binary.BigEndian.Uint64_lt (l : List Nat) (v : Nat)
    (h : binary.BigEndian.Uint64 l = .ok v) : v < 2 ^ 64 := by
  match l, h with
  | b0 :: b1 :: b2 :: b3 :: b4 :: b5 :: b6 :: b7 :: _, h =>
    simp only [binary.BigEndian.Uint64, Except.ok.injEq] at h
    subst h
    have h0 : b0 % 256 < 256 := Nat.mod_lt _ (by decide)
    have h1 : b1 % 256 < 256 := Nat.mod_lt _ (by decide)
    have h2 : b2 % 256 < 256 := Nat.mod_lt _ (by decide)
    have h3 : b3 % 256 < 256 := Nat.mod_lt _ (by decide)
    have h4 : b4 % 256 < 256 := Nat.mod_lt _ (by decide)
    have h5 : b5 % 256 < 256 := Nat.mod_lt _ (by decide)
    have h6 : b6 % 256 < 256 := Nat.mod_lt _ (by decide)
    have h7 : b7 % 256 < 256 := Nat.mod_lt _ (by decide)
    refine Nat.or_lt_two_pow (Nat.or_lt_two_pow (Nat.or_lt_two_pow (Nat.or_lt_two_pow
      (Nat.or_lt_two_pow (Nat.or_lt_two_pow (Nat.or_lt_two_pow ?_ ?_) ?_) ?_) ?_) ?_) ?_) ?_
    · omega
    all_goals (rw [Nat.shiftLeft_eq]; omega)

theorem binary.BigEndian.Uint64_ok (l : List Nat) (h : 8 ≤ l.length) :
    ∃ v, binary.BigEndian.Uint64 l = .ok v := by
  rcases l with _ | ⟨b0, _ | ⟨b1, _ | ⟨b2, _ | ⟨b3, _ | ⟨b4, _ | ⟨b5, _ | ⟨b6, _ | ⟨b7, l⟩⟩⟩⟩⟩⟩⟩⟩
  all_goals first
    | exact ⟨_, rfl⟩
    | (simp only [List.length_cons, List.length_nil] at h; omega)

theorem net.To16_length (ip : List Nat) (h : net.To16 ip ≠ []) : (net.To16 ip).length = 16 := by
  unfold net.To16 at h ⊢
  split
  · rename_i h4; simp [h4]
  · split
    · assumption
    · rename_i h1 h2; simp [h1, h2] at h

theorem net.To16_idem (ip : List Nat) (h : ip.length = 16) : net.To16 ip = ip := by
  simp [net.To16, h]

namespace matcher

theorem newIPv6Addr_bounds (ip : List Nat) (a : ipv6Addr) (h : newIPv6Addr ip = .ok a) :
    a.hi < 2 ^ 64 ∧ a.lo < 2 ^ 64 := by
  unfold newIPv6Addr at h
  simp only at h
  split at h
  · cases h
  · split at h
    · cases h
    · rename_i hi hhi
      split at h
      · cases h
      · rename_i lo hlo
        simp only [Except.ok.injEq] at h
        subst h
        exact ⟨binary.BigEndian.Uint64_lt _ _ hhi, binary.BigEndian.Uint64_lt _ _ hlo⟩

theorem newIPv6Addr_ok (ip : List Nat) (h : ip.length = 16) : ∃ a, newIPv6Addr ip = .ok a := by
  unfold newIPv6Addr
  simp only [net.To16_idem ip h, h, Nat.lt_irrefl, if_false]
  obtain ⟨hi, hhi⟩ := binary.BigEndian.Uint64_ok (ip.take 8) (by simp [h])
  obtain ⟨lo, hlo⟩ := binary.BigEndian.Uint64_ok ((ip.drop 8).take 8) (by simp [h])
  rw [hhi, hlo]
  exact ⟨_, rfl⟩

/-- A successful parse yields two 64-bit halves and a length of at most 128. -/
theorem parseIPorCIDRIPv6_bounds (lib : net.Lib) (s : String) (a : ipv6Addr) (n : Nat)
    (h : parseIPorCIDRIPv6 lib s = .ok (a, n)) :
    (a.hi < 2 ^ 64 ∧ a.lo < 2 ^ 64) ∧ n ≤ 128 := by
  unfold parseIPorCIDRIPv6 at h
  split at h
  · rename_i ip0 ipNet _
    simp only at h
    split at h
    · cases h
    · have hle := net.MaskSize_le ipNet.Mask
      split at h
      · cases h
      · split at h
        · cases h
        · split at h
          · cases h
          · rename_i addr haddr
            simp only [Except.ok.injEq, Prod.mk.injEq] at h
            obtain ⟨rfl, rfl⟩ := h
            refine ⟨newIPv6Addr_bounds _ _ haddr, ?_⟩
            omega
  · simp only at h
    split at h
    · cases h
    · split at h
      · cases h
      · rename_i addr haddr
        simp only [Except.ok.injEq, Prod.mk.injEq] at h
        obtain ⟨rfl, rfl⟩ := h
        exact ⟨newIPv6Addr_bounds _ _ haddr, le_refl _⟩

/-- After a sequence of successful inserts of non-nil values the trie maps
the path of the leading bits of each parsed prefix to the value of its most
recent insert, and every other path to what it held before. -/
theorem BitTrie6.insertAll6_lookup {V : Type} (lib : net.Lib) (calls : List (String × V)) :
    ∀ (t t1 : BitTrie6 V), t.root ≠ .null → BitTrie6.insertAll lib t calls = some t1 →
      t1.root ≠ .null
      ∧ (∀ e ∈ BitTrie6.parsedCalls lib calls,
          (e.addr.hi < 2 ^ 64 ∧ e.addr.lo < 2 ^ 64) ∧ e.bitLen ≤ 128)
      ∧ ∀ q, t1.root.lookup q
          = match lastAt (fun e : Route6 V => bitPath6 e.addr 0 e.bitLen) Route6.value
              (BitTrie6.parsedCalls lib calls) q with
            | some v => some v
            | none => t.root.lookup q := by
  induction calls with
  | nil =>
    intro t t1 ht h
    simp only [BitTrie6.insertAll, Option.some.injEq] at h
    subst h
    exact ⟨ht, by simp [BitTrie6.parsedCalls], fun q => by simp [BitTrie6.parsedCalls, lastAt]⟩
  | cons c rest ih =>
    intro t t1 ht h
    simp only [BitTrie6.insertAll, BitTrie6.Insert] at h
    cases hp : parseIPorCIDRIPv6 lib c.1 with
    | error e => simp [hp] at h
    | ok r =>
      obtain ⟨a, n⟩ := r
      obtain ⟨ha, hn⟩ := parseIPorCIDRIPv6_bounds lib c.1 a n hp
      obtain ⟨h1, h2, h3⟩ := BitTrie6.insertLoop6_spec a (some c.2) n 0 t.root ht (by omega)
      have hn2 : ¬ n > 128 := by omega
      simp only [hp, hn2, if_false, h1] at h
      obtain ⟨g1, g2, g3⟩ := ih _ t1 h2 h
      have hpc : BitTrie6.parsedCalls lib (c :: rest)
          = ⟨a, n, c.2⟩ :: BitTrie6.parsedCalls lib rest := by
        simp [BitTrie6.parsedCalls, List.filterMap_cons, hp]
      refine ⟨g1, ?_, ?_⟩
      · intro e he
        rw [hpc, List.mem_cons] at he
        rcases he with rfl | he
        · exact ⟨ha, hn⟩
        · exact g2 e he
      · intro q
        rw [g3 q, hpc]
        simp only [lastAt]
        cases lastAt (fun e : Route6 V => bitPath6 e.addr 0 e.bitLen) Route6.value
            (BitTrie6.parsedCalls lib rest) q with
        | some v => rfl
        | none =>
          simp only [h3 q]
          by_cases hq : q = bitPath6 a 0 n
          · simp [hq]
          · have : ¬ bitPath6 a 0 n = q := fun h => hq h.symm
            simp [hq, this]

theorem isLongestMatch_iff_covers6 {V : Type} (es : List (Route6 V)) (x : ipv6Addr)
    (hx : x.hi < 2 ^ 64 ∧ x.lo < 2 ^ 64)
    (hes : ∀ e ∈ es, (e.addr.hi < 2 ^ 64 ∧ e.addr.lo < 2 ^ 64) ∧ e.bitLen ≤ 128)
    (e : Route6 V) :
    IsLongestMatch (fun e : Route6 V => bitPath6 e.addr 0 e.bitLen) es (bitPath6 x 0 128) e
      ↔ ∃ before after, es = before ++ e :: after ∧ e.covers x
          ∧ (∀ e1 ∈ before, e1.covers x → e1.bitLen ≤ e.bitLen)
          ∧ (∀ e1 ∈ after, e1.covers x → e1.bitLen < e.bitLen) := by
  have key : ∀ e1 ∈ es, (bitPath6 e1.addr 0 e1.bitLen <+: bitPath6 x 0 128 ↔ e1.covers x) :=
    fun e1 h1 => bitPath6_prefix_iff_covers e1 x (hes e1 h1).2 (hes e1 h1).1 hx
  unfold IsLongestMatch
  constructor
  · rintro ⟨before, after, rfl, hp, hb, ha⟩
    refine ⟨before, after, rfl, (key e (by simp)).mp hp, ?_, ?_⟩
    · intro e1 h1 hc
      have := hb e1 h1 ((key e1 (by simp [h1])).mpr hc)
      simpa [bitPath6_length] using this
    · intro e1 h1 hc
      have := ha e1 h1 ((key e1 (by simp [h1])).mpr hc)
      simpa [bitPath6_length] using this
  · rintro ⟨before, after, rfl, hp, hb, ha⟩
    refine ⟨before, after, rfl, (key e (by simp)).mpr hp, ?_, ?_⟩
    · intro e1 h1 hc
      have := hb e1 h1 ((key e1 (by simp [h1])).mp hc)
      simpa [bitPath6_length] using this
    · intro e1 h1 hc
      have := ha e1 h1 ((key e1 (by simp [h1])).mp hc)
      simpa [bitPath6_length] using this

theorem To16_short_is_mapped (ip : List Nat) (h : ip.length = 4) :
    net.To4 (net.To16 ip) ≠ [] := by
  rcases ip with _ | ⟨a0, _ | ⟨a1, _ | ⟨a2, _ | ⟨a3, rest⟩⟩⟩⟩
  all_goals simp only [List.length_cons, List.length_nil] at h
  all_goals try omega
  have hr : rest = [] := List.eq_nil_of_length_eq_zero (by omega)
  subst hr
  simp [net.To16, net.To4]

/-- The address that `newIPv6Addr` builds from 16 bytes is the 128-bit number
of the bytes in network byte order. -/
theorem newIPv6Addr_toNat (ip : List Nat) (h : ip.length = 16) (a : ipv6Addr)
    (ha : newIPv6Addr ip = .ok a) : a.toNat = net.bigEndianValue ip := by
  rcases ip with _ | ⟨a0, _ | ⟨a1, _ | ⟨a2, _ | ⟨a3, _ | ⟨a4, _ | ⟨a5, _ | ⟨a6, _ | ⟨a7,
    _ | ⟨a8, _ | ⟨a9, _ | ⟨a10, _ | ⟨a11, _ | ⟨a12, _ | ⟨a13, _ | ⟨a14, _ | ⟨a15, rest⟩⟩⟩⟩⟩⟩⟩⟩⟩⟩⟩⟩⟩⟩⟩⟩
  all_goals simp only [List.length_cons, List.length_nil] at h
  all_goals try omega
  have hr : rest = [] := List.eq_nil_of_length_eq_zero (by omega)
  subst hr
  have h16 : net.To16 [a0, a1, a2, a3, a4, a5, a6, a7, a8, a9, a10, a11, a12, a13, a14, a15]
      = [a0, a1, a2, a3, a4, a5, a6, a7, a8, a9, a10, a11, a12, a13, a14, a15] :=
    net.To16_idem _ rfl
  simp only [newIPv6Addr, h16, List.length_cons, List.length_nil, List.take, List.drop,
    binary.BigEndian.Uint64] at ha
  simp only [Nat.lt_irrefl, if_false, Except.ok.injEq] at ha
  subst ha
  have m : ∀ b : Nat, b % 256 < 256 := fun b => Nat.mod_lt _ (by decide)
  simp only [ipv6Addr.toNat, net.bigEndianValue, List.foldl]
  rw [uint64_bytes_eq _ _ _ _ _ _ _ _ (m a0) (m a1) (m a2) (m a3) (m a4) (m a5) (m a6) (m a7),
    uint64_bytes_eq _ _ _ _ _ _ _ _ (m a8) (m a9) (m a10) (m a11) (m a12) (m a13) (m a14)
      (m a15)]
  omega

/-- C2. Longest-prefix match for the 128-bit trie: after a sequence of `Insert`
calls with non-nil values on a new trie that all return nil, `Find` on a string
that parses to a genuine IPv6 address (a 16-byte form that is not an IPv4
form) returns without error; the address `xa` whose bits it follows is the
128-bit number of the 16 bytes in network byte order; the result is the value
of the inserted prefix that covers that address with the greatest length, the
most recent one of that length, and it is no match exactly when no inserted
prefix covers the address. -/
theorem BitTrie6.find_longest_match6 {V : Type} (lib : net.Lib) (calls : List (String × V))
    (t : BitTrie6 V) (hrun : BitTrie6.insertAll lib NewBitTrie6 calls = some t)
    (x : String) (hx16 : net.To16 (lib.ParseIP x) ≠ [])
    (hx4 : net.To4 (net.To16 (lib.ParseIP x)) = []) :
    ∃ xa r, newIPv6Addr (net.To16 (lib.ParseIP x)) = .ok xa
      ∧ (lib.ParseIP x).length = 16
      ∧ xa.toNat = net.bigEndianValue (lib.ParseIP x)
      ∧ BitTrie6.Find lib t x = .ok r
      ∧ (∀ v, r = some v ↔
          ∃ before e after, BitTrie6.parsedCalls lib calls = before ++ e :: after
            ∧ e.value = v ∧ e.covers xa
            ∧ (∀ e1 ∈ before, e1.covers xa → e1.bitLen ≤ e.bitLen)
            ∧ (∀ e1 ∈ after, e1.covers xa → e1.bitLen < e.bitLen))
      ∧ (r = none ↔ ∀ e ∈ BitTrie6.parsedCalls lib calls, ¬ e.covers xa) := by
  obtain ⟨hroot, hes, hlook⟩ :=
    BitTrie6.insertAll6_lookup lib calls NewBitTrie6 t (by simp [NewBitTrie6]) hrun
  obtain ⟨xa, hxa⟩ := newIPv6Addr_ok _ (net.To16_length _ hx16)
  have hxb := newIPv6Addr_bounds _ _ hxa
  have hfun : t.root.lookup
      = lastAt (fun e : Route6 V => bitPath6 e.addr 0 e.bitLen) Route6.value
          (BitTrie6.parsedCalls lib calls) := by
    funext q
    rw [hlook q]
    have : (NewBitTrie6 : BitTrie6 V).root.lookup q = none := by
      cases q with
      | nil => rfl
      | cons b rest => cases b <;> rfl
    rw [this]
    cases lastAt (fun e : Route6 V => bitPath6 e.addr 0 e.bitLen) Route6.value
      (BitTrie6.parsedCalls lib calls) q <;> rfl
  have hlen : (lib.ParseIP x).length = 16 := by
    by_contra hne
    by_cases h4 : (lib.ParseIP x).length = 4
    · exact To16_short_is_mapped _ h4 hx4
    · exact hx16 (by simp [net.To16, h4, hne])
  have hval : xa.toNat = net.bigEndianValue (lib.ParseIP x) := by
    rw [net.To16_idem _ hlen] at hxa
    exact newIPv6Addr_toNat _ hlen xa hxa
  refine ⟨xa, bestAlong t.root.lookup (bitPath6 xa 0 128), hxa, hlen, hval, ?_, ?_, ?_⟩
  · have hc : ¬ (net.To16 (lib.ParseIP x) = [] ∨ net.To4 (net.To16 (lib.ParseIP x)) ≠ []) := by
      rintro (h | h)
      · exact hx16 h
      · exact h hx4
    simp only [BitTrie6.Find, hc, if_false, hxa]
    rw [BitTrie6.findLoop6_spec xa 128 0 t.root none hroot (by omega), pickBest6_none]
  · intro v
    rw [hfun, bestAlong_lastAt_eq_some_iff]
    constructor
    · rintro ⟨e, he, hv⟩
      obtain ⟨before, after, h1, h2, h3, h4⟩ :=
        (isLongestMatch_iff_covers6 _ xa hxb hes e).mp he
      exact ⟨before, e, after, h1, hv, h2, h3, h4⟩
    · rintro ⟨before, e, after, h1, hv, h2, h3, h4⟩
      exact ⟨e, (isLongestMatch_iff_covers6 _ xa hxb hes e).mpr ⟨before, after, h1, h2, h3, h4⟩,
        hv⟩
  · rw [hfun, bestAlong_lastAt_eq_none_iff]
    constructor
    · intro h e he hc
      exact h e he ((bitPath6_prefix_iff_covers e xa (hes e he).2 (hes e he).1 hxb).mpr hc)
    · intro h e he hp
      exact h e he ((bitPath6_prefix_iff_covers e xa (hes e he).2 (hes e he).1 hxb).mp hp)

/-- Witness of C2 on the IPv6 testable property of the specification. -/
theorem BitTrie6.find_longest_match6_witness :
    BitTrie6.insertAll net.sampleLib NewBitTrie6 sampleCalls6 = some sampleTrie6
      ∧ net.To16 (net.sampleLib.ParseIP "2001:db8:1::1") ≠ []
      ∧ net.To4 (net.To16 (net.sampleLib.ParseIP "2001:db8:1::1")) = []
      ∧ ∃ xa r, newIPv6Addr (net.To16 (net.sampleLib.ParseIP "2001:db8:1::1")) = .ok xa
        ∧ (net.sampleLib.ParseIP "2001:db8:1::1").length = 16
        ∧ xa.toNat = net.bigEndianValue (net.sampleLib.ParseIP "2001:db8:1::1")
        ∧ BitTrie6.Find net.sampleLib sampleTrie6 "2001:db8:1::1" = .ok r
        ∧ (∀ v, r = some v ↔
            ∃ before e after,
              BitTrie6.parsedCalls net.sampleLib sampleCalls6 = before ++ e :: after
              ∧ e.value = v ∧ e.covers xa
              ∧ (∀ e1 ∈ before, e1.covers xa → e1.bitLen ≤ e.bitLen)
              ∧ (∀ e1 ∈ after, e1.covers xa → e1.bitLen < e.bitLen))
        ∧ (r = none ↔ ∀ e ∈ BitTrie6.parsedCalls net.sampleLib sampleCalls6, ¬ e.covers xa) :=
  ⟨rfl, by decide, rfl, BitTrie6.find_longest_match6 net.sampleLib sampleCalls6 sampleTrie6 rfl
    "2001:db8:1::1" (by decide) rfl⟩

end matcher

/-! ## Strings -/

theorem strings.splitChars_ne_nil (sep : Char) (s : List Char) :
    strings.splitChars sep s ≠ [] := by
  cases s with
  | nil => simp [strings.splitChars]
  | cons c cs =>
    simp only [strings.splitChars]
    split
    · simp
    · split <;> simp

theorem strings.splitChars_append (sep : Char) (s b : List Char) :
    strings.splitChars sep (s ++ sep :: b)
      = strings.splitChars sep s ++ strings.splitChars sep b := by
  induction s with
  | nil => simp [strings.splitChars]
  | cons c cs ih =>
    by_cases hc : c = sep
    · simp only [List.cons_append, strings.splitChars, hc, if_true, List.append_eq, ih]
    · cases h : strings.splitChars sep cs with
      | nil => exact absurd h (strings.splitChars_ne_nil sep cs)
      | cons l ls =>
        simp only [List.cons_append, strings.splitChars, hc, if_false, List.append_eq, ih, h]

theorem strings.sliceFrom_append (p b : String) : strings.sliceFrom (p ++ b) p.length = b := by
  unfold strings.sliceFrom String.length
  rw [String.data_append, List.drop_left]

theorem strings.Contains_append_right (p b : String) (c : Char)
    (h : strings.Contains b c = true) : strings.Contains (p ++ b) c = true := by
  simp only [strings.Contains, List.contains_eq_any_beq, String.data_append, List.any_append,
    Bool.or_eq_true] at h ⊢
  exact Or.inr h

theorem strings.HasPrefix_append (p b : String) : strings.HasPrefix (p ++ b) p = true := by
  simp [strings.HasPrefix, List.isPrefixOf_iff_prefix]

namespace matcher

theorem swapParts_append (pre mid post : List String) (x y : String) :
    swapParts (pre ++ x :: (mid ++ y :: post)) pre.length (pre.length + (mid.length + 1))
      = pre ++ y :: (mid ++ x :: post) := by
  unfold swapParts
  have h1 : (pre ++ x :: (mid ++ y :: post)).getD (pre.length + (mid.length + 1)) "" = y := by
    rw [List.getD_append_right _ _ _ _ (by omega)]
    have : pre.length + (mid.length + 1) - pre.length = mid.length + 1 := by omega
    rw [this, List.getD_cons_succ, List.getD_append_right _ _ _ _ (le_refl _)]
    simp
  have h2 : (pre ++ x :: (mid ++ y :: post)).getD pre.length "" = x := by
    rw [List.getD_append_right _ _ _ _ (le_refl _)]
    simp
  rw [h1, h2, List.set_append_right _ _ (le_refl _), List.set_append_right _ _ (by omega)]
  have : pre.length + (mid.length + 1) - pre.length = mid.length + 1 := by omega
  simp [this]

theorem reverseParts_spec (fuel : Nat) :
    ∀ (pre mid post : List String), mid.length ≤ 2 * fuel →
      reverseParts fuel (pre ++ (mid ++ post)) pre.length (pre.length + mid.length - 1)
        = pre ++ (mid.reverse ++ post) := by
  induction fuel with
  | zero =>
    intro pre mid post h
    have : mid = [] := List.eq_nil_of_length_eq_zero (by omega)
    subst this
    simp [reverseParts]
  | succ fuel ih =>
    intro pre mid post h
    cases mid with
    | nil => simp [reverseParts]
    | cons x mid1 =>
      rcases List.eq_nil_or_concat mid1 with rfl | ⟨mid2, y, rfl⟩
      · simp [reverseParts]
      · have hlen : pre.length + (x :: mid2.concat y).length - 1
            = pre.length + (mid2.length + 1) := by
          simp
        have hlt : pre.length < pre.length + (mid2.length + 1) := by omega
        rw [hlen]
        simp only [reverseParts, hlt, if_true, List.concat_eq_append, List.cons_append,
          List.append_assoc, List.singleton_append]
        rw [swapParts_append]
        have := ih (pre ++ [y]) mid2 (x :: post) (by simp at h; omega)
        simp only [List.append_assoc, List.singleton_append, List.length_append,
          List.length_singleton] at this
        have e : pre.length + (mid2.length + 1) - 1 = pre.length + 1 + mid2.length - 1 := by omega
        rw [e, List.nil_append, this]
        simp

theorem reverseParts_eq_reverse (parts : List String) :
    reverseParts parts.length parts 0 (parts.length - 1) = parts.reverse := by
  have := reverseParts_spec parts.length [] parts [] (by omega)
  simpa using this

/-- The swap loop of `SplitAndReverse` reverses the labels. -/
theorem SplitAndReverse_eq_labels (d : String) : SplitAndReverse d = (labels d).reverse := by
  unfold SplitAndReverse labels
  exact reverseParts_eq_reverse _

theorem SplitAndReverse_ne_nil (d : String) : SplitAndReverse d ≠ [] := by
  simp [SplitAndReverse_eq_labels, labels, strings.Split, strings.splitChars_ne_nil]

/-- The labels of `s + "." + b`, top-level label first, start with those of `b`. -/
theorem SplitAndReverse_append (s b : String) :
    SplitAndReverse (s ++ "." ++ b) = SplitAndReverse b ++ SplitAndReverse s := by
  have : (s ++ "." ++ b).data = s.data ++ '.' :: b.data := by
    simp [String.data_append]
  simp [SplitAndReverse_eq_labels, labels, strings.Split, this, strings.splitChars_append]

/-! ## The label trie -/

theorem lableNode.lookupLable_orNew {V : Type} (c : lableNode V) (q : List String) :
    c.orNew.lookup q = c.lookup q := by
  cases c with
  | null => cases q <;> rfl
  | node ch val => rfl

theorem lableNode.orNewLable_ne_null {V : Type} (c : lableNode V) : c.orNew ≠ .null := by
  cases c <;> simp [lableNode.orNew]

/-- The insert loop on a live node succeeds and stores the value at exactly
the path of the labels. -/
theorem lableNode.insertLable_spec {V : Type} (value : V) (ls : List String) :
    ∀ (cur : lableNode V), cur ≠ .null →
      (lableNode.insertLoop value ls cur).2 = none
      ∧ (lableNode.insertLoop value ls cur).1 ≠ .null
      ∧ ∀ q, (lableNode.insertLoop value ls cur).1.lookup q
          = if q = ls then some value else cur.lookup q := by
  induction ls with
  | nil =>
    intro cur hcur
    cases cur with
    | null => exact absurd rfl hcur
    | node ch val =>
      refine ⟨rfl, by simp [lableNode.insertLoop], ?_⟩
      intro q
      cases q <;> simp [lableNode.insertLoop, lableNode.lookup]
  | cons l rest ih =>
    intro cur hcur
    cases cur with
    | null => exact absurd rfl hcur
    | node ch val =>
      obtain ⟨h1, h2, h3⟩ := ih (ch l).orNew (lableNode.orNewLable_ne_null _)
      refine ⟨h1, by simp [lableNode.insertLoop], ?_⟩
      intro q
      cases q with
      | nil => simp [lableNode.insertLoop, lableNode.lookup]
      | cons l1 q1 =>
        simp only [lableNode.insertLoop, lableNode.lookup, List.cons.injEq]
        by_cases hl : l1 = l
        · subst hl
          simp [h3, lableNode.lookupLable_orNew]
        · simp [hl]

/-- The insert loop never returns an error value: it returns nil, or panics
on a nil node. -/
theorem lableNode.insertLable_outcome {V : Type} (value : V) (ls : List String) :
    ∀ (cur : lableNode V), (lableNode.insertLoop value ls cur).2 = none
      ∨ ∃ msg, (lableNode.insertLoop value ls cur).2 = some (.crash msg) := by
  intro cur
  cases cur with
  | null => cases ls <;> exact Or.inr ⟨_, rfl⟩
  | node ch val =>
    exact Or.inl (lableNode.insertLable_spec value ls _ (by simp)).1

/-- The find loop returns the value of the deepest node with a value on the
path of the remaining labels, or else the running best. -/
theorem lableNode.findLable_spec {V : Type} (ls : List String) :
    ∀ (ch : String → lableNode V) (val best : Option V),
      lableNode.findLoop ls (.node ch val) (pickBest val best)
        = .ok (pickBest (bestAlong (lableNode.node ch val).lookup ls) best) := by
  induction ls with
  | nil => intro ch val best; simp [lableNode.findLoop, bestAlong, lableNode.lookup]
  | cons l rest ih =>
    intro ch val best
    simp only [lableNode.findLoop, bestAlong, lableNode.lookup]
    cases hc : ch l with
    | null =>
      have : (fun q => (lableNode.null : lableNode V).lookup q) = fun _ => none := by
        funext q; cases q <;> rfl
      simp [this, bestAlong_none]
    | node ch2 val2 =>
      simp only [ih ch2 val2 (pickBest val best)]
      cases bestAlong (fun q => (lableNode.node ch2 val2).lookup q) rest <;> rfl

/-- With no exact entry for the domain and no value on the root, `Find`
returns the value of the deepest node with a value along the labels. -/
theorem DomainMatcher.Find_eq_bestAlong {V : Type} (m : DomainMatcher V) (d : String)
    (hroot : m.root ≠ .null) (hval : m.root.lookup [] = none)
    (hd : m.exactGet d = none) :
    m.Find d = .ok (bestAlong m.root.lookup (SplitAndReverse d)) := by
  cases hr : m.root with
  | null => exact absurd hr hroot
  | node ch val =>
    rw [hr] at hval
    simp only [lableNode.lookup] at hval
    subst hval
    have := lableNode.findLable_spec (SplitAndReverse d) ch none none
    simp only [DomainMatcher.Find, hd, hr]
    rw [pickBest6_none, pickBest6_none] at this
    exact this

theorem wildcardBase_cases (p : String) :
    (strings.Contains p '.' = false ∧ wildcardBase p = none)
    ∨ (strings.Contains p '.' = true ∧ strings.HasPrefix p "*." = true
        ∧ wildcardBase p = some (strings.sliceFrom p 2))
    ∨ (strings.Contains p '.' = true ∧ strings.HasPrefix p "*." = false
        ∧ strings.HasPrefix p "*" = true ∧ wildcardBase p = some (strings.sliceFrom p 1))
    ∨ (strings.Contains p '.' = true ∧ strings.HasPrefix p "*." = false
        ∧ strings.HasPrefix p "*" = false ∧ wildcardBase p = none) := by
  unfold wildcardBase
  cases h1 : strings.Contains p '.' <;> cases h2 : strings.HasPrefix p "*." <;>
    cases h3 : strings.HasPrefix p "*" <;> simp

/-- The branches of `Add` on a matcher whose exact table exists. -/
theorem DomainMatcher.Add_of_table {V : Type} (m : DomainMatcher V) (p : String) (v : V)
    (table : String → Option V) (hmap : m.exactDomains = some table) :
    m.Add p v
      = if strings.Contains p '.' = false then
          (m, some (.error ("invalid pattern: " ++ p)))
        else if strings.HasPrefix p "*." = true then
          m.insertTrie (strings.sliceFrom p 2) v
        else if strings.HasPrefix p "*" = true then
          DomainMatcher.insertTrie
            ⟨some (fun k => if k = strings.sliceFrom p 1 then some v else table k), m.root⟩
            (strings.sliceFrom p 1) v
        else
          (⟨some (fun k => if k = p then some v else table k), m.root⟩, none) := by
  cases h1 : strings.Contains p '.' <;> cases h2 : strings.HasPrefix p "*." <;>
    cases h3 : strings.HasPrefix p "*" <;>
    simp [DomainMatcher.Add, DomainMatcher.exactSet, h1, h2, h3, hmap]

/-- One `Add` on a matcher with a live root and an exact table: both stay,
and the trie gains exactly the base of a wildcard pattern. -/
theorem DomainMatcher.Add_lookup {V : Type} (m : DomainMatcher V) (p : String) (v : V)
    (hroot : m.root ≠ .null) (hmap : m.exactDomains ≠ none) :
    (m.Add p v).1.root ≠ .null
      ∧ (m.Add p v).1.exactDomains ≠ none
      ∧ ∀ q, (m.Add p v).1.root.lookup q
          = match wildcardBase p with
            | some b => if q = SplitAndReverse b then some v else m.root.lookup q
            | none => m.root.lookup q := by
  cases hm : m.exactDomains with
  | none => exact absurd hm hmap
  | some table =>
    rw [DomainMatcher.Add_of_table m p v table hm]
    rcases wildcardBase_cases p with ⟨h1, hw⟩ | ⟨h1, h2, hw⟩ | ⟨h1, h2, h3, hw⟩ | ⟨h1, h2, h3, hw⟩
    · simp [h1, hw, hroot, hm]
    · obtain ⟨g1, g2, g3⟩ :=
        lableNode.insertLable_spec v (SplitAndReverse (strings.sliceFrom p 2)) m.root hroot
      simp only [h1, h2, hw, DomainMatcher.insertTrie]
      exact ⟨by simpa using g2, by simp [hm], fun q => by simpa using g3 q⟩
    · obtain ⟨g1, g2, g3⟩ :=
        lableNode.insertLable_spec v (SplitAndReverse (strings.sliceFrom p 1)) m.root hroot
      simp only [h1, h2, h3, hw, DomainMatcher.insertTrie]
      exact ⟨by simpa using g2, by simp, fun q => by simpa using g3 q⟩
    · simp [h1, h2, h3, hw, hroot]

theorem DomainMatcher.addAll_lookup {V : Type} (calls : List (String × V)) :
    ∀ (m : DomainMatcher V), m.root ≠ .null → m.exactDomains ≠ none →
      (m.addAll calls).root ≠ .null
      ∧ (m.addAll calls).exactDomains ≠ none
      ∧ ∀ q, (m.addAll calls).root.lookup q
          = match lastAt (fun e : String × V => SplitAndReverse e.1) Prod.snd
              (wildcardCalls calls) q with
            | some v => some v
            | none => m.root.lookup q := by
  induction calls with
  | nil =>
    intro m hm hmap
    exact ⟨hm, hmap, fun q => by simp [DomainMatcher.addAll, wildcardCalls, lastAt]⟩
  | cons c rest ih =>
    intro m hm hmap
    obtain ⟨h1, h1m, h2⟩ := DomainMatcher.Add_lookup m c.1 c.2 hm hmap
    obtain ⟨g1, g1m, g2⟩ := ih _ h1 h1m
    refine ⟨g1, g1m, ?_⟩
    intro q
    simp only [DomainMatcher.addAll]
    rw [g2 q, h2 q]
    cases hw : wildcardBase c.1 with
    | none =>
      have : wildcardCalls (c :: rest) = wildcardCalls rest := by
        simp [wildcardCalls, List.filterMap_cons, hw]
      rw [this]
    | some b =>
      have : wildcardCalls (c :: rest) = (b, c.2) :: wildcardCalls rest := by
        simp [wildcardCalls, List.filterMap_cons, hw]
      rw [this]
      simp only [lastAt]
      cases lastAt (fun e : String × V => SplitAndReverse e.1) Prod.snd (wildcardCalls rest) q with
      | some v => rfl
      | none =>
        by_cases hq : q = SplitAndReverse b
        · simp [hq]
        · have : ¬ SplitAndReverse b = q := fun h => hq h.symm
          simp [hq, this]

end matcher

namespace matcher

/-! ## The three pattern forms of `Add` -/

theorem strings_HasPrefix_star_of_star_dot (p : String)
    (h : strings.HasPrefix p "*" = false) : strings.HasPrefix p "*." = false := by
  unfold strings.HasPrefix at h ⊢
  have h1 : ("*" : String).data = ['*'] := rfl
  have h2 : ("*." : String).data = ['*', '.'] := rfl
  rw [h1] at h
  rw [h2]
  cases hp : p.data with
  | nil => rfl
  | cons c cs =>
    rw [hp] at h
    simp only [List.isPrefixOf, Bool.and_true] at h
    simp [List.isPrefixOf, h]

/-- The suffix-wildcard form only inserts the remainder into the trie. -/
theorem DomainMatcher.Add_suffix {V : Type} (m : DomainMatcher V) (b : String) (v : V) :
    m.Add ("*." ++ b) v = m.insertTrie b v := by
  have h1 : strings.Contains ("*." ++ b) '.' = true := by
    simp [strings.Contains, String.data_append, show ("*." : String).data = ['*', '.'] from rfl]
  have h2 : strings.HasPrefix ("*." ++ b) "*." = true := strings.HasPrefix_append "*." b
  have h3 : strings.sliceFrom ("*." ++ b) 2 = b := strings.sliceFrom_append "*." b
  simp [DomainMatcher.Add, h1, h2, h3]

theorem strings_HasPrefix_star_dot_of_dot (b : String) (hb : strings.HasPrefix b "." = false) :
    strings.HasPrefix ("*" ++ b) "*." = false := by
  unfold strings.HasPrefix at hb ⊢
  rw [String.data_append, show ("*" : String).data = ['*'] from rfl,
    show ("*." : String).data = ['*', '.'] from rfl]
  rw [show (".": String).data = ['.'] from rfl] at hb
  simp [List.isPrefixOf, hb]

/-- The inclusive-wildcard form stores the remainder in the exact table and
inserts it into the trie. -/
theorem DomainMatcher.Add_inclusive {V : Type} (m : DomainMatcher V) (b : String) (v : V)
    (hdot : strings.Contains b '.' = true) (hb : strings.HasPrefix b "." = false) :
    m.Add ("*" ++ b) v
      = match m.exactSet b v with
        | (m1, none) => m1.insertTrie b v
        | (m1, some e) => (m1, some e) := by
  have h1 : strings.Contains ("*" ++ b) '.' = true := strings.Contains_append_right "*" b '.' hdot
  have h2 : strings.HasPrefix ("*" ++ b) "*." = false := strings_HasPrefix_star_dot_of_dot b hb
  have h3 : strings.HasPrefix ("*" ++ b) "*" = true := strings.HasPrefix_append "*" b
  have h4 : strings.sliceFrom ("*" ++ b) 1 = b := strings.sliceFrom_append "*" b
  simp [DomainMatcher.Add, h1, h2, h3, h4]

/-- The exact form only writes the exact table. -/
theorem DomainMatcher.Add_exact {V : Type} (m : DomainMatcher V) (p : String) (v : V)
    (hdot : strings.Contains p '.' = true) (hstar : strings.HasPrefix p "*" = false) :
    m.Add p v = m.exactSet p v := by
  simp [DomainMatcher.Add, hdot, hstar, strings_HasPrefix_star_of_star_dot p hstar]

theorem wildcardBase_suffix (b : String) : wildcardBase ("*." ++ b) = some b := by
  have h1 : strings.Contains ("*." ++ b) '.' = true := by
    simp [strings.Contains, String.data_append, show ("*." : String).data = ['*', '.'] from rfl]
  have h2 : strings.HasPrefix ("*." ++ b) "*." = true := strings.HasPrefix_append "*." b
  have h3 : strings.sliceFrom ("*." ++ b) 2 = b := strings.sliceFrom_append "*." b
  simp [wildcardBase, h1, h2, h3]

theorem NewDomainMatcher_lookup {V : Type} (q : List String) :
    (NewDomainMatcher : DomainMatcher V).root.lookup q = none := by
  cases q <;> rfl

/-- On a matcher built from a new one, a domain without an exact entry gets
the best value along its labels over the most recent wildcard bases. -/
theorem DomainMatcher.Find_addAll {V : Type} (calls : List (String × V)) (d : String)
    (hd : (NewDomainMatcher.addAll calls).exactGet d = none) :
    (NewDomainMatcher.addAll calls).Find d
      = .ok (bestAlong (lastAt (fun e : String × V => SplitAndReverse e.1) Prod.snd
          (wildcardCalls calls)) (SplitAndReverse d)) := by
  obtain ⟨hroot, _, hlook⟩ :=
    DomainMatcher.addAll_lookup calls (NewDomainMatcher : DomainMatcher V)
      (by simp [NewDomainMatcher]) (by simp [NewDomainMatcher])
  have hfun : (NewDomainMatcher.addAll calls).root.lookup
      = lastAt (fun e : String × V => SplitAndReverse e.1) Prod.snd (wildcardCalls calls) := by
    funext q
    rw [hlook q, NewDomainMatcher_lookup]
    cases lastAt (fun e : String × V => SplitAndReverse e.1) Prod.snd (wildcardCalls calls) q <;>
      rfl
  have hval : (NewDomainMatcher.addAll calls).root.lookup [] = none := by
    rw [hfun]
    exact (lastAt_eq_none_iff _ _ _ _).mpr (fun e _ => SplitAndReverse_ne_nil e.1)
  rw [DomainMatcher.Find_eq_bestAlong _ d hroot hval hd, hfun]

/-- After one suffix-wildcard `Add` on a new matcher, every domain whose
labels end with those of the base, and that has no exact entry, finds the
value. -/
theorem DomainMatcher.Find_single {V : Type} (p b : String) (v : V) (d : String)
    (hw : wildcardBase p = some b)
    (hd : (NewDomainMatcher.Add p v).1.exactGet d = none)
    (hsuf : SplitAndReverse b <+: SplitAndReverse d) :
    (NewDomainMatcher.Add p v).1.Find d = .ok (some v) := by
  have h := DomainMatcher.Find_addAll [(p, v)] d hd
  have hc : wildcardCalls [(p, v)] = [(b, v)] := by
    simp [wildcardCalls, List.filterMap_cons, hw]
  rw [hc] at h
  have hb : bestAlong (lastAt (fun e : String × V => SplitAndReverse e.1) Prod.snd [(b, v)])
      (SplitAndReverse d) = some v := by
    refine (bestAlong_lastAt_eq_some_iff _ _ _ _ v).mpr ⟨(b, v), ⟨[], [], rfl, hsuf, ?_, ?_⟩, rfl⟩
    · intro e he; simp at he
    · intro e he; simp at he
  rw [hb] at h
  exact h

theorem String_append_ne_right (s b : String) : s ++ "." ++ b ≠ b := by
  intro h
  have := congrArg String.length h
  simp only [String.length_append] at this
  have h1 : (".": String).length = 1 := rfl
  omega

/-- On the zero-value matcher (nil table, nil root) the exact form of `Add`
panics on the map write and leaves the matcher as it was. -/
theorem DomainMatcher.Add_zero_value_panics :
    (⟨none, .null⟩ : DomainMatcher String).Add "test.com" "Y"
      = (⟨none, .null⟩, some (.crash "assignment to entry in nil map")) := rfl

end matcher

namespace matcher

/-! ## Claims about the domain matcher -/

/-- C3, the code at the failing input: after `Add("*.example.com", "X")` on a
new matcher the call has returned nil and written nothing to the exact table,
a proper subdomain finds `"X"`, and `Find("example.com")` returns `"X"` too,
where the claim asks for no match.  The inclusive form `*example.com` is the
one that enters the apex, through the exact table. -/
theorem DomainMatcher.suffix_wildcard_apex_found :
    (NewDomainMatcher.Add ("*." ++ "example.com") "X").2 = none
      ∧ (NewDomainMatcher.Add ("*." ++ "example.com") "X").1.exactGet "example.com" = none
      ∧ (NewDomainMatcher.Add ("*" ++ "example.com") "X").1.exactGet "example.com" = some "X"
      ∧ (NewDomainMatcher.Add ("*." ++ "example.com") "X").1.Find "a.example.com"
          = .ok (some "X")
      ∧ (NewDomainMatcher.Add ("*." ++ "example.com") "X").1.Find "example.com"
          = .ok (some "X")
      ∧ ¬ ((NewDomainMatcher.Add ("*." ++ "example.com") "X").1.Find "example.com"
          = .ok (none : Option String)) := by
  have h : (NewDomainMatcher.Add ("*." ++ "example.com") "X").1.Find "example.com"
      = .ok (some "X") := rfl
  refine ⟨rfl, rfl, rfl, rfl, h, ?_⟩
  rw [h]
  intro h1
  cases h1

/-- The walk of `Find` steps onto the node of the last label of the base and
records its value, whatever the base: on the code as written the apex of a
suffix wildcard is found like its subdomains. -/
theorem DomainMatcher.apex_found_every_base {V : Type} (b : String) (v : V) :
    (NewDomainMatcher.Add ("*." ++ b) v).1.Find b = .ok (some v)
      ∧ ∀ s : String, (NewDomainMatcher.Add ("*." ++ b) v).1.Find (s ++ "." ++ b)
          = .ok (some v) := by
  have hex : ∀ d, (NewDomainMatcher.Add ("*." ++ b) v).1.exactGet d = none := by
    intro d
    rw [DomainMatcher.Add_suffix]
    rfl
  refine ⟨DomainMatcher.Find_single _ b v b (wildcardBase_suffix b) (hex b) (List.prefix_refl _),
    fun s => DomainMatcher.Find_single _ b v _ (wildcardBase_suffix b) (hex _) ?_⟩
  rw [SplitAndReverse_append]
  exact List.prefix_append _ _

/-- C4. After `Add("*" + b, v)` on a new matcher, for a base `b` with a dot
that starts with neither `.` nor `*`, `Find(b)` and `Find(s + "." + b)` return
`v` for every string `s`. -/
theorem DomainMatcher.inclusive_wildcard_covers {V : Type} (b : String) (v : V)
    (hdot : strings.Contains b '.' = true) (h1 : strings.HasPrefix b "." = false)
    (_h2 : strings.HasPrefix b "*" = false) :
    (NewDomainMatcher.Add ("*" ++ b) v).1.Find b = .ok (some v)
      ∧ ∀ s : String, (NewDomainMatcher.Add ("*" ++ b) v).1.Find (s ++ "." ++ b)
          = .ok (some v) := by
  have hex : ∀ d, (NewDomainMatcher.Add ("*" ++ b) v).1.exactGet d
      = if d = b then some v else none := by
    intro d
    rw [DomainMatcher.Add_inclusive _ b v hdot h1]
    rfl
  have hw : wildcardBase ("*" ++ b) = some b := by
    have g1 : strings.Contains ("*" ++ b) '.' = true :=
      strings.Contains_append_right "*" b '.' hdot
    have g2 : strings.HasPrefix ("*" ++ b) "*." = false :=
      strings_HasPrefix_star_dot_of_dot b h1
    have g3 : strings.HasPrefix ("*" ++ b) "*" = true := strings.HasPrefix_append "*" b
    have g4 : strings.sliceFrom ("*" ++ b) 1 = b := strings.sliceFrom_append "*" b
    simp [wildcardBase, g1, g2, g3, g4]
  constructor
  · simp [DomainMatcher.Find, hex]
  · intro s
    refine DomainMatcher.Find_single _ b v _ hw ?_ ?_
    · rw [hex, if_neg (String_append_ne_right s b)]
    · rw [SplitAndReverse_append]
      exact List.prefix_append _ _

/-- Witness of C4 on `*test.com`. -/
theorem DomainMatcher.inclusive_wildcard_covers_witness :
    strings.Contains "test.com" '.' = true ∧ strings.HasPrefix "test.com" "." = false
      ∧ strings.HasPrefix "test.com" "*" = false
      ∧ (NewDomainMatcher.Add ("*" ++ "test.com") "Y").1.Find "test.com" = .ok (some "Y")
      ∧ ∀ s : String, (NewDomainMatcher.Add ("*" ++ "test.com") "Y").1.Find
          (s ++ "." ++ "test.com") = .ok (some "Y") :=
  ⟨rfl, rfl, rfl, DomainMatcher.inclusive_wildcard_covers "test.com" "Y" rfl rfl rfl⟩

/-- C5. Longest suffix wins by label depth: on a matcher built from a new one
by a sequence of `Add` calls, `Find` on a domain that is not a key of the exact
table returns the value of the wildcard pattern whose base has the most labels
among those whose labels are a suffix of the labels of the domain, the most
recently added one for that base, and returns no match when there is none. -/
theorem DomainMatcher.find_longest_suffix {V : Type} (calls : List (String × V)) (d : String)
    (hd : (NewDomainMatcher.addAll calls).exactGet d = none) :
    ∃ r, (NewDomainMatcher.addAll calls).Find d = .ok r
      ∧ (∀ v, r = some v ↔
          ∃ before e after, wildcardCalls calls = before ++ e :: after ∧ e.2 = v
            ∧ labels e.1 <:+ labels d
            ∧ (∀ e1 ∈ before, labels e1.1 <:+ labels d
                → (labels e1.1).length ≤ (labels e.1).length)
            ∧ (∀ e1 ∈ after, labels e1.1 <:+ labels d
                → (labels e1.1).length < (labels e.1).length))
      ∧ (r = none ↔ ∀ e ∈ wildcardCalls calls, ¬ labels e.1 <:+ labels d) := by
  refine ⟨_, DomainMatcher.Find_addAll calls d hd, ?_, ?_⟩
  · intro v
    rw [bestAlong_lastAt_eq_some_iff]
    simp only [IsLongestMatch, SplitAndReverse_eq_labels, List.reverse_prefix,
      List.length_reverse]
    constructor
    · rintro ⟨e, ⟨before, after, h1, h2, h3, h4⟩, hv⟩
      exact ⟨before, e, after, h1, hv, h2, h3, h4⟩
    · rintro ⟨before, e, after, h1, hv, h2, h3, h4⟩
      exact ⟨e, ⟨before, after, h1, h2, h3, h4⟩, hv⟩
  · rw [bestAlong_lastAt_eq_none_iff]
    simp only [SplitAndReverse_eq_labels, List.reverse_prefix]

/-- Witness of C5 on the patterns `*.a.b.com` and `*.b.com`. -/
theorem DomainMatcher.find_longest_suffix_witness :
    (NewDomainMatcher.addAll [("*.a.b.com", "P"), ("*.b.com", "Q")]).exactGet "x.a.b.com"
        = none
      ∧ ∃ r, (NewDomainMatcher.addAll [("*.a.b.com", "P"), ("*.b.com", "Q")]).Find "x.a.b.com"
          = .ok r
        ∧ (∀ v, r = some v ↔
            ∃ before e after,
              wildcardCalls [("*.a.b.com", "P"), ("*.b.com", "Q")] = before ++ e :: after
              ∧ e.2 = v ∧ labels e.1 <:+ labels "x.a.b.com"
              ∧ (∀ e1 ∈ before, labels e1.1 <:+ labels "x.a.b.com"
                  → (labels e1.1).length ≤ (labels e.1).length)
              ∧ (∀ e1 ∈ after, labels e1.1 <:+ labels "x.a.b.com"
                  → (labels e1.1).length < (labels e.1).length))
        ∧ (r = none ↔ ∀ e ∈ wildcardCalls [("*.a.b.com", "P"), ("*.b.com", "Q")],
            ¬ labels e.1 <:+ labels "x.a.b.com") :=
  ⟨rfl, DomainMatcher.find_longest_suffix [("*.a.b.com", "P"), ("*.b.com", "Q")] "x.a.b.com" rfl⟩

/-- C6. Exact match has priority: in every matcher state whose exact table
maps the domain to `v`, `Find` returns `v` whatever the label trie holds. -/
theorem DomainMatcher.find_exact_priority {V : Type} (m : DomainMatcher V) (d : String) (v : V)
    (h : m.exactGet d = some v) : m.Find d = .ok (some v) := by
  simp [DomainMatcher.Find, h]

/-- Witness of C6: the exact value `E` wins over the wildcard value `W` that
the trie holds for the same labels. -/
theorem DomainMatcher.find_exact_priority_witness :
    sampleMatcher.exactGet "example.com" = some "E"
      ∧ sampleMatcher.root.lookup ["com", "example"] = some "W"
      ∧ sampleMatcher.Find "example.com" = .ok (some "E") :=
  ⟨rfl, rfl, DomainMatcher.find_exact_priority sampleMatcher "example.com" "E" rfl⟩

/-- C7. The inclusive wildcard is the exact form followed by the suffix
wildcard: on a matcher whose exact table exists (as `NewDomainMatcher` builds
it), for a base with a dot that starts with neither `.` nor `*`,
`Add("*" + b, v)` leaves the same exact table and the same trie (and returns
the same) as `Add(b, v)`, which returns nil, followed by `Add("*." + b, v)`;
hence `Find` agrees on every domain. -/
theorem DomainMatcher.add_inclusive_eq_exact_then_suffix {V : Type} (m : DomainMatcher V)
    (v : V) (b : String) (hmap : m.exactDomains ≠ none)
    (hdot : strings.Contains b '.' = true)
    (h1 : strings.HasPrefix b "." = false) (h2 : strings.HasPrefix b "*" = false) :
    (m.Add b v).2 = none
      ∧ m.Add ("*" ++ b) v = (m.Add b v).1.Add ("*." ++ b) v
      ∧ ∀ d, (m.Add ("*" ++ b) v).1.Find d = ((m.Add b v).1.Add ("*." ++ b) v).1.Find d := by
  cases hm : m.exactDomains with
  | none => exact absurd hm hmap
  | some table =>
    have he : m.Add b v
        = (⟨some (fun k => if k = b then some v else table k), m.root⟩, none) := by
      rw [DomainMatcher.Add_exact m b v hdot h2]
      simp [DomainMatcher.exactSet, hm]
    have heq : m.Add ("*" ++ b) v = (m.Add b v).1.Add ("*." ++ b) v := by
      rw [DomainMatcher.Add_inclusive m b v hdot h1, DomainMatcher.Add_suffix, he]
      simp [DomainMatcher.exactSet, hm]
    exact ⟨by rw [he], heq, fun d => by rw [heq]⟩

/-- Witness of C7 on the base `test.com` and a matcher that already holds a
wildcard and an exact entry. -/
theorem DomainMatcher.add_inclusive_eq_exact_then_suffix_witness :
    sampleMatcher.exactDomains ≠ none
      ∧ strings.Contains "test.com" '.' = true ∧ strings.HasPrefix "test.com" "." = false
      ∧ strings.HasPrefix "test.com" "*" = false
      ∧ (sampleMatcher.Add "test.com" "Y").2 = none
      ∧ sampleMatcher.Add ("*" ++ "test.com") "Y"
          = (sampleMatcher.Add "test.com" "Y").1.Add ("*." ++ "test.com") "Y"
      ∧ ∀ d, (sampleMatcher.Add ("*" ++ "test.com") "Y").1.Find d
          = ((sampleMatcher.Add "test.com" "Y").1.Add ("*." ++ "test.com") "Y").1.Find d :=
  ⟨(fun h => nomatch h), rfl, rfl, rfl,
    DomainMatcher.add_inclusive_eq_exact_then_suffix sampleMatcher "Y" "test.com"
      (fun h => nomatch h) rfl rfl rfl⟩

/-- C8. The exact form touches only the exact table and matches only the
identical string: on a matcher whose exact table exists (as
`NewDomainMatcher` builds it), for a pattern with a dot that does not start
with `*`, `Add(p, v)` returns nil, leaves the label trie unchanged, enters
`p` with `v` in the exact table and leaves its other keys as they were, makes
`Find(p)` return `v`, and leaves `Find(d)` unchanged for every other domain. -/
theorem DomainMatcher.add_exact_frame {V : Type} (m : DomainMatcher V) (p : String) (v : V)
    (hmap : m.exactDomains ≠ none)
    (hdot : strings.Contains p '.' = true) (hstar : strings.HasPrefix p "*" = false) :
    (m.Add p v).2 = none
      ∧ (m.Add p v).1.root = m.root
      ∧ (m.Add p v).1.exactDomains ≠ none
      ∧ (m.Add p v).1.exactGet p = some v
      ∧ (∀ d, d ≠ p → (m.Add p v).1.exactGet d = m.exactGet d)
      ∧ (m.Add p v).1.Find p = .ok (some v)
      ∧ ∀ d, d ≠ p → (m.Add p v).1.Find d = m.Find d := by
  cases hm : m.exactDomains with
  | none => exact absurd hm hmap
  | some table =>
    have he : m.Add p v
        = (⟨some (fun k => if k = p then some v else table k), m.root⟩, none) := by
      rw [DomainMatcher.Add_exact m p v hdot hstar]
      simp [DomainMatcher.exactSet, hm]
    rw [he]
    refine ⟨rfl, rfl, by simp, by simp [DomainMatcher.exactGet], ?_,
      by simp [DomainMatcher.Find, DomainMatcher.exactGet], ?_⟩
    · intro d hd
      simp [DomainMatcher.exactGet, hd, hm]
    · intro d hd
      simp [DomainMatcher.Find, DomainMatcher.exactGet, hd, hm]

/-- Witness of C8 on the pattern `test.com` and a matcher that already holds
a wildcard and an exact entry. -/
theorem DomainMatcher.add_exact_frame_witness :
    sampleMatcher.exactDomains ≠ none
      ∧ strings.Contains "test.com" '.' = true ∧ strings.HasPrefix "test.com" "*" = false
      ∧ (sampleMatcher.Add "test.com" "Y").2 = none
      ∧ (sampleMatcher.Add "test.com" "Y").1.root = sampleMatcher.root
      ∧ (sampleMatcher.Add "test.com" "Y").1.exactDomains ≠ none
      ∧ (sampleMatcher.Add "test.com" "Y").1.exactGet "test.com" = some "Y"
      ∧ (∀ d, d ≠ "test.com" →
          (sampleMatcher.Add "test.com" "Y").1.exactGet d = sampleMatcher.exactGet d)
      ∧ (sampleMatcher.Add "test.com" "Y").1.Find "test.com" = .ok (some "Y")
      ∧ ∀ d, d ≠ "test.com" → (sampleMatcher.Add "test.com" "Y").1.Find d = sampleMatcher.Find d :=
  ⟨(fun h => nomatch h), rfl, rfl,
    DomainMatcher.add_exact_frame sampleMatcher "test.com" "Y" (fun h => nomatch h) rfl rfl⟩

theorem DomainMatcher.exactSet_outcome {V : Type} (m : DomainMatcher V) (k : String) (v : V) :
    (m.exactSet k v).2 = none ∨ ∃ msg, (m.exactSet k v).2 = some (.crash msg) := by
  unfold DomainMatcher.exactSet
  cases m.exactDomains with
  | none => exact Or.inr ⟨_, rfl⟩
  | some table => exact Or.inl rfl

/-- Whatever the state, `Add` on a pattern with a dot returns nil or panics;
it does not return an error value. -/
theorem DomainMatcher.Add_outcome {V : Type} (m : DomainMatcher V) (p : String) (v : V)
    (hc : strings.Contains p '.' = true) :
    (m.Add p v).2 = none ∨ ∃ msg, (m.Add p v).2 = some (.crash msg) := by
  cases h2 : strings.HasPrefix p "*." with
  | true =>
    simp only [DomainMatcher.Add, hc, h2, DomainMatcher.insertTrie]
    exact lableNode.insertLable_outcome v _ _
  | false =>
    cases h3 : strings.HasPrefix p "*" with
    | true =>
      have hadd : m.Add p v
          = match m.exactSet (strings.sliceFrom p 1) v with
            | (m1, none) => m1.insertTrie (strings.sliceFrom p 1) v
            | (m1, some e) => (m1, some e) := by
        simp [DomainMatcher.Add, hc, h2, h3]
      rw [hadd]
      cases hm : m.exactDomains with
      | none =>
        simp only [DomainMatcher.exactSet, hm]
        exact Or.inr ⟨_, rfl⟩
      | some table =>
        simp only [DomainMatcher.exactSet, hm, DomainMatcher.insertTrie]
        exact lableNode.insertLable_outcome v _ _
    | false =>
      have hadd : m.Add p v = m.exactSet p v := by
        simp [DomainMatcher.Add, hc, h2, h3]
      rw [hadd]
      exact DomainMatcher.exactSet_outcome m p v

/-- C9. `Add` returns an error exactly when the pattern has no dot, and when
it returns an error the exact table and the label trie are unchanged; on a
matcher with a live root and an exact table (as `NewDomainMatcher` builds it)
`Add` returns nil exactly when the pattern has a dot. -/
theorem DomainMatcher.add_error_iff {V : Type} (m : DomainMatcher V) (p : String) (v : V) :
    ((∃ msg, (m.Add p v).2 = some (.error msg)) ↔ strings.Contains p '.' = false)
      ∧ (∀ msg, (m.Add p v).2 = some (.error msg) → (m.Add p v).1 = m)
      ∧ (m.root ≠ .null → m.exactDomains ≠ none →
          ((m.Add p v).2 = none ↔ strings.Contains p '.' = true)) := by
  cases hc : strings.Contains p '.' with
  | false =>
    have h : m.Add p v = (m, some (.error ("invalid pattern: " ++ p))) := by
      simp [DomainMatcher.Add, hc]
    rw [h]
    exact ⟨⟨fun _ => rfl, fun _ => ⟨_, rfl⟩⟩, fun _ _ => rfl,
      fun _ _ => ⟨(fun h1 => nomatch h1), (fun h1 => nomatch h1)⟩⟩
  | true =>
    have hout := DomainMatcher.Add_outcome m p v hc
    have hnil : m.root ≠ .null → m.exactDomains ≠ none → (m.Add p v).2 = none := by
      intro hroot hmap
      cases hm : m.exactDomains with
      | none => exact absurd hm hmap
      | some table =>
        rw [DomainMatcher.Add_of_table m p v table hm]
        cases h2 : strings.HasPrefix p "*." with
        | true =>
          simp only [hc, h2, DomainMatcher.insertTrie]
          exact (lableNode.insertLable_spec v _ m.root hroot).1
        | false =>
          cases h3 : strings.HasPrefix p "*" with
          | true =>
            simp only [hc, h2, h3, DomainMatcher.insertTrie]
            exact (lableNode.insertLable_spec v _ m.root hroot).1
          | false => simp [hc, h2, h3]
    have hne : ∀ msg, (m.Add p v).2 ≠ some (.error msg) := by
      intro msg h1
      rcases hout with h0 | ⟨msg2, h0⟩
      · rw [h0] at h1; exact nomatch h1
      · rw [h0] at h1
        simp at h1
    refine ⟨⟨?_, (fun h1 => nomatch h1)⟩, fun msg h1 => absurd h1 (hne msg),
      fun hroot hmap => ⟨fun _ => rfl, fun _ => hnil hroot hmap⟩⟩
    rintro ⟨msg, h1⟩
    exact absurd h1 (hne msg)

/-- Witness of C9 on a new matcher and the single-label pattern `localhost`. -/
theorem DomainMatcher.add_error_iff_witness :
    (NewDomainMatcher : DomainMatcher String).root ≠ .null
      ∧ (NewDomainMatcher : DomainMatcher String).exactDomains ≠ none
      ∧ ((∃ msg, ((NewDomainMatcher : DomainMatcher String).Add "localhost" "L").2
            = some (.error msg)) ↔ strings.Contains "localhost" '.' = false)
      ∧ (∀ msg, ((NewDomainMatcher : DomainMatcher String).Add "localhost" "L").2
            = some (.error msg)
          → ((NewDomainMatcher : DomainMatcher String).Add "localhost" "L").1
              = NewDomainMatcher)
      ∧ (((NewDomainMatcher : DomainMatcher String).Add "localhost" "L").2 = none
          ↔ strings.Contains "localhost" '.' = true) :=
  ⟨by simp [NewDomainMatcher], by simp [NewDomainMatcher],
    (DomainMatcher.add_error_iff NewDomainMatcher "localhost" "L").1,
    (DomainMatcher.add_error_iff NewDomainMatcher "localhost" "L").2.1,
    (DomainMatcher.add_error_iff NewDomainMatcher "localhost" "L").2.2
      (by simp [NewDomainMatcher]) (by simp [NewDomainMatcher])⟩

end matcher

/-! ## Address families on the IPv6 path -/

theorem net.To4_of_mapped (ip : List Nat) (h : net.isIPv4Mapped ip) : net.To4 ip ≠ [] := by
  obtain ⟨hlen, htake⟩ := h
  rcases ip with _ | ⟨a0, _ | ⟨a1, _ | ⟨a2, _ | ⟨a3, _ | ⟨a4, _ | ⟨a5, _ | ⟨a6, _ | ⟨a7,
    _ | ⟨a8, _ | ⟨a9, _ | ⟨a10, _ | ⟨a11, _ | ⟨a12, _ | ⟨a13, _ | ⟨a14, _ | ⟨a15, rest⟩⟩⟩⟩⟩⟩⟩⟩⟩⟩⟩⟩⟩⟩⟩⟩
  all_goals simp only [List.length_cons, List.length_nil] at hlen
  all_goals try omega
  have hr : rest = [] := List.eq_nil_of_length_eq_zero (by omega)
  subst hr
  simp only [List.take, List.cons.injEq, and_true] at htake
  obtain ⟨rfl, rfl, rfl, rfl, rfl, rfl, rfl, rfl, rfl, rfl, rfl, rfl⟩ := htake
  simp [net.To4]

theorem net.mapped_of_To4 (ip : List Nat) (hlen : ip.length = 16) (h : net.To4 ip ≠ []) :
    net.isIPv4Mapped ip := by
  refine ⟨hlen, ?_⟩
  rcases ip with _ | ⟨a0, _ | ⟨a1, _ | ⟨a2, _ | ⟨a3, _ | ⟨a4, _ | ⟨a5, _ | ⟨a6, _ | ⟨a7,
    _ | ⟨a8, _ | ⟨a9, _ | ⟨a10, _ | ⟨a11, _ | ⟨a12, _ | ⟨a13, _ | ⟨a14, _ | ⟨a15, rest⟩⟩⟩⟩⟩⟩⟩⟩⟩⟩⟩⟩⟩⟩⟩⟩
  all_goals simp only [List.length_cons, List.length_nil] at hlen
  all_goals try omega
  have hr : rest = [] := List.eq_nil_of_length_eq_zero (by omega)
  subst hr
  simp [net.To4] at h
  simp only [List.take, List.cons.injEq, and_true]
  exact h

theorem net.To4_To16_of_short (ip : List Nat) (h : ip.length = 4) :
    net.To16 ip ≠ [] ∧ net.To4 (net.To16 ip) ≠ [] := by
  have h16 : net.To16 ip = [0, 0, 0, 0, 0, 0, 0, 0, 0, 0, 0xff, 0xff] ++ ip := by
    simp [net.To16, h]
  rw [h16]
  refine ⟨by simp, net.To4_of_mapped _ ⟨by simp [h], by simp⟩⟩

/-- The guard of the IPv6 path, `ip == nil || ip.To4() != nil` on the `To16`
form, fires exactly on what is not a genuine IPv6 address. -/
theorem net.guard_iff_not_genuine (ip : List Nat) :
    (net.To16 ip = [] ∨ net.To4 (net.To16 ip) ≠ []) ↔ ¬ net.isGenuineIPv6 ip := by
  by_cases h16 : ip.length = 16
  · rw [net.To16_idem ip h16]
    constructor
    · rintro (h | h) hg
      · rw [h] at h16; simp at h16
      · exact hg.2 (net.mapped_of_To4 ip h16 h)
    · intro hg
      right
      intro h4
      exact hg ⟨h16, fun hm => net.To4_of_mapped ip hm h4⟩
  · have hng : ¬ net.isGenuineIPv6 ip := fun hg => h16 hg.1
    simp only [hng, not_false_eq_true, iff_true]
    by_cases h4 : ip.length = 4
    · exact Or.inr (net.To4_To16_of_short ip h4).2
    · left
      simp [net.To16, h4, h16]

theorem net.To4_of_compatible (ip : List Nat) (h : net.isIPv4Compatible ip) : net.To4 ip = [] := by
  by_contra hne
  have hm := net.mapped_of_To4 ip h.1 hne
  have := hm.2
  rw [h.2] at this
  exact absurd this (by decide)

theorem net.genuine_of_compatible (ip : List Nat) (h : net.isIPv4Compatible ip) :
    net.isGenuineIPv6 ip :=
  ⟨h.1, fun hm => net.To4_of_mapped ip hm (net.To4_of_compatible ip h)⟩

/-! ## The 128-bit trie: failed inserts, bad queries, host bits, nil values -/

namespace matcher

theorem bitNode6.insertPath_ne_null {V : Type} (value : Option V) (p : List Bool)
    (cur : bitNode6 V) (h : cur ≠ .null) : bitNode6.insertPath value p cur ≠ .null := by
  cases cur with
  | null => exact absurd rfl h
  | node c0 c1 val =>
    cases p with
    | nil => simp [bitNode6.insertPath]
    | cons b rest => cases b <;> simp [bitNode6.insertPath]

/-- The insert loop stores the value at the path of the consumed bits and
creates the missing nodes of that path; on a nil node it panics. -/
theorem BitTrie6.insertLoop6_eq_insertPath {V : Type} (a : ipv6Addr) (value : Option V)
    (k : Nat) :
    ∀ (i : Nat) (cur : bitNode6 V), i + k ≤ 128 →
      BitTrie6.insertLoop a value i k cur
        = (bitNode6.insertPath value (bitPath6 a i k) cur,
            match cur with
            | .null => some (.crash "nil pointer dereference")
            | .node _ _ _ => none) := by
  induction k with
  | zero =>
    intro i cur _
    cases cur <;> simp [BitTrie6.insertLoop, bitPath6, bitNode6.insertPath]
  | succ k ih =>
    intro i cur hik
    have hg := ipv6Addr.getBit6_ok a i (by omega)
    cases cur with
    | null => simp [BitTrie6.insertLoop, hg, bitNode6.insertPath]
    | node c0 c1 val =>
      rcases ipv6Addr.bitAt_cases a i with hb | hb
      · have h0 := ih (i + 1) c0.orNew (by omega)
        have hn := bitNode6.orNew6_ne_null c0
        cases hc : c0.orNew with
        | null => exact absurd hc hn
        | node d0 d1 dv =>
          rw [hc] at h0
          simp [BitTrie6.insertLoop, hg, hb, bitPath6, bitNode6.insertPath, hc, h0]
      · have h1 := ih (i + 1) c1.orNew (by omega)
        have hn := bitNode6.orNew6_ne_null c1
        cases hc : c1.orNew with
        | null => exact absurd hc hn
        | node d0 d1 dv =>
          rw [hc] at h1
          simp [BitTrie6.insertLoop, hg, hb, bitPath6, bitNode6.insertPath, hc, h1]

/-- What `Insert` does after a successful parse: it stores the value at the
path of the leading bits, and returns nil unless the root is nil. -/
theorem BitTrie6.Insert_of_parse {V : Type} (lib : net.Lib) (t : BitTrie6 V) (p : String)
    (v : Option V) (a : ipv6Addr) (n : Nat) (hp : parseIPorCIDRIPv6 lib p = .ok (a, n)) :
    BitTrie6.Insert lib t p v
      = (⟨bitNode6.insertPath v (bitPath6 a 0 n) t.root⟩,
          match t.root with
          | .null => some (.crash "nil pointer dereference")
          | .node _ _ _ => none) := by
  have hn := (parseIPorCIDRIPv6_bounds lib p a n hp).2
  have hn2 : ¬ n > 128 := by omega
  simp only [BitTrie6.Insert, hp, hn2, if_false,
    BitTrie6.insertLoop6_eq_insertPath a v n 0 t.root (by omega)]

/-- C12. Failed inserts do not mutate the 128-bit trie: whenever `Insert`
returns an error, the error is the one of the parser and the trie is the one
before the call; after a successful parse the length is at most 128 and
`getBit` succeeds at every index the loop uses, so neither the range check nor
the loop returns an error. -/
theorem BitTrie6.insert_error_unchanged {V : Type} (lib : net.Lib) (t : BitTrie6 V)
    (p : String) (v : Option V) (msg : String)
    (h : (BitTrie6.Insert lib t p v).2 = some (.error msg)) :
    (BitTrie6.Insert lib t p v).1 = t
      ∧ parseIPorCIDRIPv6 lib p = .error (.error msg)
      ∧ (∀ a n, parseIPorCIDRIPv6 lib p = .ok (a, n) →
          n ≤ 128 ∧ ∀ i, i < n → a.getBit i = .ok (a.bitAt i)) := by
  have h3 : ∀ a n, parseIPorCIDRIPv6 lib p = .ok (a, n) →
      n ≤ 128 ∧ ∀ i, i < n → a.getBit i = .ok (a.bitAt i) := by
    intro a n hp
    have hn := (parseIPorCIDRIPv6_bounds lib p a n hp).2
    exact ⟨hn, fun i hi => ipv6Addr.getBit6_ok a i (by omega)⟩
  cases hp : parseIPorCIDRIPv6 lib p with
  | error e =>
    have hi : BitTrie6.Insert lib t p v = (t, some e) := by simp [BitTrie6.Insert, hp]
    rw [hi] at h ⊢
    simp only [Option.some.injEq] at h
    subst h
    exact ⟨rfl, rfl, fun a n hc => nomatch hc⟩
  | ok r =>
    obtain ⟨a, n⟩ := r
    rw [BitTrie6.Insert_of_parse lib t p v a n hp] at h
    cases hr : t.root with
    | null => rw [hr] at h; simp at h
    | node c0 c1 val => rw [hr] at h; simp at h

/-- Witness of C12 on a string that is no address. -/
theorem BitTrie6.insert_error_unchanged_witness :
    (BitTrie6.Insert net.sampleLib sampleTrie6 "not-an-address" (some "Z")).2
        = some (.error "invalid IPv6 address")
      ∧ (BitTrie6.Insert net.sampleLib sampleTrie6 "not-an-address" (some "Z")).1 = sampleTrie6
      ∧ parseIPorCIDRIPv6 net.sampleLib "not-an-address"
          = .error (.error "invalid IPv6 address")
      ∧ (∀ a n, parseIPorCIDRIPv6 net.sampleLib "not-an-address" = .ok (a, n) →
          n ≤ 128 ∧ ∀ i, i < n → a.getBit i = .ok (a.bitAt i)) :=
  ⟨rfl, BitTrie6.insert_error_unchanged net.sampleLib sampleTrie6 "not-an-address" (some "Z")
    "invalid IPv6 address" rfl⟩

theorem BitTrie6.Insert_root_ne_null {V : Type} (lib : net.Lib) (t : BitTrie6 V) (p : String)
    (v : Option V) (h : t.root ≠ .null) : (BitTrie6.Insert lib t p v).1.root ≠ .null := by
  cases hp : parseIPorCIDRIPv6 lib p with
  | error e => simpa [BitTrie6.Insert, hp] using h
  | ok r =>
    obtain ⟨a, n⟩ := r
    rw [BitTrie6.Insert_of_parse lib t p v a n hp]
    exact bitNode6.insertPath_ne_null v _ _ h

theorem BitTrie6.insertSeq_root_ne_null {V : Type} (lib : net.Lib)
    (calls : List (String × Option V)) :
    ∀ t : BitTrie6 V, t.root ≠ .null → (BitTrie6.insertSeq lib t calls).root ≠ .null := by
  induction calls with
  | nil => intro t h; exact h
  | cons c rest ih =>
    intro t h
    exact ih _ (BitTrie6.Insert_root_ne_null lib t c.1 c.2 h)

/-- On a live root and a genuine IPv6 address, `Find` returns the value of
the deepest node with a value along the 128 bits of the address. -/
theorem BitTrie6.Find6_eq_bestAlong {V : Type} (lib : net.Lib) (t : BitTrie6 V) (x : String)
    (hroot : t.root ≠ .null) (hg : net.isGenuineIPv6 (lib.ParseIP x)) :
    ∃ xa, newIPv6Addr (net.To16 (lib.ParseIP x)) = .ok xa
      ∧ (xa.hi < 2 ^ 64 ∧ xa.lo < 2 ^ 64)
      ∧ BitTrie6.Find lib t x = .ok (bestAlong t.root.lookup (bitPath6 xa 0 128)) := by
  have hguard := (not_congr (net.guard_iff_not_genuine (lib.ParseIP x))).mpr (not_not.mpr hg)
  have h16 : net.To16 (lib.ParseIP x) = lib.ParseIP x := net.To16_idem _ hg.1
  obtain ⟨xa, hxa⟩ := newIPv6Addr_ok (net.To16 (lib.ParseIP x)) (by rw [h16]; exact hg.1)
  refine ⟨xa, hxa, newIPv6Addr_bounds _ _ hxa, ?_⟩
  simp only [BitTrie6.Find, hguard, if_false, hxa]
  rw [BitTrie6.findLoop6_spec xa 128 0 t.root none hroot (by omega), pickBest6_none]

/-- C13. `Find` on a trie reached from a new one by `Insert` calls reports an
error exactly for a query that does not parse to a genuine IPv6 address (no
16-byte address, or an IPv4-mapped one), and returns a result without error,
a value or nil for no match, exactly for a genuine one; it never panics. -/
theorem BitTrie6.find_error_iff {V : Type} (lib : net.Lib) (calls : List (String × Option V))
    (s : String) :
    ((∃ msg, BitTrie6.Find lib (BitTrie6.insertSeq lib NewBitTrie6 calls) s
          = .error (.error msg)) ↔ ¬ net.isGenuineIPv6 (lib.ParseIP s))
      ∧ ((∃ r, BitTrie6.Find lib (BitTrie6.insertSeq lib NewBitTrie6 calls) s = .ok r)
          ↔ net.isGenuineIPv6 (lib.ParseIP s)) := by
  have hroot : (BitTrie6.insertSeq lib (NewBitTrie6 : BitTrie6 V) calls).root ≠ .null :=
    BitTrie6.insertSeq_root_ne_null lib calls _ (by simp [NewBitTrie6])
  by_cases hg : net.isGenuineIPv6 (lib.ParseIP s)
  · obtain ⟨xa, _, _, hf⟩ := BitTrie6.Find6_eq_bestAlong lib _ s hroot hg
    rw [hf]
    simp [hg]
  · have hguard := (net.guard_iff_not_genuine (lib.ParseIP s)).mpr hg
    have hf : BitTrie6.Find lib (BitTrie6.insertSeq lib NewBitTrie6 calls) s
        = .error (.error "invalid ip") := by
      simp only [BitTrie6.Find, hguard, if_true]
    rw [hf]
    simp [hg]

end matcher

namespace matcher

theorem bitPath6_prefix_self (a : ipv6Addr) (k : Nat) :
    ∀ m i, k ≤ m → bitPath6 a i k <+: bitPath6 a i m := by
  induction k with
  | zero => intro m i _; exact List.nil_prefix
  | succ k ih =>
    intro m i hm
    cases m with
    | zero => omega
    | succ m =>
      simp only [bitPath6, List.cons_prefix_cons, true_and]
      exact ih m (i + 1) (by omega)

/-- The initial segments of the path of an address are its shorter paths. -/
theorem prefix_bitPath6_iff (a : ipv6Addr) (m : Nat) (q : List Bool) :
    q <+: bitPath6 a 0 m ↔ ∃ k, k ≤ m ∧ q = bitPath6 a 0 k := by
  constructor
  · intro hq
    have hl := hq.length_le
    rw [bitPath6_length] at hl
    refine ⟨q.length, hl, ?_⟩
    have h1 := bitPath6_prefix_self a q.length m 0 hl
    have h2 := List.prefix_of_prefix_length_le hq h1 (by rw [bitPath6_length])
    exact h2.eq_of_length (by rw [bitPath6_length])
  · rintro ⟨k, hk, rfl⟩
    exact bitPath6_prefix_self a k m 0 hk

/-- Two addresses have the same path of `n` leading bits exactly when their
128-bit numbers agree above the low `128 - n` bits. -/
theorem bitPath6_eq_iff (a b : ipv6Addr) (n : Nat) (hn : n ≤ 128)
    (ha : a.hi < 2 ^ 64 ∧ a.lo < 2 ^ 64) (hb : b.hi < 2 ^ 64 ∧ b.lo < 2 ^ 64) :
    bitPath6 a 0 n = bitPath6 b 0 n
      ↔ a.toNat / 2 ^ (128 - n) = b.toNat / 2 ^ (128 - n) := by
  rw [div_two_pow_eq_iff_testBit 128 n _ _ hn (ipv6Addr.toNat_lt _ ha.1 ha.2)
    (ipv6Addr.toNat_lt _ hb.1 hb.2)]
  have hp := bitPath6_prefix_iff_bits a b ha.2 hb.2 n n 0 (le_refl _) (by omega)
  constructor
  · intro h j hj
    exact (hp.mp (h ▸ List.prefix_refl _)) j (Nat.zero_le _) (by omega)
  · intro h
    have hpre := hp.mpr (fun j _ hj => h j (by omega))
    exact hpre.eq_of_length (by rw [bitPath6_length, bitPath6_length])

/-- C19. Host bits below the prefix length are ignored by `BitTrie6.Insert`:
when two patterns parse to the same length `n` and to addresses that agree on
their first `n` bits, inserting either one with the same value into the same
trie leaves the same trie and returns the same. -/
theorem BitTrie6.insert_host_bits_ignored {V : Type} (lib : net.Lib) (t : BitTrie6 V)
    (p1 p2 : String) (v : Option V) (a1 a2 : ipv6Addr) (n : Nat)
    (h1 : parseIPorCIDRIPv6 lib p1 = .ok (a1, n))
    (h2 : parseIPorCIDRIPv6 lib p2 = .ok (a2, n))
    (hagree : a1.toNat / 2 ^ (128 - n) = a2.toNat / 2 ^ (128 - n)) :
    BitTrie6.Insert lib t p1 v = BitTrie6.Insert lib t p2 v := by
  obtain ⟨hb1, hn⟩ := parseIPorCIDRIPv6_bounds lib p1 a1 n h1
  obtain ⟨hb2, _⟩ := parseIPorCIDRIPv6_bounds lib p2 a2 n h2
  rw [BitTrie6.Insert_of_parse lib t p1 v a1 n h1, BitTrie6.Insert_of_parse lib t p2 v a2 n h2,
    (bitPath6_eq_iff a1 a2 n hn hb1 hb2).mpr hagree]

/-- Witness of C19: `2001:db8::1/32` carries a host bit that `2001:db8::/32`
does not. -/
theorem BitTrie6.insert_host_bits_ignored_witness :
    parseIPorCIDRIPv6 net.sampleLib2 "2001:db8::/32" = .ok (⟨2306139568115548160, 0⟩, 32)
      ∧ parseIPorCIDRIPv6 net.sampleLib2 "2001:db8::1/32" = .ok (⟨2306139568115548160, 1⟩, 32)
      ∧ (ipv6Addr.toNat ⟨2306139568115548160, 0⟩) / 2 ^ (128 - 32)
          = (ipv6Addr.toNat ⟨2306139568115548160, 1⟩) / 2 ^ (128 - 32)
      ∧ BitTrie6.Insert net.sampleLib2 sampleTrie6 "2001:db8::/32" (some "H")
          = BitTrie6.Insert net.sampleLib2 sampleTrie6 "2001:db8::1/32" (some "H") :=
  ⟨rfl, rfl, by decide,
    BitTrie6.insert_host_bits_ignored net.sampleLib2 sampleTrie6 "2001:db8::/32"
      "2001:db8::1/32" (some "H") ⟨2306139568115548160, 0⟩ ⟨2306139568115548160, 1⟩ 32 rfl rfl
      (by decide)⟩

/-- C20. A nil value acts as a removal in the 128-bit trie: on a trie with a
live root and a pattern that parses to `(a, n)`, `Insert(pattern, nil)`
returns nil, leaves the node of the path of `a`'s first `n` bits without a
value and every other node's value as it was; afterwards `Find` on a genuine
IPv6 address returns the value stored for the longest prefix of the address
other than the removed one, and no match if there is none. -/
theorem BitTrie6.insert_nil_removes {V : Type} (lib : net.Lib) (t : BitTrie6 V) (p : String)
    (a : ipv6Addr) (n : Nat) (hroot : t.root ≠ .null)
    (hp : parseIPorCIDRIPv6 lib p = .ok (a, n))
    (x : String) (hg : net.isGenuineIPv6 (lib.ParseIP x)) :
    (BitTrie6.Insert lib t p none).2 = none
      ∧ (BitTrie6.Insert lib t p none).1.root.lookup (bitPath6 a 0 n) = none
      ∧ (∀ q, q ≠ bitPath6 a 0 n →
          (BitTrie6.Insert lib t p none).1.root.lookup q = t.root.lookup q)
      ∧ ∃ xa r, newIPv6Addr (net.To16 (lib.ParseIP x)) = .ok xa
        ∧ BitTrie6.Find lib (BitTrie6.Insert lib t p none).1 x = .ok r
        ∧ (∀ v, r = some v ↔
            ∃ k, k ≤ 128 ∧ bitPath6 xa 0 k ≠ bitPath6 a 0 n
              ∧ t.root.lookup (bitPath6 xa 0 k) = some v
              ∧ ∀ k1, k < k1 → k1 ≤ 128 → bitPath6 xa 0 k1 ≠ bitPath6 a 0 n →
                  t.root.lookup (bitPath6 xa 0 k1) = none)
        ∧ (r = none ↔
            ∀ k, k ≤ 128 → bitPath6 xa 0 k ≠ bitPath6 a 0 n →
              t.root.lookup (bitPath6 xa 0 k) = none) := by
  have hn := (parseIPorCIDRIPv6_bounds lib p a n hp).2
  obtain ⟨s1, s2, s3⟩ := BitTrie6.insertLoop6_spec a (none : Option V) n 0 t.root hroot (by omega)
  have hn2 : ¬ n > 128 := by omega
  have hins : BitTrie6.Insert lib t p none
      = (⟨(BitTrie6.insertLoop a (none : Option V) 0 n t.root).1⟩, none) := by
    simp only [BitTrie6.Insert, hp, hn2, if_false, s1]
  have hlook : ∀ q, (BitTrie6.Insert lib t p none).1.root.lookup q
      = if q = bitPath6 a 0 n then none else t.root.lookup q := by
    intro q; rw [hins]; exact s3 q
  have hroot2 : (BitTrie6.Insert lib t p none).1.root ≠ .null := by
    rw [hins]; exact s2
  obtain ⟨xa, hxa, _, hf⟩ := BitTrie6.Find6_eq_bestAlong lib _ x hroot2 hg
  refine ⟨by rw [hins], by rw [hlook, if_pos rfl], fun q hq => by rw [hlook, if_neg hq],
    xa, _, hxa, hf, ?_, ?_⟩
  · intro v
    rw [bestAlong_eq_some_iff]
    constructor
    · rintro ⟨q, hq, hv, hmax⟩
      obtain ⟨k, hk, rfl⟩ := (prefix_bitPath6_iff xa 128 q).mp hq
      rw [hlook] at hv
      by_cases hkey : bitPath6 xa 0 k = bitPath6 a 0 n
      · rw [if_pos hkey] at hv; exact nomatch hv
      · rw [if_neg hkey] at hv
        refine ⟨k, hk, hkey, hv, ?_⟩
        intro k1 hk1 hk1le hne
        have := hmax (bitPath6 xa 0 k1) ((prefix_bitPath6_iff xa 128 _).mpr ⟨k1, hk1le, rfl⟩)
          (by rw [bitPath6_length, bitPath6_length]; exact hk1)
        rw [hlook, if_neg hne] at this
        exact this
    · rintro ⟨k, hk, hkey, hv, hmax⟩
      refine ⟨bitPath6 xa 0 k, (prefix_bitPath6_iff xa 128 _).mpr ⟨k, hk, rfl⟩, ?_, ?_⟩
      · rw [hlook, if_neg hkey]; exact hv
      · intro q1 hq1 hl
        obtain ⟨k1, hk1, rfl⟩ := (prefix_bitPath6_iff xa 128 q1).mp hq1
        rw [bitPath6_length, bitPath6_length] at hl
        rw [hlook]
        by_cases hkey1 : bitPath6 xa 0 k1 = bitPath6 a 0 n
        · rw [if_pos hkey1]
        · rw [if_neg hkey1]; exact hmax k1 hl hk1 hkey1
  · rw [bestAlong_eq_none_iff]
    constructor
    · intro h k hk hkey
      have := h (bitPath6 xa 0 k) ((prefix_bitPath6_iff xa 128 _).mpr ⟨k, hk, rfl⟩)
      rw [hlook, if_neg hkey] at this
      exact this
    · intro h q hq
      obtain ⟨k, hk, rfl⟩ := (prefix_bitPath6_iff xa 128 q).mp hq
      rw [hlook]
      by_cases hkey : bitPath6 xa 0 k = bitPath6 a 0 n
      · rw [if_pos hkey]
      · rw [if_neg hkey]; exact h k hk hkey

/-- Witness of C20: removing the only stored prefix `2001:db8::/32` leaves an
address inside it without a match. -/
theorem BitTrie6.insert_nil_removes_witness :
    sampleTrie6.root ≠ .null
      ∧ parseIPorCIDRIPv6 net.sampleLib2 "2001:db8::/32" = .ok (⟨2306139568115548160, 0⟩, 32)
      ∧ net.isGenuineIPv6 (net.sampleLib2.ParseIP "2001:db8:1::1")
      ∧ BitTrie6.Find net.sampleLib2 sampleTrie6 "2001:db8:1::1" = .ok (some "X")
      ∧ BitTrie6.Find net.sampleLib2
          (BitTrie6.Insert net.sampleLib2 sampleTrie6 "2001:db8::/32" none).1 "2001:db8:1::1"
          = .ok none
      ∧ ((BitTrie6.Insert net.sampleLib2 sampleTrie6 "2001:db8::/32" none).2 = none
        ∧ (BitTrie6.Insert net.sampleLib2 sampleTrie6 "2001:db8::/32" none).1.root.lookup
            (bitPath6 ⟨2306139568115548160, 0⟩ 0 32) = none
        ∧ (∀ q, q ≠ bitPath6 ⟨2306139568115548160, 0⟩ 0 32 →
            (BitTrie6.Insert net.sampleLib2 sampleTrie6 "2001:db8::/32" none).1.root.lookup q
              = sampleTrie6.root.lookup q)
        ∧ ∃ xa r, newIPv6Addr (net.To16 (net.sampleLib2.ParseIP "2001:db8:1::1")) = .ok xa
          ∧ BitTrie6.Find net.sampleLib2
              (BitTrie6.Insert net.sampleLib2 sampleTrie6 "2001:db8::/32" none).1
              "2001:db8:1::1" = .ok r
          ∧ (∀ v, r = some v ↔
              ∃ k, k ≤ 128 ∧ bitPath6 xa 0 k ≠ bitPath6 ⟨2306139568115548160, 0⟩ 0 32
                ∧ sampleTrie6.root.lookup (bitPath6 xa 0 k) = some v
                ∧ ∀ k1, k < k1 → k1 ≤ 128 →
                    bitPath6 xa 0 k1 ≠ bitPath6 ⟨2306139568115548160, 0⟩ 0 32 →
                    sampleTrie6.root.lookup (bitPath6 xa 0 k1) = none)
          ∧ (r = none ↔
              ∀ k, k ≤ 128 → bitPath6 xa 0 k ≠ bitPath6 ⟨2306139568115548160, 0⟩ 0 32 →
                sampleTrie6.root.lookup (bitPath6 xa 0 k) = none)) :=
  ⟨by decide, rfl, ⟨rfl, fun h => absurd h.2 (by decide)⟩, rfl, rfl,
    BitTrie6.insert_nil_removes net.sampleLib2 sampleTrie6 "2001:db8::/32"
      ⟨2306139568115548160, 0⟩ 32 (by decide) rfl "2001:db8:1::1"
      ⟨rfl, fun h => absurd h.2 (by decide)⟩⟩

end matcher

/-! ## IPv4 forms on the IPv6 path -/

namespace matcher

/-- C11, amended. The IPv6 path rejects every IPv4-mapped address: when the
library parses the string, in CIDR form or bare, to an IPv4-mapped 16-byte
address, `parseIPorCIDRIPv6` returns an error, so `Insert` returns an error
and leaves the trie as it was, and `Find` on a string that parses to such an
address returns an error.  IPv4-compatible addresses (first twelve bytes
zero) are not rejected: given bare, or in CIDR form with a 128-bit mask,
`parseIPorCIDRIPv6` returns the 128-bit number of the bytes and the length,
and on a trie with a root `Insert` returns nil and `Find` returns without
error. -/
theorem parseIPorCIDRIPv6_rejects_mapped {V : Type} (lib : net.Lib) (s : String)
    (ip : List Nat) (hm : net.isIPv4Mapped ip)
    (hs : (∃ ipNet, lib.ParseCIDR s = some (ip, ipNet))
      ∨ (lib.ParseCIDR s = none ∧ lib.ParseIP s = ip)) :
    (∃ msg, parseIPorCIDRIPv6 lib s = .error (.error msg))
      ∧ (∀ (t : BitTrie6 V) (v : Option V),
          ∃ msg, BitTrie6.Insert lib t s v = (t, some (.error msg)))
      ∧ (∀ (t : BitTrie6 V) (q : String), lib.ParseIP q = ip →
          ∃ msg, BitTrie6.Find lib t q = .error (.error msg))
      ∧ (∀ (q : String) (ip2 : List Nat), net.isIPv4Compatible ip2 →
          (lib.ParseCIDR q = none → lib.ParseIP q = ip2 →
            ∃ a, parseIPorCIDRIPv6 lib q = .ok (a, 128)
              ∧ a.toNat = net.bigEndianValue ip2
              ∧ ∀ (t : BitTrie6 V), t.root ≠ .null →
                  (∀ v, (BitTrie6.Insert lib t q v).2 = none)
                  ∧ ∃ r, BitTrie6.Find lib t q = .ok r)
          ∧ (∀ ipNet, lib.ParseCIDR q = some (ip2, ipNet) →
              (net.MaskSize ipNet.Mask).2 = 128 →
              ∃ a, parseIPorCIDRIPv6 lib q = .ok (a, (net.MaskSize ipNet.Mask).1)
                ∧ a.toNat = net.bigEndianValue ip2
                ∧ ∀ (t : BitTrie6 V), t.root ≠ .null →
                    ∀ v, (BitTrie6.Insert lib t q v).2 = none)) := by
  have h16 : net.To16 ip = ip := net.To16_idem ip hm.1
  have h4 : net.To4 ip ≠ [] := net.To4_of_mapped ip hm
  have hparse : ∃ msg, parseIPorCIDRIPv6 lib s = .error (.error msg) := by
    rcases hs with ⟨ipNet, hc⟩ | ⟨hc, hi⟩
    · exact ⟨"non-IPv6 CIDR", by simp [parseIPorCIDRIPv6, hc, h16, h4]⟩
    · exact ⟨"invalid IPv6 address", by simp [parseIPorCIDRIPv6, hc, hi, h16, h4]⟩
  obtain ⟨msg, hmsg⟩ := hparse
  refine ⟨⟨msg, hmsg⟩, fun t v => ⟨msg, by simp [BitTrie6.Insert, hmsg]⟩, ?_, ?_⟩
  · intro t q hq
    exact ⟨"invalid ip", by simp [BitTrie6.Find, hq, h16, h4]⟩
  · intro q ip2 hcomp
    have g16 : net.To16 ip2 = ip2 := net.To16_idem ip2 hcomp.1
    have g4 : net.To4 ip2 = [] := net.To4_of_compatible ip2 hcomp
    have gne : ip2 ≠ [] := by
      intro h0
      have := hcomp.1
      rw [h0] at this
      exact absurd this (by decide)
    obtain ⟨a, ha⟩ := newIPv6Addr_ok ip2 hcomp.1
    have hval := newIPv6Addr_toNat ip2 hcomp.1 a ha
    have hlive : ∀ (n : Nat), parseIPorCIDRIPv6 lib q = .ok (a, n) →
        ∀ (t : BitTrie6 V), t.root ≠ .null → ∀ v, (BitTrie6.Insert lib t q v).2 = none := by
      intro n hp t hroot v
      rw [BitTrie6.Insert_of_parse lib t q v a n hp]
      cases hr : t.root with
      | null => exact absurd hr hroot
      | node c0 c1 val => rfl
    constructor
    · intro hc hi
      have hp : parseIPorCIDRIPv6 lib q = .ok (a, 128) := by
        simp [parseIPorCIDRIPv6, hc, hi, g16, g4, gne, ha]
      refine ⟨a, hp, hval, ?_⟩
      intro t hroot
      refine ⟨hlive 128 hp t hroot, ?_⟩
      obtain ⟨xa, _, _, hf⟩ := BitTrie6.Find6_eq_bestAlong lib t q hroot
        (hi ▸ net.genuine_of_compatible ip2 hcomp)
      exact ⟨_, hf⟩
    · intro ipNet hc hbits
      have hp : parseIPorCIDRIPv6 lib q = .ok (a, (net.MaskSize ipNet.Mask).1) := by
        simp [parseIPorCIDRIPv6, hc, g16, g4, gne, ha, hbits]
      exact ⟨a, hp, hval, hlive _ hp⟩

/-- Witness of the amended C11 on the IPv4-mapped address `::ffff:10.1.2.3`,
given bare. -/
theorem parseIPorCIDRIPv6_rejects_mapped_witness :
    net.isIPv4Mapped [0, 0, 0, 0, 0, 0, 0, 0, 0, 0, 255, 255, 10, 1, 2, 3]
      ∧ (net.sampleLib2.ParseCIDR "::ffff:10.1.2.3" = none
          ∧ net.sampleLib2.ParseIP "::ffff:10.1.2.3"
              = [0, 0, 0, 0, 0, 0, 0, 0, 0, 0, 255, 255, 10, 1, 2, 3])
      ∧ (∃ msg, parseIPorCIDRIPv6 net.sampleLib2 "::ffff:10.1.2.3" = .error (.error msg))
      ∧ (∀ (t : BitTrie6 String) (v : Option String),
          ∃ msg, BitTrie6.Insert net.sampleLib2 t "::ffff:10.1.2.3" v = (t, some (.error msg)))
      ∧ (∀ (t : BitTrie6 String) (q : String),
          net.sampleLib2.ParseIP q = [0, 0, 0, 0, 0, 0, 0, 0, 0, 0, 255, 255, 10, 1, 2, 3] →
          ∃ msg, BitTrie6.Find net.sampleLib2 t q = .error (.error msg))
      ∧ (∀ (q : String) (ip2 : List Nat), net.isIPv4Compatible ip2 →
          (net.sampleLib2.ParseCIDR q = none → net.sampleLib2.ParseIP q = ip2 →
            ∃ a, parseIPorCIDRIPv6 net.sampleLib2 q = .ok (a, 128)
              ∧ a.toNat = net.bigEndianValue ip2
              ∧ ∀ (t : BitTrie6 String), t.root ≠ .null →
                  (∀ v, (BitTrie6.Insert net.sampleLib2 t q v).2 = none)
                  ∧ ∃ r, BitTrie6.Find net.sampleLib2 t q = .ok r)
          ∧ (∀ ipNet, net.sampleLib2.ParseCIDR q = some (ip2, ipNet) →
              (net.MaskSize ipNet.Mask).2 = 128 →
              ∃ a, parseIPorCIDRIPv6 net.sampleLib2 q = .ok (a, (net.MaskSize ipNet.Mask).1)
                ∧ a.toNat = net.bigEndianValue ip2
                ∧ ∀ (t : BitTrie6 String), t.root ≠ .null →
                    ∀ v, (BitTrie6.Insert net.sampleLib2 t q v).2 = none)) :=
  ⟨⟨rfl, rfl⟩, ⟨rfl, rfl⟩,
    parseIPorCIDRIPv6_rejects_mapped net.sampleLib2 "::ffff:10.1.2.3" _ ⟨rfl, rfl⟩
      (Or.inr ⟨rfl, rfl⟩)⟩

/-- Counterexample to C11 as stated: `::1.2.3.4` is an IPv4-compatible address
(first twelve bytes zero), and `parseIPorCIDRIPv6` accepts it as a 128-bit
prefix, `Insert` stores it and `Find` looks it up without error. -/
theorem parseIPorCIDRIPv6_accepts_compatible :
    net.isIPv4Compatible (net.sampleLib2.ParseIP "::1.2.3.4")
      ∧ parseIPorCIDRIPv6 net.sampleLib2 "::1.2.3.4" = .ok (⟨0, 16909060⟩, 128)
      ∧ (¬ ∃ e, parseIPorCIDRIPv6 net.sampleLib2 "::1.2.3.4" = .error e)
      ∧ (BitTrie6.Insert net.sampleLib2 NewBitTrie6 "::1.2.3.4" (some "C")).2 = none
      ∧ BitTrie6.Find net.sampleLib2
          (BitTrie6.Insert net.sampleLib2 NewBitTrie6 "::1.2.3.4" (some "C")).1 "::1.2.3.4"
          = .ok (some "C") :=
  ⟨⟨rfl, rfl⟩, rfl, (fun h => h.elim (fun _ he => nomatch he)), rfl, rfl⟩

end matcher

/-! ## The 32-bit trie: node structure -/

namespace addrtrie

theorem bitNode.orNew_of_ne_null {V : Type} (c : bitNode V) (h : c ≠ .null) : c.orNew = c := by
  cases c with
  | null => exact absurd rfl h
  | node c0 c1 val => rfl

theorem bitNode.insertPath4_ne_null {V : Type} (value : Option V) (p : List Bool)
    (cur : bitNode V) (h : cur ≠ .null) : bitNode.insertPath value p cur ≠ .null := by
  cases cur with
  | null => exact absurd rfl h
  | node c0 c1 val =>
    cases p with
    | nil => simp [bitNode.insertPath]
    | cons b rest => cases b <;> simp [bitNode.insertPath]

theorem bitNode.insertPath_null {V : Type} (value : Option V) (p : List Bool) :
    bitNode.insertPath value p (.null : bitNode V) = .null := by
  cases p <;> rfl

/-- The insert loop stores the value at the path of the consumed bits and
creates the missing nodes of that path; on a nil node it panics. -/
theorem BitTrie.insertLoop_eq_insertPath {V : Type} (ip : Nat) (value : V) (k : Nat) :
    ∀ (i : Nat) (cur : bitNode V), i + k ≤ 32 →
      BitTrie.insertLoop ip value i k cur
        = (bitNode.insertPath (some value) (bitPath ip i k) cur,
            match cur with
            | .null => some (.crash "nil pointer dereference")
            | .node _ _ _ => none) := by
  induction k with
  | zero =>
    intro i cur _
    cases cur <;> simp [BitTrie.insertLoop, bitPath, bitNode.insertPath]
  | succ k ih =>
    intro i cur hik
    have hg := getBit_ok ip i (by omega)
    cases cur with
    | null => simp [BitTrie.insertLoop, hg, bitNode.insertPath]
    | node c0 c1 val =>
      rcases land_one_cases (ip >>> (31 - i)) with hb | hb
      · have h0 := ih (i + 1) c0.orNew (by omega)
        have hn := bitNode.orNew_ne_null c0
        cases hc : c0.orNew with
        | null => exact absurd hc hn
        | node d0 d1 dv =>
          rw [hc] at h0
          simp [BitTrie.insertLoop, hg, hb, bitPath, bitNode.insertPath, hc, h0]
      · have h1 := ih (i + 1) c1.orNew (by omega)
        have hn := bitNode.orNew_ne_null c1
        cases hc : c1.orNew with
        | null => exact absurd hc hn
        | node d0 d1 dv =>
          rw [hc] at h1
          simp [BitTrie.insertLoop, hg, hb, bitPath, bitNode.insertPath, hc, h1]

/-- What `Insert` does after a successful parse: it stores the value at the
path of the leading bits, and returns nil unless the root is nil. -/
theorem BitTrie.Insert4_of_parse {V : Type} (lib : net.Lib) (t : BitTrie V) (p : String)
    (v : V) (ip n : Nat) (hp : parseIPorCIDR lib p = .ok (ip, n)) :
    BitTrie.Insert lib t p v
      = (⟨bitNode.insertPath (some v) (bitPath ip 0 n) t.root⟩,
          match t.root with
          | .null => some (.crash "nil pointer dereference")
          | .node _ _ _ => none) := by
  have hn := (parseIPorCIDR_bounds lib p ip n hp).2
  simp only [BitTrie.Insert, hp, BitTrie.insertLoop_eq_insertPath ip v n 0 t.root (by omega)]

theorem bitNode.lookup_insertPath {V : Type} (value : Option V) (p : List Bool) :
    ∀ (cur : bitNode V), cur ≠ .null → ∀ q,
      (bitNode.insertPath value p cur).lookup q = if q = p then value else cur.lookup q := by
  induction p with
  | nil =>
    intro cur hcur q
    cases cur with
    | null => exact absurd rfl hcur
    | node c0 c1 val => cases q <;> simp [bitNode.insertPath, bitNode.lookup]
  | cons b rest ih =>
    intro cur hcur q
    cases cur with
    | null => exact absurd rfl hcur
    | node c0 c1 val =>
      cases q with
      | nil => cases b <;> simp [bitNode.insertPath, bitNode.lookup]
      | cons b1 q1 =>
        cases b <;> cases b1 <;>
          simp [bitNode.insertPath, bitNode.lookup, ih _ (bitNode.orNew_ne_null _),
            bitNode.lookup_orNew]

/-- Storing twice at the same path keeps the second value only. -/
theorem bitNode.insertPath_insertPath {V : Type} (v1 v2 : Option V) (p : List Bool) :
    ∀ (cur : bitNode V),
      bitNode.insertPath v2 p (bitNode.insertPath v1 p cur) = bitNode.insertPath v2 p cur := by
  induction p with
  | nil => intro cur; cases cur <;> simp [bitNode.insertPath]
  | cons b rest ih =>
    intro cur
    cases cur with
    | null => simp [bitNode.insertPath]
    | node c0 c1 val =>
      cases b
      · simp only [bitNode.insertPath, Bool.false_eq_true, if_false]
        rw [bitNode.orNew_of_ne_null _ (bitNode.insertPath4_ne_null v1 rest _
          (bitNode.orNew_ne_null c0)), ih]
      · simp only [bitNode.insertPath, if_true]
        rw [bitNode.orNew_of_ne_null _ (bitNode.insertPath4_ne_null v1 rest _
          (bitNode.orNew_ne_null c1)), ih]

/-- Storing at two different paths gives the same tree in either order. -/
theorem bitNode.insertPath_comm {V : Type} (v1 v2 : Option V) (p1 : List Bool) :
    ∀ (p2 : List Bool) (cur : bitNode V), p1 ≠ p2 →
      bitNode.insertPath v1 p1 (bitNode.insertPath v2 p2 cur)
        = bitNode.insertPath v2 p2 (bitNode.insertPath v1 p1 cur) := by
  induction p1 with
  | nil =>
    intro p2 cur hne
    cases cur with
    | null => simp [bitNode.insertPath_null]
    | node c0 c1 val =>
      cases p2 with
      | nil => exact absurd rfl hne
      | cons b r2 => cases b <;> simp [bitNode.insertPath]
  | cons a r1 ih =>
    intro p2 cur hne
    cases cur with
    | null => simp [bitNode.insertPath_null]
    | node c0 c1 val =>
      cases p2 with
      | nil => cases a <;> simp [bitNode.insertPath]
      | cons b r2 =>
        cases a <;> cases b
        · have hr : r1 ≠ r2 := fun h => hne (by rw [h])
          simp only [bitNode.insertPath, Bool.false_eq_true, if_false]
          rw [bitNode.orNew_of_ne_null _ (bitNode.insertPath4_ne_null v2 r2 _
              (bitNode.orNew_ne_null c0)),
            bitNode.orNew_of_ne_null _ (bitNode.insertPath4_ne_null v1 r1 _
              (bitNode.orNew_ne_null c0)), ih r2 _ hr]
        · simp [bitNode.insertPath]
        · simp [bitNode.insertPath]
        · have hr : r1 ≠ r2 := fun h => hne (by rw [h])
          simp only [bitNode.insertPath, if_true]
          rw [bitNode.orNew_of_ne_null _ (bitNode.insertPath4_ne_null v2 r2 _
              (bitNode.orNew_ne_null c1)),
            bitNode.orNew_of_ne_null _ (bitNode.insertPath4_ne_null v1 r1 _
              (bitNode.orNew_ne_null c1)), ih r2 _ hr]

theorem bitNode.present_orNew {V : Type} (c : bitNode V) (q : List Bool) :
    c.orNew.present q = true ↔ c.present q = true ∨ q = [] := by
  cases c with
  | null =>
    cases q with
    | nil => simp [bitNode.orNew, bitNode.present]
    | cons b rest => cases b <;> simp [bitNode.orNew, bitNode.present]
  | node c0 c1 val =>
    cases q with
    | nil => simp [bitNode.orNew, bitNode.present]
    | cons b rest => simp [bitNode.orNew]

/-- The nodes of the tree after storing at a path are the nodes it had and
the nodes along the path. -/
theorem bitNode.present_insertPath {V : Type} (value : Option V) (p : List Bool) :
    ∀ (cur : bitNode V), cur ≠ .null → ∀ q,
      (bitNode.insertPath value p cur).present q = true
        ↔ cur.present q = true ∨ q <+: p := by
  induction p with
  | nil =>
    intro cur hcur q
    cases cur with
    | null => exact absurd rfl hcur
    | node c0 c1 val =>
      cases q with
      | nil => simp [bitNode.insertPath, bitNode.present]
      | cons b rest => simp [bitNode.insertPath, bitNode.present]
  | cons b rest ih =>
    intro cur hcur q
    cases cur with
    | null => exact absurd rfl hcur
    | node c0 c1 val =>
      cases q with
      | nil => cases b <;> simp [bitNode.insertPath, bitNode.present]
      | cons b1 q1 =>
        cases b <;> cases b1
        · simp only [bitNode.insertPath, bitNode.present, Bool.false_eq_true, if_false,
            List.cons_prefix_cons, true_and, ih _ (bitNode.orNew_ne_null c0),
            bitNode.present_orNew]
          constructor
          · rintro ((h | h) | h)
            · exact Or.inl h
            · exact Or.inr (h ▸ List.nil_prefix)
            · exact Or.inr h
          · rintro (h | h)
            · exact Or.inl (Or.inl h)
            · exact Or.inr h
        · simp [bitNode.insertPath, bitNode.present]
        · simp [bitNode.insertPath, bitNode.present]
        · simp only [bitNode.insertPath, bitNode.present, if_true,
            List.cons_prefix_cons, true_and, ih _ (bitNode.orNew_ne_null c1),
            bitNode.present_orNew]
          constructor
          · rintro ((h | h) | h)
            · exact Or.inl h
            · exact Or.inr (h ▸ List.nil_prefix)
            · exact Or.inr h
          · rintro (h | h)
            · exact Or.inl (Or.inl h)
            · exact Or.inr h

end addrtrie

/-! ## The 32-bit trie: overwriting, match-all, depth, frame, commutation -/

theorem bestAlong_congr {K V : Type} (f g : List K → Option V) (path : List K)
    (h : ∀ q, q <+: path → f q = g q) : bestAlong f path = bestAlong g path := by
  induction path generalizing f g with
  | nil => simp only [bestAlong]; exact h [] (List.prefix_refl _)
  | cons b rest ih =>
    simp only [bestAlong]
    rw [ih (fun q => f (b :: q)) (fun q => g (b :: q))
      (fun q hq => h (b :: q) (List.cons_prefix_cons.mpr ⟨rfl, hq⟩)), h [] List.nil_prefix]

namespace addrtrie

/-- Two 32-bit values have the same path of `n` leading bits exactly when
they agree above the low `32 - n` bits. -/
theorem bitPath_eq_iff (a b : Nat) (n : Nat) (hn : n ≤ 32) (ha : a < 2 ^ 32) (hb : b < 2 ^ 32) :
    bitPath a 0 n = bitPath b 0 n ↔ a / 2 ^ (32 - n) = b / 2 ^ (32 - n) := by
  rw [div_two_pow_eq_iff_testBit 32 n a b hn ha hb]
  have hp := bitPath_prefix_iff_bits a b n n 0 (le_refl _)
  constructor
  · intro h j hj
    exact (hp.mp (h ▸ List.prefix_refl _)) j (Nat.zero_le _) (by omega)
  · intro h
    have hpre := hp.mpr (fun j _ hj => h j (by omega))
    exact hpre.eq_of_length (by rw [bitPath_length, bitPath_length])

/-- On a live root and a parseable IPv4 address, `Find` returns the value of
the deepest node with a value along the 32 bits of the address. -/
theorem BitTrie.Find4_eq_bestAlong {V : Type} (lib : net.Lib) (t : BitTrie V) (x : String)
    (xv : Nat) (hroot : t.root ≠ .null)
    (hx : binary.BigEndian.Uint32 (net.To4 (lib.ParseIP x)) = .ok xv) :
    BitTrie.Find lib t x = .ok (bestAlong t.root.lookup (bitPath xv 0 32)) := by
  have hne : net.To4 (lib.ParseIP x) ≠ [] := by
    intro h0; rw [h0] at hx; simp [binary.BigEndian.Uint32] at hx
  simp only [BitTrie.Find, hne, if_false, hx]
  rw [BitTrie.findLoop_spec xv 32 0 t.root none hroot (by omega), pickBest_none]

theorem NewBitTrie_lookup {V : Type} (q : List Bool) :
    (NewBitTrie : BitTrie V).root.lookup q = none := by
  cases q with
  | nil => rfl
  | cons b rest => cases b <;> rfl

theorem NewBitTrie_present {V : Type} (q : List Bool) :
    (NewBitTrie : BitTrie V).root.present q = true ↔ q = [] := by
  cases q with
  | nil => simp [NewBitTrie, bitNode.present]
  | cons b rest => cases b <;> simp [NewBitTrie, bitNode.present]

/-- A trie built from a new one by successful inserts maps each path to the
value of the most recent insert with that path of leading bits. -/
theorem BitTrie.insertAll_new {V : Type} (lib : net.Lib) (calls : List (String × V))
    (t : BitTrie V) (hrun : BitTrie.insertAll lib NewBitTrie calls = some t) :
    t.root ≠ .null
      ∧ (∀ e ∈ BitTrie.parsedCalls lib calls, e.ip < 2 ^ 32 ∧ e.bitLen ≤ 32)
      ∧ t.root.lookup = lastAt (fun e : Route V => bitPath e.ip 0 e.bitLen) Route.value
          (BitTrie.parsedCalls lib calls) := by
  obtain ⟨hroot, hes, hlook⟩ :=
    BitTrie.insertAll_lookup lib calls NewBitTrie t (by simp [NewBitTrie]) hrun
  refine ⟨hroot, hes, ?_⟩
  funext q
  rw [hlook q, NewBitTrie_lookup]
  cases lastAt (fun e : Route V => bitPath e.ip 0 e.bitLen) Route.value
    (BitTrie.parsedCalls lib calls) q <;> rfl

/-- The nodes of a trie built by successful inserts are the nodes it had and
the nodes along the paths of the inserted prefixes. -/
theorem BitTrie.insertAll_present {V : Type} (lib : net.Lib) (calls : List (String × V)) :
    ∀ (t t1 : BitTrie V), t.root ≠ .null → BitTrie.insertAll lib t calls = some t1 →
      ∀ q, t1.root.present q = true
        ↔ t.root.present q = true
          ∨ ∃ e ∈ BitTrie.parsedCalls lib calls, q <+: bitPath e.ip 0 e.bitLen := by
  induction calls with
  | nil =>
    intro t t1 _ h q
    simp only [BitTrie.insertAll, Option.some.injEq] at h
    subst h
    simp [BitTrie.parsedCalls]
  | cons c rest ih =>
    intro t t1 ht h q
    simp only [BitTrie.insertAll] at h
    cases hp : parseIPorCIDR lib c.1 with
    | error e => simp [BitTrie.Insert, hp] at h
    | ok r =>
      obtain ⟨ip, n⟩ := r
      rw [BitTrie.Insert4_of_parse lib t c.1 c.2 ip n hp] at h
      cases hr : t.root with
      | null => exact absurd hr ht
      | node c0 c1 val =>
        rw [hr] at h
        simp only at h
        have hne : bitNode.insertPath (some c.2) (bitPath ip 0 n) (bitNode.node c0 c1 val)
            ≠ .null := bitNode.insertPath4_ne_null _ _ _ (by simp)
        have hpc : BitTrie.parsedCalls lib (c :: rest)
            = ⟨ip, n, c.2⟩ :: BitTrie.parsedCalls lib rest := by
          simp [BitTrie.parsedCalls, List.filterMap_cons, hp]
        rw [ih _ t1 hne h q, hpc,
          bitNode.present_insertPath (some c.2) (bitPath ip 0 n) _ (by simp) q]
        simp only [List.mem_cons, exists_eq_or_imp]
        constructor
        · rintro ((h1 | h1) | h1)
          · exact Or.inl h1
          · exact Or.inr (Or.inl h1)
          · exact Or.inr (Or.inr h1)
        · rintro (h1 | h1 | h1)
          · exact Or.inl (Or.inl h1)
          · exact Or.inl (Or.inr h1)
          · exact Or.inr h1

/-- C14. Re-insertion overwrites: for a pattern that parses, `Insert(p, v1)`
followed by `Insert(p, v2)` leaves the same trie and returns the same as
`Insert(p, v2)` alone, so `Find` agrees on every address; on a live root the
call returns nil and the terminal node carries `v2`. -/
theorem BitTrie.insert_twice_overwrites {V : Type} (lib : net.Lib) (t : BitTrie V) (p : String)
    (v1 v2 : V) (ip n : Nat) (hp : parseIPorCIDR lib p = .ok (ip, n)) :
    BitTrie.Insert lib (BitTrie.Insert lib t p v1).1 p v2 = BitTrie.Insert lib t p v2
      ∧ (∀ x, BitTrie.Find lib (BitTrie.Insert lib (BitTrie.Insert lib t p v1).1 p v2).1 x
          = BitTrie.Find lib (BitTrie.Insert lib t p v2).1 x)
      ∧ (t.root ≠ .null →
          (BitTrie.Insert lib (BitTrie.Insert lib t p v1).1 p v2).2 = none
          ∧ (BitTrie.Insert lib (BitTrie.Insert lib t p v1).1 p v2).1.root.lookup
              (bitPath ip 0 n) = some v2) := by
  have heq : BitTrie.Insert lib (BitTrie.Insert lib t p v1).1 p v2 = BitTrie.Insert lib t p v2 := by
    rw [BitTrie.Insert4_of_parse lib _ p v2 ip n hp, BitTrie.Insert4_of_parse lib t p v1 ip n hp,
      BitTrie.Insert4_of_parse lib t p v2 ip n hp]
    simp only [bitNode.insertPath_insertPath]
    cases hr : t.root with
    | null => simp [bitNode.insertPath_null]
    | node c0 c1 val =>
      have hne := bitNode.insertPath4_ne_null (some v1) (bitPath ip 0 n)
        (bitNode.node c0 c1 val) (by simp)
      cases hc : bitNode.insertPath (some v1) (bitPath ip 0 n) (bitNode.node c0 c1 val) with
      | null => exact absurd hc hne
      | node d0 d1 dv => rfl
  refine ⟨heq, fun x => by rw [heq], ?_⟩
  intro hroot
  rw [heq, BitTrie.Insert4_of_parse lib t p v2 ip n hp]
  cases hr : t.root with
  | null => exact absurd hr hroot
  | node c0 c1 val =>
    refine ⟨rfl, ?_⟩
    simp only
    rw [bitNode.lookup_insertPath _ _ _ (by simp), if_pos rfl]

/-- Witness of C14 on the trie of the two sample prefixes. -/
theorem BitTrie.insert_twice_overwrites_witness :
    parseIPorCIDR net.sampleLib "10.1.0.0/16" = .ok (167837696, 16)
      ∧ BitTrie.Insert net.sampleLib (BitTrie.Insert net.sampleLib sampleTrie "10.1.0.0/16" "B1").1
          "10.1.0.0/16" "B2" = BitTrie.Insert net.sampleLib sampleTrie "10.1.0.0/16" "B2"
      ∧ (∀ x, BitTrie.Find net.sampleLib
            (BitTrie.Insert net.sampleLib
              (BitTrie.Insert net.sampleLib sampleTrie "10.1.0.0/16" "B1").1
              "10.1.0.0/16" "B2").1 x
          = BitTrie.Find net.sampleLib
              (BitTrie.Insert net.sampleLib sampleTrie "10.1.0.0/16" "B2").1 x)
      ∧ (sampleTrie.root ≠ .null →
          (BitTrie.Insert net.sampleLib
            (BitTrie.Insert net.sampleLib sampleTrie "10.1.0.0/16" "B1").1
            "10.1.0.0/16" "B2").2 = none
          ∧ (BitTrie.Insert net.sampleLib
              (BitTrie.Insert net.sampleLib sampleTrie "10.1.0.0/16" "B1").1
              "10.1.0.0/16" "B2").1.root.lookup (bitPath 167837696 0 16) = some "B2") :=
  ⟨rfl, BitTrie.insert_twice_overwrites net.sampleLib sampleTrie "10.1.0.0/16" "B1" "B2"
    167837696 16 rfl⟩

end addrtrie

namespace addrtrie

/-- C15. A zero-length prefix is accepted and acts as match-all: a pattern
that the library parses as an IPv4 network with mask size (0, 32) parses to
length 0; on a trie built by successful inserts `Insert` returns nil, keeps the
children of the root and stores the value at the root; afterwards `Find`
returns a match for every parseable IPv4 address, and that value whenever no
prefix of positive length inserted before covers the address. -/
theorem BitTrie.insert_zero_length_matches_all {V : Type} (lib : net.Lib)
    (calls : List (String × V)) (t : BitTrie V)
    (hrun : BitTrie.insertAll lib NewBitTrie calls = some t)
    (p : String) (v : V) (ip0 : List Nat) (ipNet : net.IPNet) (ip : Nat)
    (hp : lib.ParseCIDR p = some (ip0, ipNet))
    (h4 : binary.BigEndian.Uint32 (net.To4 ipNet.IP) = .ok ip)
    (hmask : net.MaskSize ipNet.Mask = (0, 32)) :
    parseIPorCIDR lib p = .ok (ip, 0)
      ∧ (BitTrie.Insert lib t p v).2 = none
      ∧ (∃ c0 c1 val, t.root = .node c0 c1 val
          ∧ (BitTrie.Insert lib t p v).1.root = .node c0 c1 (some v))
      ∧ ∀ x xv, binary.BigEndian.Uint32 (net.To4 (lib.ParseIP x)) = .ok xv →
          ∃ w, BitTrie.Find lib (BitTrie.Insert lib t p v).1 x = .ok (some w)
            ∧ ((∀ e ∈ BitTrie.parsedCalls lib calls, 0 < e.bitLen → ¬ e.covers xv) → w = v) := by
  have hparse : parseIPorCIDR lib p = .ok (ip, 0) := by
    simp [parseIPorCIDR, hp, h4, hmask]
  obtain ⟨hroot, hes, hlook⟩ := BitTrie.insertAll_new lib calls t hrun
  have hins := BitTrie.Insert4_of_parse lib t p v ip 0 hparse
  cases hr : t.root with
  | null => exact absurd hr hroot
  | node c0 c1 val =>
    rw [hr] at hins
    simp only [bitPath, bitNode.insertPath] at hins
    refine ⟨hparse, by rw [hins], ⟨c0, c1, val, rfl, by rw [hins]⟩, ?_⟩
    intro x xv hx
    have hxv : xv < 2 ^ 32 := binary.BigEndian.Uint32_lt _ _ hx
    have hroot2 : (BitTrie.Insert lib t p v).1.root ≠ .null := by rw [hins]; simp
    have hl2 : ∀ q, (BitTrie.Insert lib t p v).1.root.lookup q
        = if q = [] then some v else t.root.lookup q := by
      intro q
      rw [hins, hr]
      cases q with
      | nil => simp [bitNode.lookup]
      | cons b rest => simp [bitNode.lookup]
    rw [BitTrie.Find4_eq_bestAlong lib _ x xv hroot2 hx]
    cases hb : bestAlong (BitTrie.Insert lib t p v).1.root.lookup (bitPath xv 0 32) with
    | none =>
      have := (bestAlong_eq_none_iff _ _).mp hb [] List.nil_prefix
      rw [hl2, if_pos rfl] at this
      exact nomatch this
    | some w =>
      refine ⟨w, rfl, ?_⟩
      intro hnone
      obtain ⟨q, hq, hv, _⟩ := (bestAlong_eq_some_iff _ _ w).mp hb
      rw [hl2] at hv
      by_cases hq0 : q = []
      · rw [if_pos hq0] at hv
        exact (Option.some.inj hv).symm
      · rw [if_neg hq0, hlook] at hv
        obtain ⟨before, e, after, hsplit, hk, _, _⟩ := (lastAt_eq_some_iff _ _ _ _ _).mp hv
        have hmem : e ∈ BitTrie.parsedCalls lib calls := by rw [hsplit]; simp
        have hlen : 0 < e.bitLen := by
          have : q.length = e.bitLen := by rw [← hk, bitPath_length]
          have : q.length ≠ 0 := fun h0 => hq0 (List.eq_nil_of_length_eq_zero h0)
          omega
        have hcov : e.covers xv :=
          (bitPath_prefix_iff_covers e xv (hes e hmem).2 (hes e hmem).1 hxv).mp (hk ▸ hq)
        exact absurd hcov (hnone e hmem hlen)

/-- Witness of C15: `0.0.0.0/0` after the two sample prefixes. -/
theorem BitTrie.insert_zero_length_matches_all_witness :
    BitTrie.insertAll net.sampleLib2 NewBitTrie sampleCalls = some sampleTrie
      ∧ net.sampleLib2.ParseCIDR "0.0.0.0/0"
          = some ([0, 0, 0, 0, 0, 0, 0, 0, 0, 0, 255, 255, 0, 0, 0, 0],
              ⟨[0, 0, 0, 0], [0, 0, 0, 0]⟩)
      ∧ binary.BigEndian.Uint32 (net.To4 [0, 0, 0, 0]) = .ok 0
      ∧ net.MaskSize [0, 0, 0, 0] = (0, 32)
      ∧ BitTrie.Find net.sampleLib2
          (BitTrie.Insert net.sampleLib2 sampleTrie "0.0.0.0/0" "D").1 "11.0.0.0"
          = .ok (some "D")
      ∧ (parseIPorCIDR net.sampleLib2 "0.0.0.0/0" = .ok (0, 0)
        ∧ (BitTrie.Insert net.sampleLib2 sampleTrie "0.0.0.0/0" "D").2 = none
        ∧ (∃ c0 c1 val, sampleTrie.root = .node c0 c1 val
            ∧ (BitTrie.Insert net.sampleLib2 sampleTrie "0.0.0.0/0" "D").1.root
                = .node c0 c1 (some "D"))
        ∧ ∀ x xv, binary.BigEndian.Uint32 (net.To4 (net.sampleLib2.ParseIP x)) = .ok xv →
            ∃ w, BitTrie.Find net.sampleLib2
                  (BitTrie.Insert net.sampleLib2 sampleTrie "0.0.0.0/0" "D").1 x = .ok (some w)
              ∧ ((∀ e ∈ BitTrie.parsedCalls net.sampleLib2 sampleCalls,
                    0 < e.bitLen → ¬ e.covers xv) → w = "D")) :=
  ⟨rfl, rfl, rfl, rfl, rfl,
    BitTrie.insert_zero_length_matches_all net.sampleLib2 sampleCalls sampleTrie rfl
      "0.0.0.0/0" "D" _ _ 0 rfl rfl rfl⟩

/-- C16. Depth invariant of the binary trie: in a trie built from a new one by
successful inserts, the node at the end of a path carries a value exactly when
some inserted pattern parsed to the length of the path with the bits of the
path as its leading bits; no node lies deeper than 32; and every node other
than the root that has no child carries a value. -/
theorem BitTrie.depth_invariant {V : Type} (lib : net.Lib) (calls : List (String × V))
    (t : BitTrie V) (hrun : BitTrie.insertAll lib NewBitTrie calls = some t) :
    (∀ path, (∃ v, t.root.lookup path = some v)
        ↔ ∃ e ∈ BitTrie.parsedCalls lib calls,
            e.bitLen = path.length ∧ bitPath e.ip 0 e.bitLen = path)
      ∧ (∀ path, t.root.present path = true → path.length ≤ 32)
      ∧ (∀ path, path ≠ [] → t.root.present path = true →
          t.root.present (path ++ [false]) = false → t.root.present (path ++ [true]) = false →
          ∃ v, t.root.lookup path = some v) := by
  obtain ⟨_, hes, hlook⟩ := BitTrie.insertAll_new lib calls t hrun
  have hpres := BitTrie.insertAll_present lib calls NewBitTrie t (by simp [NewBitTrie]) hrun
  have h1 : ∀ path, (∃ v, t.root.lookup path = some v)
      ↔ ∃ e ∈ BitTrie.parsedCalls lib calls,
          e.bitLen = path.length ∧ bitPath e.ip 0 e.bitLen = path := by
    intro path
    rw [hlook]
    constructor
    · rintro ⟨v, hv⟩
      obtain ⟨before, e, after, hsplit, hk, _, _⟩ := (lastAt_eq_some_iff _ _ _ _ _).mp hv
      refine ⟨e, by rw [hsplit]; simp, ?_, hk⟩
      rw [← hk, bitPath_length]
    · rintro ⟨e, he, _, hk⟩
      cases hl : lastAt (fun e : Route V => bitPath e.ip 0 e.bitLen) Route.value
          (BitTrie.parsedCalls lib calls) path with
      | some v => exact ⟨v, rfl⟩
      | none => exact absurd hk ((lastAt_eq_none_iff _ _ _ _).mp hl e he)
  refine ⟨h1, ?_, ?_⟩
  · intro path hp
    rcases (hpres path).mp hp with h0 | ⟨e, he, hpre⟩
    · rw [(NewBitTrie_present path).mp h0]; simp
    · have := hpre.length_le
      rw [bitPath_length] at this
      have := (hes e he).2
      omega
  · intro path hne hp hf ht
    rcases (hpres path).mp hp with h0 | ⟨e, he, hpre⟩
    · exact absurd ((NewBitTrie_present path).mp h0) hne
    · obtain ⟨rest, hrest⟩ := hpre
      cases rest with
      | nil =>
        rw [List.append_nil] at hrest
        exact (h1 path).mpr ⟨e, he, by rw [hrest, bitPath_length], hrest.symm⟩
      | cons b rest1 =>
        have hchild : t.root.present (path ++ [b]) = true := by
          refine (hpres _).mpr (Or.inr ⟨e, he, ⟨rest1, ?_⟩⟩)
          rw [← hrest]; simp
        cases b
        · rw [hf] at hchild; exact nomatch hchild
        · rw [ht] at hchild; exact nomatch hchild

/-- Witness of C16 on the trie of the two sample prefixes. -/
theorem BitTrie.depth_invariant_witness :
    BitTrie.insertAll net.sampleLib NewBitTrie sampleCalls = some sampleTrie
      ∧ (∀ path, (∃ v, sampleTrie.root.lookup path = some v)
          ↔ ∃ e ∈ BitTrie.parsedCalls net.sampleLib sampleCalls,
              e.bitLen = path.length ∧ bitPath e.ip 0 e.bitLen = path)
      ∧ (∀ path, sampleTrie.root.present path = true → path.length ≤ 32)
      ∧ (∀ path, path ≠ [] → sampleTrie.root.present path = true →
          sampleTrie.root.present (path ++ [false]) = false →
          sampleTrie.root.present (path ++ [true]) = false →
          ∃ v, sampleTrie.root.lookup path = some v) :=
  ⟨rfl, BitTrie.depth_invariant net.sampleLib sampleCalls sampleTrie rfl⟩

/-- C17. Insert does not disturb addresses outside the inserted prefix: when
the pattern parses to `(ip, n)` and the first `n` bits of the address `xv`
differ from those of `ip`, `Find` returns after the `Insert` what it returned
before. -/
theorem BitTrie.insert_frame {V : Type} (lib : net.Lib) (t : BitTrie V) (p : String) (v : V)
    (ip n : Nat) (x : String) (xv : Nat) (hp : parseIPorCIDR lib p = .ok (ip, n))
    (hx : binary.BigEndian.Uint32 (net.To4 (lib.ParseIP x)) = .ok xv)
    (hdiff : ip / 2 ^ (32 - n) ≠ xv / 2 ^ (32 - n)) :
    BitTrie.Find lib (BitTrie.Insert lib t p v).1 x = BitTrie.Find lib t x := by
  obtain ⟨hip, hn⟩ := parseIPorCIDR_bounds lib p ip n hp
  have hxv : xv < 2 ^ 32 := binary.BigEndian.Uint32_lt _ _ hx
  rw [BitTrie.Insert4_of_parse lib t p v ip n hp]
  cases hr : t.root with
  | null =>
    have : t = ⟨.null⟩ := by cases t; simp only at hr; rw [hr]
    rw [this, bitNode.insertPath_null]
  | node c0 c1 val =>
    have hroot : t.root ≠ .null := by rw [hr]; simp
    have hroot2 : bitNode.insertPath (some v) (bitPath ip 0 n) (bitNode.node c0 c1 val)
        ≠ .null := bitNode.insertPath4_ne_null _ _ _ (by simp)
    rw [BitTrie.Find4_eq_bestAlong lib _ x xv hroot2 hx,
      BitTrie.Find4_eq_bestAlong lib t x xv hroot hx, hr]
    congr 1
    apply bestAlong_congr
    intro q hq
    rw [bitNode.lookup_insertPath _ _ _ (by simp)]
    have hne : q ≠ bitPath ip 0 n := by
      intro h
      have hcov := (bitPath_prefix_iff_covers (⟨ip, n, v⟩ : Route V) xv hn hip hxv).mp (h ▸ hq)
      exact hdiff hcov
    rw [if_neg hne]

/-- Witness of C17: inserting `10.1.0.0/16` again does not change what
`11.0.0.0` finds. -/
theorem BitTrie.insert_frame_witness :
    parseIPorCIDR net.sampleLib "10.1.0.0/16" = .ok (167837696, 16)
      ∧ binary.BigEndian.Uint32 (net.To4 (net.sampleLib.ParseIP "11.0.0.0")) = .ok 184549376
      ∧ 167837696 / 2 ^ (32 - 16) ≠ 184549376 / 2 ^ (32 - 16)
      ∧ BitTrie.Find net.sampleLib (BitTrie.Insert net.sampleLib sampleTrie "10.1.0.0/16" "N").1
          "11.0.0.0" = BitTrie.Find net.sampleLib sampleTrie "11.0.0.0" :=
  ⟨rfl, rfl, by decide,
    BitTrie.insert_frame net.sampleLib sampleTrie "10.1.0.0/16" "N" 167837696 16 "11.0.0.0"
      184549376 rfl rfl (by decide)⟩

/-- C18. Inserts of different prefixes commute: when two patterns parse to
prefixes that differ in length, or have the same length and differ in one of
their leading bits, inserting them in either order leaves the same trie and
returns the same, so `Find` agrees on every address. -/
theorem BitTrie.insert_comm {V : Type} (lib : net.Lib) (t : BitTrie V) (p1 p2 : String)
    (v1 v2 : V) (ip1 n1 ip2 n2 : Nat) (h1 : parseIPorCIDR lib p1 = .ok (ip1, n1))
    (h2 : parseIPorCIDR lib p2 = .ok (ip2, n2))
    (hdiff : n1 ≠ n2 ∨ ip1 / 2 ^ (32 - n1) ≠ ip2 / 2 ^ (32 - n1)) :
    BitTrie.Insert lib (BitTrie.Insert lib t p1 v1).1 p2 v2
        = BitTrie.Insert lib (BitTrie.Insert lib t p2 v2).1 p1 v1
      ∧ ∀ x, BitTrie.Find lib (BitTrie.Insert lib (BitTrie.Insert lib t p1 v1).1 p2 v2).1 x
          = BitTrie.Find lib (BitTrie.Insert lib (BitTrie.Insert lib t p2 v2).1 p1 v1).1 x := by
  obtain ⟨hip1, hn1⟩ := parseIPorCIDR_bounds lib p1 ip1 n1 h1
  obtain ⟨hip2, hn2⟩ := parseIPorCIDR_bounds lib p2 ip2 n2 h2
  have hkey : bitPath ip2 0 n2 ≠ bitPath ip1 0 n1 := by
    intro h
    have hlen : n2 = n1 := by
      have := congrArg List.length h
      rwa [bitPath_length, bitPath_length] at this
    subst hlen
    rcases hdiff with hd | hd
    · exact hd rfl
    · exact hd ((bitPath_eq_iff ip1 ip2 n2 hn1 hip1 hip2).mp h.symm)
  have heq : BitTrie.Insert lib (BitTrie.Insert lib t p1 v1).1 p2 v2
      = BitTrie.Insert lib (BitTrie.Insert lib t p2 v2).1 p1 v1 := by
    rw [BitTrie.Insert4_of_parse lib _ p2 v2 ip2 n2 h2,
      BitTrie.Insert4_of_parse lib t p1 v1 ip1 n1 h1,
      BitTrie.Insert4_of_parse lib _ p1 v1 ip1 n1 h1,
      BitTrie.Insert4_of_parse lib t p2 v2 ip2 n2 h2]
    simp only
    rw [bitNode.insertPath_comm (some v2) (some v1) (bitPath ip2 0 n2) (bitPath ip1 0 n1)
      t.root hkey]
    cases hr : t.root with
    | null => simp [bitNode.insertPath_null]
    | node c0 c1 val =>
      have hne1 := bitNode.insertPath4_ne_null (some v1) (bitPath ip1 0 n1)
        (bitNode.node c0 c1 val) (by simp)
      have hne2 := bitNode.insertPath4_ne_null (some v2) (bitPath ip2 0 n2)
        (bitNode.node c0 c1 val) (by simp)
      cases hc1 : bitNode.insertPath (some v1) (bitPath ip1 0 n1) (bitNode.node c0 c1 val) with
      | null => exact absurd hc1 hne1
      | node d0 d1 dv =>
        cases hc2 : bitNode.insertPath (some v2) (bitPath ip2 0 n2) (bitNode.node c0 c1 val) with
        | null => exact absurd hc2 hne2
        | node g0 g1 gv => rfl
  exact ⟨heq, fun x => by rw [heq]⟩

/-- Witness of C18 on the two sample prefixes, which differ in length. -/
theorem BitTrie.insert_comm_witness :
    parseIPorCIDR net.sampleLib "10.0.0.0/8" = .ok (167772160, 8)
      ∧ parseIPorCIDR net.sampleLib "10.1.0.0/16" = .ok (167837696, 16)
      ∧ ((8 : Nat) ≠ 16 ∨ 167772160 / 2 ^ (32 - 8) ≠ 167837696 / 2 ^ (32 - 8))
      ∧ BitTrie.Insert net.sampleLib
            (BitTrie.Insert net.sampleLib (NewBitTrie : BitTrie String) "10.0.0.0/8" "A").1
            "10.1.0.0/16" "B"
          = BitTrie.Insert net.sampleLib
              (BitTrie.Insert net.sampleLib (NewBitTrie : BitTrie String) "10.1.0.0/16" "B").1
              "10.0.0.0/8" "A"
      ∧ ∀ x, BitTrie.Find net.sampleLib
            (BitTrie.Insert net.sampleLib
              (BitTrie.Insert net.sampleLib (NewBitTrie : BitTrie String) "10.0.0.0/8" "A").1
              "10.1.0.0/16" "B").1 x
          = BitTrie.Find net.sampleLib
              (BitTrie.Insert net.sampleLib
                (BitTrie.Insert net.sampleLib (NewBitTrie : BitTrie String) "10.1.0.0/16" "B").1
                "10.0.0.0/8" "A").1 x :=
  ⟨rfl, rfl, Or.inl (by decide),
    BitTrie.insert_comm net.sampleLib NewBitTrie "10.0.0.0/8" "10.1.0.0/16" "A" "B"
      167772160 8 167837696 16 rfl rfl (Or.inl (by decide))⟩

end addrtrie
